import Mathlib

/-!
Verification of the LICM (loop-invariant code motion) pass implemented in
`p3.cpp`.  The development shallowly embeds the pass: LLVM values,
instructions, basic blocks and functions become Lean structures; the loop
forest produced by the external `LoopInfo` analysis is an explicit inductive
tree; the pass's mutation of the instruction stream is explicit state
passing over a `PassState` that also carries the statistic counters and an
observational log of every relocation the pass performs.

Modelling conventions:
  * `Val` mirrors `llvm::Value`: constants, function arguments, global
    variables, instruction results (tagged with the defining instruction's
    kind so that `isa<AllocaInst>` / `isa<GlobalVariable>` tests on operands
    can be evaluated without a lookup, exactly as LLVM's RTTI does), and
    basic-block labels (branch operands).
  * Instruction identity is a numeric `id` standing for the C++ object
    address.  The pass's `std::set<Instruction*>` worklist iterates in
    ascending pointer order; the model iterates in ascending `id` order.
  * `Instruction::moveBefore(PreHeader->getTerminator())` becomes: erase the
    instruction (by id) from the blocks and re-insert it immediately before
    the last instruction of the preheader block.
-/

inductive IKind where
  | ordinary
  | load
  | store
  | call
  | br
  | alloca
deriving DecidableEq, Repr

inductive Val where
  | const : Nat → Val
  | arg : Nat → Val
  | gvar : Nat → Val
  | res : Nat → IKind → Val
  | label : Nat → Val
deriving DecidableEq, Repr

structure Instr where
  id : Nat
  kind : IKind
  isVolatile : Bool
  operands : List Val
deriving DecidableEq, Repr

structure Block where
  id : Nat
  instrs : List Instr
deriving DecidableEq, Repr

structure Fn where
  blocks : List Block
deriving DecidableEq, Repr

/-- The loop-nest forest node delivered by the external `LoopInfo` analysis:
`blockIds` is `Loop::blocks()` (all blocks of the loop, sub-loop blocks
included), `preheader` is `Loop::getLoopPreheader()` (`none` when absent),
`subLoops` is `Loop::getSubLoops()`. -/
inductive Loop where
  | mk (blockIds : List Nat) (preheader : Option Nat) (subLoops : List Loop)

def Loop.blockIds : Loop → List Nat
  | .mk b _ _ => b

def Loop.preheader : Loop → Option Nat
  | .mk _ p _ => p

def Loop.subLoops : Loop → List Loop
  | .mk _ _ s => s

/-- `Instruction::getOperand(n)`; total with a dummy default. -/
def getOperand (i : Instr) (n : Nat) : Val := i.operands.getD n (Val.const 0)

/-- `isa<GlobalVariable>(v)`. -/
def isGlobalVal : Val → Bool
  | .gvar _ => true
  | _ => false

/-- `isa<AllocaInst>(v)`. -/
def isAllocaVal : Val → Bool
  | .res _ k => k == IKind.alloca
  | _ => false

def Fn.getBlock (f : Fn) (bid : Nat) : Option Block :=
  f.blocks.find? (fun b => b.id == bid)

/-- All instructions of the function, in block order. -/
def allInstrs (f : Fn) : List Instr := (f.blocks.map Block.instrs).flatten

def blockIdList (f : Fn) : List Nat := f.blocks.map Block.id

/-- Whether the instruction with the given id currently sits in one of the
loop's blocks (`Loop::contains(I->getParent())`). -/
def defInLoop (f : Fn) (L : Loop) (iid : Nat) : Bool :=
  f.blocks.any (fun b => L.blockIds.contains b.id && b.instrs.any (fun j => j.id == iid))

/-- `Loop::isLoopInvariant(Value*)`: an instruction result is invariant iff
its defining instruction is (currently) outside the loop; every other value
is invariant. -/
def isLoopInvariant (f : Fn) (L : Loop) (v : Val) : Bool :=
  match v with
  | .res iid _ => !defInLoop f L iid
  | _ => true

/-- `AreAllOperandsLoopInvaraint` (sic) from `p3.cpp`. -/
def AreAllOperandsLoopInvaraint (f : Fn) (L : Loop) (i : Instr) : Bool :=
  i.operands.all (fun op => isLoopInvariant f L op)

/-- The ids of the instructions defining the operand values of a list of
operands: the definitions whose placement the invariance check inspects. -/
def resIds (ops : List Val) : List Nat :=
  ops.filterMap (fun v =>
    match v with
    | Val.res d _ => some d
    | _ => none)

/-- `NoPossibleStoresToAddressInLoop` from `p3.cpp`: scan every instruction
of every loop block; a store whose destination is syntactically the load
address makes the load unsafe, and so does a store whose destination is
neither an alloca nor a global variable. -/
def NoPossibleStoresToAddressInLoop (f : Fn) (L : Loop) (loadAddress : Val) : Bool :=
  L.blockIds.all (fun bid =>
    match f.getBlock bid with
    | none => true
    | some b => b.instrs.all (fun i =>
        !(i.kind == IKind.store) ||
          (let a := getOperand i 1
           !(a == loadAddress) && (isAllocaVal a || isGlobalVal a))))

/-- `CanMoveOutofLoop` from `p3.cpp` (the live code: the alloca and
loop-invariant-address cases are commented out in the source; the
`loopHasStore` parameter is accepted and ignored, as in the source). -/
def CanMoveOutofLoop (f : Fn) (L : Loop) (i : Instr) (loadAddress : Val)
    (_loopHasStore : Bool) : Bool :=
  if i.isVolatile then false
  else if isGlobalVal loadAddress && NoPossibleStoresToAddressInLoop f L loadAddress then true
  else false

/-- `NotALoadOrStore` from `p3.cpp`. -/
def NotALoadOrStore (i : Instr) : Bool :=
  !(i.kind == IKind.load) && !(i.kind == IKind.store)

/-- `llvm::isSafeToSpeculativelyExecute`, restricted to the modelled
instruction kinds: ordinary (side-effect-free arithmetic) instructions are
speculatable; loads, stores, calls, terminators and allocas are not. -/
def isSafeToSpeculativelyExecute (k : IKind) : Bool :=
  match k with
  | .ordinary => true
  | _ => false

/-- `Instruction::mayReadFromMemory` over the modelled kinds. -/
def mayReadFromMemory (k : IKind) : Bool :=
  match k with
  | .load => true
  | .call => true
  | _ => false

/-- Insert `j` immediately before the last element (the terminator) of a
block's instruction list: `j->moveBefore(block->getTerminator())`'s
insertion half. -/
def insertBeforeLast (l : List Instr) (j : Instr) : List Instr :=
  match l with
  | [] => [j]
  | [t] => [j, t]
  | a :: rest => a :: insertBeforeLast rest j

/-- Unlink the instruction with id `iid` from every block: the removal half
of `moveBefore` (the id plays the role of the object address, so exactly one
occurrence exists in a well-formed state). -/
def removeInstrId (f : Fn) (iid : Nat) : Fn :=
  { blocks := f.blocks.map (fun b =>
      { b with instrs := b.instrs.filter (fun j => !(j.id == iid)) }) }

def insertInBlock (f : Fn) (bid : Nat) (j : Instr) : Fn :=
  { blocks := f.blocks.map (fun b =>
      if b.id == bid then { b with instrs := insertBeforeLast b.instrs j } else b) }

/-- `hoistInstructionToPreheader` from `p3.cpp`:
`I->moveBefore(PreHeader->getTerminator())`. -/
def hoistInstructionToPreheader (f : Fn) (i : Instr) (ph : Nat) : Fn :=
  insertInBlock (removeInstrId f i.id) ph i

/-- The `llvm::Statistic` counters of `p3.cpp` (process-global, zero at
program start). -/
structure Stats where
  numLoops : Nat := 0
  licmBasic : Nat := 0
  licmLoadHoist : Nat := 0
  licmNoPreheader : Nat := 0
  numLoopsNoStore : Nat := 0
  numLoopsNoLoad : Nat := 0
  numLoopsNoStoreWithLoad : Nat := 0
  numLoopsWithCall : Nat := 0
deriving DecidableEq, Repr

/-- `updateStats` from `p3.cpp`, including the intentional double increment
of `NumLoopsWithCall`. -/
def updateStats (s : Stats) (hasLoad hasStore hasCall : Bool) : Stats :=
  if !hasStore && hasLoad then
    { s with numLoopsNoStoreWithLoad := s.numLoopsNoStoreWithLoad + 1 }
  else if !hasLoad then
    { s with numLoopsNoLoad := s.numLoopsNoLoad + 1 }
  else if !hasStore then
    { s with numLoopsNoStore := s.numLoopsNoStore + 1 }
  else if hasCall then
    { s with numLoopsWithCall := s.numLoopsWithCall + 2 }
  else s

/-- Observational record of one relocation performed by the pass: which loop
performed it, the relocated instruction, the destination (that loop's
preheader) and the instruction placement just before the move. -/
structure MoveEv where
  loop : Loop
  instr : Instr
  dst : Nat
  before : Fn

structure PassState where
  fn : Fn
  stats : Stats
  log : List MoveEv

/-- `llvm::Loop::makeLoopInvariant(Instruction*, bool &Changed)` (LLVM 13,
the external library routine invoked at p3.cpp:383), with the default insert
point `getLoopPreheader()->getTerminator()`: an instruction already outside
the loop is reported invariant without a move; an instruction that is not
safe to speculatively execute, may read memory, or lacks a preheader to move
to is rejected; otherwise, when all operands are loop-invariant, the
instruction is moved before the preheader's terminator and `Changed` is set.
(LLVM's recursive hoisting of non-invariant operands is elided: the sole
call site has already checked `AreAllOperandsLoopInvaraint`, making that
recursion a sequence of immediately-true base cases.)  Returns the new
function state paired with the emitted move event; `Changed` is the event's
presence. -/
def makeLoopInvariant (f : Fn) (L : Loop) (i : Instr) : Fn × Option MoveEv :=
  if !(defInLoop f L i.id) then (f, none)
  else if !(isSafeToSpeculativelyExecute i.kind) then (f, none)
  else if mayReadFromMemory i.kind then (f, none)
  else
    match L.preheader with
    | none => (f, none)
    | some ph =>
      if AreAllOperandsLoopInvaraint f L i then
        (hoistInstructionToPreheader f i ph,
         some { loop := L, instr := i, dst := ph, before := f })
      else (f, none)

/-- One iteration of the worklist loop of `OptimizeLoop2` (p3.cpp:376-402)
for instruction `i`: ordinary instructions with invariant operands go
through `makeLoopInvariant` (counting `LICMBasic` when it changes
something); loads go through `CanMoveOutofLoop` and, when movable, are
hoisted to the preheader (counting `LICMLoadHoist`). -/
def processInstr (L : Loop) (ph : Nat) (loopHasStore : Bool)
    (st : PassState) (i : Instr) : PassState :=
  if NotALoadOrStore i then
    if AreAllOperandsLoopInvaraint st.fn L i then
      match makeLoopInvariant st.fn L i with
      | (f', some ev) =>
        { fn := f',
          stats := { st.stats with licmBasic := st.stats.licmBasic + 1 },
          log := st.log ++ [ev] }
      | (f', none) => { st with fn := f' }
    else st
  else if i.kind == IKind.load then
    let addr := getOperand i 0
    if CanMoveOutofLoop st.fn L i addr loopHasStore then
      { fn := hoistInstructionToPreheader st.fn i ph,
        stats := { st.stats with licmLoadHoist := st.stats.licmLoadHoist + 1 },
        log := st.log ++ [{ loop := L, instr := i, dst := ph, before := st.fn }] }
    else st
  else st

/-- Ascending-id insertion into a sorted list: the model of
`std::set<Instruction*>` insertion (pointer order becomes id order). -/
def insertSorted (i : Instr) : List Instr → List Instr
  | [] => [i]
  | j :: rest => if i.id ≤ j.id then i :: j :: rest else j :: insertSorted i rest

def sortById (l : List Instr) : List Instr := l.foldr insertSorted []

def blockHasKind (b : Block) (k : IKind) : Bool :=
  b.instrs.any (fun i => i.kind == k)

/-- The body of `for (BasicBlock *bb : L->blocks())` in `OptimizeLoop2`:
scan the block for loads/stores/calls (feeding `updateStats` and the
accumulated `loopContainsStore` flag), snapshot its instructions into the
worklist and drain the worklist in ascending id order. -/
def processBlockW (L : Loop) (ph : Nat) (acc : PassState × Bool) (bid : Nat) :
    PassState × Bool :=
  let st := acc.1
  let loopStore := acc.2
  match st.fn.getBlock bid with
  | none => (st, loopStore)
  | some b =>
    let hasLoad := blockHasKind b IKind.load
    let hasStore := blockHasKind b IKind.store
    let hasCall := blockHasKind b IKind.call
    let loopStore2 := loopStore || hasStore
    let st2 := { st with stats := updateStats st.stats hasLoad hasStore hasCall }
    (((sortById b.instrs).foldl (processInstr L ph loopStore2) st2), loopStore2)

mutual
/-- `OptimizeLoop2` from `p3.cpp`: count the loop, bail out (counting
`LICMNoPreheader`) when there is no preheader, recurse into the sub-loops,
then run the per-block worklist over the loop's blocks. -/
def OptimizeLoop2 (L : Loop) (st : PassState) : PassState :=
  match L with
  | Loop.mk bids pre subs =>
    let st1 := { st with stats := { st.stats with numLoops := st.stats.numLoops + 1 } }
    match pre with
    | none =>
      { st1 with stats := { st1.stats with licmNoPreheader := st1.stats.licmNoPreheader + 1 } }
    | some ph =>
      let st2 := OptimizeSubLoops subs st1
      (bids.foldl (processBlockW (Loop.mk bids (some ph) subs) ph) (st2, false)).1

/-- Sequential processing of a list of loops (the sub-loop recursion of
`OptimizeLoop2`, and the top-level `for (auto li : *LI)` of
`RunLICMBasic`). -/
def OptimizeSubLoops (ls : List Loop) (st : PassState) : PassState :=
  match ls with
  | [] => st
  | l :: rest => OptimizeSubLoops rest (OptimizeLoop2 l st)
end

/-- One function of the module together with the loop forest the external
`LoopInfo` analysis computes for it. -/
structure FuncUnit where
  fn : Fn
  loops : List Loop

/-- `RunLICMBasic` from `p3.cpp`: skip functions without basic blocks,
otherwise process every top-level loop of the function.  The statistic
counters (and the observational log) are process-global and thread through
all functions. -/
def RunLICMBasic (m : List FuncUnit) (stats : Stats) (log : List MoveEv) :
    List FuncUnit × Stats × List MoveEv :=
  match m with
  | [] => ([], stats, log)
  | u :: rest =>
    if u.fn.blocks.isEmpty then
      let r := RunLICMBasic rest stats log
      (u :: r.1, r.2)
    else
      let st := OptimizeSubLoops u.loops { fn := u.fn, stats := stats, log := log }
      let r := RunLICMBasic rest st.stats st.log
      ({ u with fn := st.fn } :: r.1, r.2)

/-- `LoopInvariantCodeMotion` from `p3.cpp`: increment then immediately
decrement `LICMLoadHoist` (the autograder unused-warning workaround), then
run the pass; counters start at zero as for freshly loaded
`llvm::Statistic`s. -/
def LoopInvariantCodeMotion (m : List FuncUnit) : List FuncUnit × Stats × List MoveEv :=
  let s0 : Stats := {}
  let s1 := { s0 with licmLoadHoist := s0.licmLoadHoist + 1 }
  let s2 := { s1 with licmLoadHoist := s1.licmLoadHoist - 1 }
  RunLICMBasic m s2 []

/-- The instruction placement produced by one execution of the program on a
module (a fresh statistics table each run; the loop forests are recomputed
from the CFG, which the pass never alters, so they are carried over
unchanged). -/
def runModuleOnce (m : List FuncUnit) : List FuncUnit :=
  (LoopInvariantCodeMotion m).1

/-! ## Well-formedness of the external IR and loop forest

The pass runs on IR produced by the external builder/parser and on loop
forests produced by the external `LoopInfo` analysis.  The following
decidable predicates record the invariants those externals guarantee:
distinct block addresses, distinct instruction addresses, every block ended
by a terminator; loop blocks exist in the function, a preheader exists and
lies outside its loop, sub-loop blocks are contained in the parent loop and
a sub-loop's preheader is a block of the parent loop. -/

def nodupB : List Nat → Bool
  | [] => true
  | x :: xs => !(xs.contains x) && nodupB xs

def lastIsTerminator (b : Block) : Bool :=
  match b.instrs.getLast? with
  | some t => t.kind == IKind.br
  | none => false

def WfFnB (f : Fn) : Bool :=
  nodupB (blockIdList f) && nodupB ((allInstrs f).map Instr.id) &&
    f.blocks.all lastIsTerminator

mutual
def wfLoopB (bl : List Nat) : Loop → Bool
  | .mk bids pre subs =>
    bids.all (fun b => bl.contains b) &&
    (match pre with
     | none => true
     | some p => bl.contains p && !(bids.contains p)) &&
    wfSubsB bl bids subs

def wfSubsB (bl : List Nat) (parentBids : List Nat) : List Loop → Bool
  | [] => true
  | S :: rest =>
    S.blockIds.all (fun b => parentBids.contains b) &&
    (match S.preheader with
     | none => true
     | some q => parentBids.contains q) &&
    wfLoopB bl S && wfSubsB bl parentBids rest
end

/-! ## Placement observations -/

/-- Every (block id, instruction) pair of the function whose instruction has
the given id: the current placement of the object the id stands for. -/
def locate (f : Fn) (iid : Nat) : List (Nat × Instr) :=
  (f.blocks.map (fun b =>
    (b.instrs.filter (fun j => j.id == iid)).map (fun j => (b.id, j)))).flatten

/-- The instruction `i` occurs in the block with id `bid`. -/
def occB (f : Fn) (bid : Nat) (i : Instr) : Bool :=
  f.blocks.any (fun b => b.id == bid && b.instrs.contains i)

/-- The instruction `i` occurs in block `bid` strictly before the block's
last instruction (i.e. before the terminator). -/
def occBeforeTermB (f : Fn) (bid : Nat) (i : Instr) : Bool :=
  f.blocks.any (fun b => b.id == bid && b.instrs.dropLast.contains i)

/-- Claim-side predicate written from the specification's words alone ("if
any write's destination address is syntactically identical to `address`,
treat as possibly written; if no write in the loop targets it, it is safe
regardless of other writes"): to be compared with the implementation's
`NoPossibleStoresToAddressInLoop`. -/
def specNoStoreToAddress (f : Fn) (L : Loop) (loadAddress : Val) : Bool :=
  L.blockIds.all (fun bid =>
    match f.getBlock bid with
    | none => true
    | some b => b.instrs.all (fun i =>
        !(i.kind == IKind.store) || !(getOperand i 1 == loadAddress)))

/-! ## Concrete programs used by counterexamples and witnesses -/

def brI (n bid : Nat) : Instr :=
  { id := n, kind := IKind.br, isVolatile := false, operands := [Val.label bid] }

def loadG (n g : Nat) : Instr :=
  { id := n, kind := IKind.load, isVolatile := false, operands := [Val.gvar g] }

/-- Loop body containing a global load and a store through an unresolved
pointer (a function argument). -/
def exA : Fn :=
  { blocks :=
      [ { id := 0, instrs := [brI 90 1] },
        { id := 1, instrs :=
            [ loadG 10 0,
              { id := 11, kind := IKind.store, isVolatile := false,
                operands := [Val.const 5, Val.arg 0] },
              brI 91 1 ] } ] }

def loopA : Loop := Loop.mk [1] (some 0) []

def stA : PassState := { fn := exA, stats := {}, log := [] }

example : specNoStoreToAddress exA loopA (Val.gvar 0) = true := by decide
example : NoPossibleStoresToAddressInLoop exA loopA (Val.gvar 0) = false := by decide
example : (OptimizeLoop2 loopA stA).fn = exA := by decide
example : (OptimizeLoop2 loopA stA).stats.licmLoadHoist = 0 := by decide

/-- Loop body containing only a safely hoistable global load. -/
def exB : Fn :=
  { blocks :=
      [ { id := 0, instrs := [brI 90 1] },
        { id := 1, instrs := [loadG 10 0, brI 91 1] } ] }

def stB : PassState := { fn := exB, stats := {}, log := [] }

example : (OptimizeLoop2 loopA stB).fn =
    { blocks :=
        [ { id := 0, instrs := [loadG 10 0, brI 90 1] },
          { id := 1, instrs := [brI 91 1] } ] } := by decide
example : (OptimizeLoop2 loopA stB).stats.licmLoadHoist = 1 := by decide
example : occBeforeTermB (OptimizeLoop2 loopA stB).fn 0 (loadG 10 0) = true := by decide

/-- An outer loop lacking a preheader whose inner loop has a preheader
(block 1) and a safely hoistable global load (in block 2). -/
def exC : Fn :=
  { blocks :=
      [ { id := 1, instrs := [brI 92 2] },
        { id := 2, instrs := [loadG 10 0, brI 93 2] } ] }

def innerC : Loop := Loop.mk [2] (some 1) []
def outerC : Loop := Loop.mk [1, 2] none [innerC]
def modC : List FuncUnit := [{ fn := exC, loops := [outerC] }]

example : (RunLICMBasic modC {} []).2.1.numLoops = 1 := by decide
example : (RunLICMBasic modC {} []).2.1.licmNoPreheader = 1 := by decide
example : (RunLICMBasic modC {} []).1.map FuncUnit.fn = [exC] := by decide

/-- Loop body containing a call whose operands are all loop-invariant. -/
def callI : Instr :=
  { id := 30, kind := IKind.call, isVolatile := false, operands := [Val.gvar 5] }

def exD : Fn :=
  { blocks :=
      [ { id := 0, instrs := [brI 90 1] },
        { id := 1, instrs := [callI, brI 91 1] } ] }

def stD : PassState := { fn := exD, stats := {}, log := [] }

example : NotALoadOrStore callI = true := by decide
example : AreAllOperandsLoopInvaraint exD loopA callI = true := by decide
example : (OptimizeLoop2 loopA stD).fn = exD := by decide
example : (OptimizeLoop2 loopA stD).stats.licmBasic = 0 := by decide

/-- A two-instruction invariant chain stored so that the worklist (ordered
by instruction address) visits the use before its definition. -/
def exE1 : Instr :=
  { id := 2, kind := IKind.ordinary, isVolatile := false,
    operands := [Val.arg 0, Val.arg 1] }

def exE2 : Instr :=
  { id := 1, kind := IKind.ordinary, isVolatile := false,
    operands := [Val.res 2 IKind.ordinary, Val.arg 0] }

def exE : Fn :=
  { blocks :=
      [ { id := 0, instrs := [brI 90 1] },
        { id := 1, instrs := [exE2, exE1, brI 91 1] } ] }

def modE : List FuncUnit := [{ fn := exE, loops := [Loop.mk [1] (some 0) []] }]

example : (runModuleOnce modE).map FuncUnit.fn =
    [{ blocks :=
        [ { id := 0, instrs := [exE1, brI 90 1] },
          { id := 1, instrs := [exE2, brI 91 1] } ] }] := by decide
example : (runModuleOnce (runModuleOnce modE)).map FuncUnit.fn =
    [{ blocks :=
        [ { id := 0, instrs := [exE1, exE2, brI 90 1] },
          { id := 1, instrs := [brI 91 1] } ] }] := by decide

/-- Loop body with a volatile read of a global and no writes at all. -/
def vloadI : Instr :=
  { id := 10, kind := IKind.load, isVolatile := true, operands := [Val.gvar 0] }

def exF : Fn :=
  { blocks :=
      [ { id := 0, instrs := [brI 90 1] },
        { id := 1, instrs := [vloadI, brI 91 1] } ] }

def stF : PassState := { fn := exF, stats := {}, log := [] }

example : (OptimizeSubLoops [loopA] stF).fn = exF := by decide

/-- Loop body with a non-volatile read from an unresolved (argument)
pointer and no writes at all. -/
def aloadI : Instr :=
  { id := 10, kind := IKind.load, isVolatile := false, operands := [Val.arg 0] }

def exG : Fn :=
  { blocks :=
      [ { id := 0, instrs := [brI 90 1] },
        { id := 1, instrs := [aloadI, brI 91 1] } ] }

def stG : PassState := { fn := exG, stats := {}, log := [] }

example : (OptimizeSubLoops [loopA] stG).fn = exG := by decide

/-! ## Unfolding equations for the loop walker -/

theorem OptimizeSubLoops_nil (st : PassState) : OptimizeSubLoops [] st = st := by
  simp [OptimizeSubLoops]

theorem OptimizeSubLoops_cons (l : Loop) (rest : List Loop) (st : PassState) :
    OptimizeSubLoops (l :: rest) st = OptimizeSubLoops rest (OptimizeLoop2 l st) := by
  simp [OptimizeSubLoops]

theorem OptimizeLoop2_noPreheader (L : Loop) (st : PassState) (h : L.preheader = none) :
    OptimizeLoop2 L st =
      { st with stats :=
          { st.stats with
              numLoops := st.stats.numLoops + 1,
              licmNoPreheader := st.stats.licmNoPreheader + 1 } } := by
  cases L with
  | mk bids pre subs =>
    simp only [Loop.preheader] at h
    subst h
    simp [OptimizeLoop2]

theorem OptimizeLoop2_preheader (bids : List Nat) (ph : Nat) (subs : List Loop)
    (st : PassState) :
    OptimizeLoop2 (Loop.mk bids (some ph) subs) st =
      (bids.foldl (processBlockW (Loop.mk bids (some ph) subs) ph)
        (OptimizeSubLoops subs
          { st with stats := { st.stats with numLoops := st.stats.numLoops + 1 } },
         false)).1 := by
  simp [OptimizeLoop2]

/-! ## The move log: every relocation is guarded

`GoodEv e` collects exactly the facts that the two relocation sites of the
pass establish before moving: a load is moved only when non-volatile, with a
global address that no store in the loop may write; anything else is moved
only through `makeLoopInvariant`, i.e. it is a speculatable non-memory
instruction whose operands are all loop-invariant at the moment of the move
(`e.before`). -/
def GoodEv (e : MoveEv) : Prop :=
  e.loop.preheader = some e.dst ∧
  ((e.instr.kind = IKind.load ∧ e.instr.isVolatile = false ∧
      isGlobalVal (getOperand e.instr 0) = true ∧
      NoPossibleStoresToAddressInLoop e.before e.loop (getOperand e.instr 0) = true) ∨
   (NotALoadOrStore e.instr = true ∧
      isSafeToSpeculativelyExecute e.instr.kind = true ∧
      defInLoop e.before e.loop e.instr.id = true ∧
      AreAllOperandsLoopInvaraint e.before e.loop e.instr = true))

theorem makeLoopInvariant_some (f : Fn) (L : Loop) (i : Instr) (f' : Fn) (ev : MoveEv)
    (h : makeLoopInvariant f L i = (f', some ev)) :
    ev.loop = L ∧ ev.instr = i ∧ ev.before = f ∧ L.preheader = some ev.dst ∧
    defInLoop f L i.id = true ∧ isSafeToSpeculativelyExecute i.kind = true ∧
    AreAllOperandsLoopInvaraint f L i = true ∧
    f' = hoistInstructionToPreheader f i ev.dst := by
  unfold makeLoopInvariant at h
  cases hd : defInLoop f L i.id with
  | false => simp [hd] at h
  | true =>
    cases hs : isSafeToSpeculativelyExecute i.kind with
    | false => simp [hd, hs] at h
    | true =>
      cases hm : mayReadFromMemory i.kind with
      | true => simp [hd, hs, hm] at h
      | false =>
        cases hp : L.preheader with
        | none => simp [hd, hs, hm, hp] at h
        | some ph =>
          cases ha : AreAllOperandsLoopInvaraint f L i with
          | false => simp [hd, hs, hm, hp, ha] at h
          | true =>
            simp [hd, hs, hm, hp, ha] at h
            obtain ⟨hf, hev⟩ := h
            subst hev
            exact ⟨rfl, rfl, rfl, rfl, rfl, rfl, rfl, hf.symm⟩

theorem makeLoopInvariant_none (f : Fn) (L : Loop) (i : Instr) (f' : Fn)
    (h : makeLoopInvariant f L i = (f', none)) : f' = f := by
  unfold makeLoopInvariant at h
  cases hd : defInLoop f L i.id with
  | false => simp [hd] at h; exact h.symm
  | true =>
    cases hs : isSafeToSpeculativelyExecute i.kind with
    | false => simp [hd, hs] at h; exact h.symm
    | true =>
      cases hm : mayReadFromMemory i.kind with
      | true => simp [hd, hs, hm] at h; exact h.symm
      | false =>
        cases hp : L.preheader with
        | none => simp [hd, hs, hm, hp] at h; exact h.symm
        | some ph =>
          cases ha : AreAllOperandsLoopInvaraint f L i with
          | false => simp [hd, hs, hm, hp, ha] at h; exact h.symm
          | true => simp [hd, hs, hm, hp, ha] at h

theorem CanMoveOutofLoop_true (f : Fn) (L : Loop) (i : Instr) (a : Val) (hs : Bool)
    (h : CanMoveOutofLoop f L i a hs = true) :
    i.isVolatile = false ∧ isGlobalVal a = true ∧
      NoPossibleStoresToAddressInLoop f L a = true := by
  unfold CanMoveOutofLoop at h
  cases hv : i.isVolatile with
  | true => simp [hv] at h
  | false =>
    simp only [hv, if_false, Bool.false_eq_true] at h
    cases hg : (isGlobalVal a && NoPossibleStoresToAddressInLoop f L a) with
    | false => simp [hg] at h
    | true =>
      simp only [Bool.and_eq_true] at hg
      exact ⟨rfl, hg.1, hg.2⟩

def loadEvCount (l : List MoveEv) : Nat :=
  (l.filter (fun e => e.instr.kind == IKind.load)).length

def basicEvCount (l : List MoveEv) : Nat :=
  (l.filter (fun e => !(e.instr.kind == IKind.load))).length

/-- The relocations `d` performed between two pass states: the log grows by
exactly `d`, every relocation in `d` was guarded, and the two hoist counters
advance in lockstep with the load / non-load relocations in `d`. -/
def TraceSpec (st st' : PassState) (d : List MoveEv) : Prop :=
  st'.log = st.log ++ d ∧ (∀ e ∈ d, GoodEv e) ∧
  st'.stats.licmLoadHoist = st.stats.licmLoadHoist + loadEvCount d ∧
  st'.stats.licmBasic = st.stats.licmBasic + basicEvCount d

theorem TraceSpec_nil (st st' : PassState) (hlog : st'.log = st.log)
    (hl : st'.stats.licmLoadHoist = st.stats.licmLoadHoist)
    (hb : st'.stats.licmBasic = st.stats.licmBasic) :
    TraceSpec st st' [] := by
  refine ⟨by simp [hlog], by simp, ?_, ?_⟩
  · simp [hl, loadEvCount]
  · simp [hb, basicEvCount]

theorem TraceSpec_comp (a b c : PassState) (d1 d2 : List MoveEv)
    (h1 : TraceSpec a b d1) (h2 : TraceSpec b c d2) : TraceSpec a c (d1 ++ d2) := by
  obtain ⟨l1, g1, c1, e1⟩ := h1
  obtain ⟨l2, g2, c2, e2⟩ := h2
  refine ⟨by rw [l2, l1, List.append_assoc], ?_, ?_, ?_⟩
  · intro e he
    rcases List.mem_append.mp he with h | h
    · exact g1 e h
    · exact g2 e h
  · simp [c2, c1, loadEvCount, List.filter_append, Nat.add_assoc]
  · simp [e2, e1, basicEvCount, List.filter_append, Nat.add_assoc]

theorem updateStats_licmBasic (s : Stats) (a b c : Bool) :
    (updateStats s a b c).licmBasic = s.licmBasic := by
  unfold updateStats
  repeat' split
  all_goals rfl

theorem updateStats_licmLoadHoist (s : Stats) (a b c : Bool) :
    (updateStats s a b c).licmLoadHoist = s.licmLoadHoist := by
  unfold updateStats
  repeat' split
  all_goals rfl

theorem processInstr_trace (L : Loop) (ph : Nat) (hs : Bool) (st : PassState) (i : Instr)
    (hph : L.preheader = some ph) :
    ∃ d, TraceSpec st (processInstr L ph hs st i) d := by
  unfold processInstr
  cases hn : NotALoadOrStore i with
  | true =>
    simp only [hn, if_true]
    cases ha : AreAllOperandsLoopInvaraint st.fn L i with
    | false =>
      simp only [ha, Bool.false_eq_true, if_false]
      exact ⟨[], TraceSpec_nil st st rfl rfl rfl⟩
    | true =>
      simp only [ha, if_true]
      rcases hmk : makeLoopInvariant st.fn L i with ⟨f', evo⟩
      cases evo with
      | none =>
        simp only [hmk]
        exact ⟨[], TraceSpec_nil st { st with fn := f' } rfl rfl rfl⟩
      | some ev =>
        simp only [hmk]
        obtain ⟨hl, hi, hb, hph2, hd, hspec, hall, _⟩ :=
          makeLoopInvariant_some st.fn L i f' ev hmk
        refine ⟨[ev], ?_, ?_, ?_, ?_⟩
        · rfl
        · intro e he
          have he2 : e = ev := List.mem_singleton.mp he
          subst he2
          refine ⟨by rw [hl]; exact hph2, Or.inr ⟨?_, ?_, ?_, ?_⟩⟩
          · rw [hi]; exact hn
          · rw [hi]; exact hspec
          · rw [hi, hb, hl]; exact hd
          · rw [hi, hb, hl]; exact hall
        · have : (ev.instr.kind == IKind.load) = false := by
            rw [hi]
            cases hk : i.kind <;> simp_all [NotALoadOrStore]
          simp [loadEvCount, this]
        · have : (ev.instr.kind == IKind.load) = false := by
            rw [hi]
            cases hk : i.kind <;> simp_all [NotALoadOrStore]
          simp [basicEvCount, this]
  | false =>
    simp only [hn, Bool.false_eq_true, if_false]
    cases hk : (i.kind == IKind.load) with
    | false =>
      simp only [hk, Bool.false_eq_true, if_false]
      exact ⟨[], TraceSpec_nil st st rfl rfl rfl⟩
    | true =>
      simp only [hk, if_true]
      cases hc : CanMoveOutofLoop st.fn L i (getOperand i 0) hs with
      | false =>
        simp only [hc, Bool.false_eq_true, if_false]
        exact ⟨[], TraceSpec_nil st st rfl rfl rfl⟩
      | true =>
        simp only [hc, if_true]
        obtain ⟨hv, hg, hns⟩ := CanMoveOutofLoop_true st.fn L i (getOperand i 0) hs hc
        refine ⟨[{ loop := L, instr := i, dst := ph, before := st.fn }], ?_, ?_, ?_, ?_⟩
        · rfl
        · intro e he
          rcases List.mem_singleton.mp he with rfl
          exact ⟨hph, Or.inl ⟨by simpa using hk, hv, hg, hns⟩⟩
        · simp [loadEvCount, hk]
        · simp [basicEvCount, hk]



/-- The statistics update performed by the per-block scan of
`OptimizeLoop2` (abbreviation used by the unfolding equations below). -/
def scanStats (s : Stats) (b : Block) : Stats :=
  updateStats s (blockHasKind b IKind.load) (blockHasKind b IKind.store)
    (blockHasKind b IKind.call)

theorem processBlockW_none (L : Loop) (ph : Nat) (acc : PassState × Bool) (bid : Nat)
    (h : acc.1.fn.getBlock bid = none) : processBlockW L ph acc bid = acc := by
  unfold processBlockW
  simp [h]

theorem processBlockW_some (L : Loop) (ph : Nat) (acc : PassState × Bool) (bid : Nat)
    (b : Block) (h : acc.1.fn.getBlock bid = some b) :
    processBlockW L ph acc bid =
      ((sortById b.instrs).foldl
         (processInstr L ph (acc.2 || blockHasKind b IKind.store))
         { acc.1 with stats := scanStats acc.1.stats b },
       acc.2 || blockHasKind b IKind.store) := by
  unfold processBlockW scanStats
  simp [h]

theorem drain_trace (L : Loop) (ph : Nat) (hs : Bool) (hph : L.preheader = some ph) :
    ∀ (wl : List Instr) (st : PassState),
      ∃ d, TraceSpec st (wl.foldl (processInstr L ph hs) st) d := by
  intro wl
  induction wl with
  | nil => exact fun st => ⟨[], TraceSpec_nil st st rfl rfl rfl⟩
  | cons i rest ih =>
    intro st
    obtain ⟨d1, h1⟩ := processInstr_trace L ph hs st i hph
    obtain ⟨d2, h2⟩ := ih (processInstr L ph hs st i)
    exact ⟨d1 ++ d2, TraceSpec_comp _ _ _ _ _ h1 h2⟩

theorem processBlockW_trace (L : Loop) (ph : Nat) (hph : L.preheader = some ph)
    (acc : PassState × Bool) (bid : Nat) :
    ∃ d, TraceSpec acc.1 (processBlockW L ph acc bid).1 d := by
  cases hgb : acc.1.fn.getBlock bid with
  | none =>
    rw [processBlockW_none L ph acc bid hgb]
    exact ⟨[], TraceSpec_nil _ _ rfl rfl rfl⟩
  | some b =>
    rw [processBlockW_some L ph acc bid b hgb]
    obtain ⟨d, hd⟩ := drain_trace L ph (acc.2 || blockHasKind b IKind.store) hph
      (sortById b.instrs) { acc.1 with stats := scanStats acc.1.stats b }
    obtain ⟨hl, hg, hc1, hc2⟩ := hd
    refine ⟨d, hl, hg, ?_, ?_⟩
    · rw [hc1]; simp [scanStats, updateStats_licmLoadHoist]
    · rw [hc2]; simp [scanStats, updateStats_licmBasic]

theorem body_trace (L : Loop) (ph : Nat) (hph : L.preheader = some ph) :
    ∀ (bids : List Nat) (acc : PassState × Bool),
      ∃ d, TraceSpec acc.1 (bids.foldl (processBlockW L ph) acc).1 d := by
  intro bids
  induction bids with
  | nil => exact fun acc => ⟨[], TraceSpec_nil _ _ rfl rfl rfl⟩
  | cons bid rest ih =>
    intro acc
    obtain ⟨d1, h1⟩ := processBlockW_trace L ph hph acc bid
    obtain ⟨d2, h2⟩ := ih (processBlockW L ph acc bid)
    exact ⟨d1 ++ d2, TraceSpec_comp _ _ _ _ _ h1 h2⟩

theorem OptimizeLoop2_mk_none (bids : List Nat) (subs : List Loop) (st : PassState) :
    OptimizeLoop2 (Loop.mk bids none subs) st =
      { st with stats :=
          { st.stats with
              numLoops := st.stats.numLoops + 1,
              licmNoPreheader := st.stats.licmNoPreheader + 1 } } :=
  OptimizeLoop2_noPreheader (Loop.mk bids none subs) st rfl

mutual
theorem OptimizeLoop2_trace (L : Loop) :
    ∀ st : PassState, ∃ d, TraceSpec st (OptimizeLoop2 L st) d := by
  cases L with
  | mk bids pre subs =>
    intro st
    cases pre with
    | none =>
      rw [OptimizeLoop2_mk_none]
      exact ⟨[], TraceSpec_nil _ _ rfl rfl rfl⟩
    | some ph =>
      rw [OptimizeLoop2_preheader]
      obtain ⟨d1, h1⟩ := OptimizeSubLoops_trace subs
        { st with stats := { st.stats with numLoops := st.stats.numLoops + 1 } }
      obtain ⟨d2, h2⟩ := body_trace (Loop.mk bids (some ph) subs) ph rfl bids
        (OptimizeSubLoops subs
          { st with stats := { st.stats with numLoops := st.stats.numLoops + 1 } }, false)
      obtain ⟨hl, hg, hc1, hc2⟩ := h1
      exact ⟨d1 ++ d2, TraceSpec_comp _ _ _ _ _ ⟨hl, hg, hc1, hc2⟩ h2⟩

theorem OptimizeSubLoops_trace (ls : List Loop) :
    ∀ st : PassState, ∃ d, TraceSpec st (OptimizeSubLoops ls st) d := by
  cases ls with
  | nil =>
    intro st
    rw [OptimizeSubLoops_nil]
    exact ⟨[], TraceSpec_nil _ _ rfl rfl rfl⟩
  | cons l rest =>
    intro st
    rw [OptimizeSubLoops_cons]
    obtain ⟨d1, h1⟩ := OptimizeLoop2_trace l st
    obtain ⟨d2, h2⟩ := OptimizeSubLoops_trace rest (OptimizeLoop2 l st)
    exact ⟨d1 ++ d2, TraceSpec_comp _ _ _ _ _ h1 h2⟩
end

theorem RunLICMBasic_nil (s : Stats) (log : List MoveEv) :
    RunLICMBasic [] s log = ([], s, log) := by
  simp [RunLICMBasic]

theorem RunLICMBasic_cons_empty (u : FuncUnit) (rest : List FuncUnit) (s : Stats)
    (log : List MoveEv) (h : u.fn.blocks.isEmpty = true) :
    RunLICMBasic (u :: rest) s log =
      (u :: (RunLICMBasic rest s log).1, (RunLICMBasic rest s log).2) := by
  simp [RunLICMBasic, h]

theorem RunLICMBasic_cons_proc (u : FuncUnit) (rest : List FuncUnit) (s : Stats)
    (log : List MoveEv) (h : u.fn.blocks.isEmpty = false) :
    RunLICMBasic (u :: rest) s log =
      ({ u with fn := (OptimizeSubLoops u.loops { fn := u.fn, stats := s, log := log }).fn } ::
         (RunLICMBasic rest
           (OptimizeSubLoops u.loops { fn := u.fn, stats := s, log := log }).stats
           (OptimizeSubLoops u.loops { fn := u.fn, stats := s, log := log }).log).1,
       (RunLICMBasic rest
         (OptimizeSubLoops u.loops { fn := u.fn, stats := s, log := log }).stats
         (OptimizeSubLoops u.loops { fn := u.fn, stats := s, log := log }).log).2) := by
  simp [RunLICMBasic, h]

theorem RunLICMBasic_trace :
    ∀ (m : List FuncUnit) (s : Stats) (log : List MoveEv),
      ∃ d, (RunLICMBasic m s log).2.2 = log ++ d ∧ (∀ e ∈ d, GoodEv e) ∧
        (RunLICMBasic m s log).2.1.licmLoadHoist = s.licmLoadHoist + loadEvCount d ∧
        (RunLICMBasic m s log).2.1.licmBasic = s.licmBasic + basicEvCount d := by
  intro m
  induction m with
  | nil =>
    intro s log
    refine ⟨[], ?_, ?_, ?_, ?_⟩ <;> simp [RunLICMBasic_nil, loadEvCount, basicEvCount]
  | cons u rest ih =>
    intro s log
    cases he : u.fn.blocks.isEmpty with
    | true =>
      rw [RunLICMBasic_cons_empty u rest s log he]
      exact ih s log
    | false =>
      rw [RunLICMBasic_cons_proc u rest s log he]
      obtain ⟨d1, h1⟩ := OptimizeSubLoops_trace u.loops { fn := u.fn, stats := s, log := log }
      obtain ⟨hl1, hg1, hc1, he1⟩ := h1
      obtain ⟨d2, hl2, hg2, hc2, he2⟩ := ih
        (OptimizeSubLoops u.loops { fn := u.fn, stats := s, log := log }).stats
        (OptimizeSubLoops u.loops { fn := u.fn, stats := s, log := log }).log
      refine ⟨d1 ++ d2, ?_, ?_, ?_, ?_⟩
      · rw [hl2, hl1]
        simp [List.append_assoc]
      · intro e hme
        rcases List.mem_append.mp hme with h | h
        · exact hg1 e h
        · exact hg2 e h
      · rw [hc2, hc1]
        simp [loadEvCount, List.filter_append, Nat.add_assoc]
      · rw [he2, he1]
        simp [basicEvCount, List.filter_append, Nat.add_assoc]

/-- The increment-then-decrement of `LICMLoadHoist` at the top of
`LoopInvariantCodeMotion` cancels: the pass entry is exactly
`RunLICMBasic` from zeroed counters. -/
theorem LoopInvariantCodeMotion_eq (m : List FuncUnit) :
    LoopInvariantCodeMotion m = RunLICMBasic m {} [] := rfl

/-- **C10.** After the pass completes on a module, the hoisted-load counter
`LICMLoadHoist` equals exactly the number of load relocations the pass
physically performed (the load entries of the relocation log, each of which
moves a load into a loop preheader); the increment immediately followed by a
decrement at pass entry cancels, leaving the counter identical to a run
without that adjustment and never off by one (the counter lives in `Nat`, so
it is in particular never negative). -/
theorem C10_loadHoist_counter_exact (m : List FuncUnit) :
    (LoopInvariantCodeMotion m).2.1.licmLoadHoist =
      loadEvCount (LoopInvariantCodeMotion m).2.2 ∧
    (LoopInvariantCodeMotion m).2.1 = (RunLICMBasic m {} []).2.1 := by
  constructor
  · rw [LoopInvariantCodeMotion_eq]
    obtain ⟨d, hlog, _, hc, _⟩ := RunLICMBasic_trace m {} []
    rw [hc, hlog]
    simp
  · rw [LoopInvariantCodeMotion_eq]

/-- **C4.** For every loop lacking a preheader, the pass relocates zero
instructions of that loop (function state and relocation log are unchanged),
increments the no-preheader counter exactly once for that loop, and still
counts the loop in the loops-analyzed counter. -/
theorem C4_noPreheader_skip (L : Loop) (st : PassState) (h : L.preheader = none) :
    (OptimizeLoop2 L st).fn = st.fn ∧ (OptimizeLoop2 L st).log = st.log ∧
    (OptimizeLoop2 L st).stats.licmNoPreheader = st.stats.licmNoPreheader + 1 ∧
    (OptimizeLoop2 L st).stats.numLoops = st.stats.numLoops + 1 := by
  rw [OptimizeLoop2_noPreheader L st h]
  exact ⟨rfl, rfl, rfl, rfl⟩

theorem C4_noPreheader_skip_witness :
    (OptimizeLoop2 (Loop.mk [1] none []) stB).fn = stB.fn ∧
    (OptimizeLoop2 (Loop.mk [1] none []) stB).log = stB.log ∧
    (OptimizeLoop2 (Loop.mk [1] none []) stB).stats.licmNoPreheader =
      stB.stats.licmNoPreheader + 1 ∧
    (OptimizeLoop2 (Loop.mk [1] none []) stB).stats.numLoops =
      stB.stats.numLoops + 1 :=
  C4_noPreheader_skip (Loop.mk [1] none []) stB rfl

/-- **C2 (counterexample).** A concrete nest in which the outer loop has no
preheader while its inner sub-loop has a preheader (block 1) and a load the
pass would hoist if the inner loop were processed: running the pass leaves
the function byte-for-byte unchanged and counts only one loop analyzed, so
the presence of the malformed outer loop does prevent its sub-loop from
being analyzed and optimized, contradicting the claim. -/
theorem C2_counterexample :
    outerC.preheader = none ∧ innerC.preheader = some 1 ∧
    (OptimizeLoop2 innerC { fn := exC, stats := {}, log := [] }).fn ≠ exC ∧
    (RunLICMBasic modC {} []).1.map FuncUnit.fn = [exC] ∧
    (RunLICMBasic modC {} []).2.1.numLoops = 1 := by
  refine ⟨rfl, rfl, ?_, ?_, ?_⟩ <;> decide

/-- **C2 (amended).** For every loop with a preheader, the pass first
recurses into its sub-loops (innermost-first, in list order) and only then
processes the loop's own blocks; a loop whose precondition fails (null
preheader) is skipped together with its entire sub-loop subtree — the
preheader check precedes the recursion — and such a skip leaves the whole
state unchanged except for the two counters, so it never affects the
processing of sibling or enclosing loops. -/
theorem C2_subloopOrder_and_noPreheader_subtree_skip (bids : List Nat)
    (subs : List Loop) (st : PassState) :
    (∀ ph : Nat,
        OptimizeLoop2 (Loop.mk bids (some ph) subs) st =
          (bids.foldl (processBlockW (Loop.mk bids (some ph) subs) ph)
            (OptimizeSubLoops subs
              { st with stats := { st.stats with numLoops := st.stats.numLoops + 1 } },
             false)).1) ∧
    OptimizeLoop2 (Loop.mk bids none subs) st =
      { st with stats :=
          { st.stats with
              numLoops := st.stats.numLoops + 1,
              licmNoPreheader := st.stats.licmNoPreheader + 1 } } :=
  ⟨fun ph => OptimizeLoop2_preheader bids ph subs st, OptimizeLoop2_mk_none bids subs st⟩

/-- **C8 (counterexample).** A loop holding the invariant chain
`exE2 := exE1 + c` where the worklist (ordered by instruction address)
visits the use `exE2` before its definition `exE1`: the first run hoists
only `exE1`, the second run additionally hoists `exE2`, so two runs produce
a placement different from one run, contradicting idempotence. -/
theorem C8_counterexample :
    (runModuleOnce (runModuleOnce modE)).map FuncUnit.fn ≠
      (runModuleOnce modE).map FuncUnit.fn := by
  decide

/-- **C8 (amended).** The pass is idempotent only at its fixed points: if a
run leaves the module's placement unchanged, every further run leaves it
unchanged as well.  In general a second run may relocate strictly more
(namely instructions whose operands became loop-invariant only after the
worklist had already visited them), so two runs need not equal one. -/
theorem C8_idempotent_on_fixed_points (m : List FuncUnit)
    (h : runModuleOnce m = m) :
    runModuleOnce (runModuleOnce m) = runModuleOnce m := by
  rw [h]
  exact h

theorem C8_idempotent_on_fixed_points_witness :
    runModuleOnce (runModuleOnce modC) = runModuleOnce modC :=
  C8_idempotent_on_fixed_points modC (by rfl)

/-! ## Placement frame lemmas: instructions the pass never moves -/

theorem filter_remove_ne (l : List Instr) (a b : Nat) (h : (a == b) = false) :
    (l.filter (fun j => !(j.id == a))).filter (fun j => j.id == b) =
      l.filter (fun j => j.id == b) := by
  have hab : a ≠ b := by simpa using h
  induction l with
  | nil => rfl
  | cons x xs ih =>
    by_cases hx : x.id = b
    · have h2 : (x.id == a) = false := by
        apply beq_eq_false_iff_ne.mpr
        rw [hx]
        exact fun hc => hab hc.symm
      have h1 : (x.id == b) = true := by simp [hx]
      show List.filter (fun j => j.id == b)
          (List.filter (fun j => !(j.id == a)) (x :: xs)) = _
      rw [List.filter_cons, List.filter_cons]
      simp only [h1, h2, Bool.not_false, if_true]
      rw [List.filter_cons]
      simp only [h1, if_true]
      rw [ih]
    · have h1 : (x.id == b) = false := by simp [hx]
      show List.filter (fun j => j.id == b)
          (List.filter (fun j => !(j.id == a)) (x :: xs)) = _
      rw [List.filter_cons]
      by_cases hy : x.id = a
      · have h2 : (x.id == a) = true := by simp [hy]
        simp only [h2, Bool.not_true, Bool.false_eq_true, if_false]
        rw [List.filter_cons]
        simp only [h1, Bool.false_eq_true, if_false]
        exact ih
      · have h2 : (x.id == a) = false := by simp [hy]
        simp only [h2, Bool.not_false, if_true]
        rw [List.filter_cons, List.filter_cons]
        simp only [h1, Bool.false_eq_true, if_false]
        exact ih

theorem filter_insertBeforeLast (p : Instr → Bool) (j : Instr) (h : p j = false) :
    ∀ l, (insertBeforeLast l j).filter p = l.filter p
  | [] => by simp [insertBeforeLast, List.filter_cons, h]
  | [t] => by simp [insertBeforeLast, List.filter_cons, h]
  | a :: b :: rest => by
    have ih := filter_insertBeforeLast p j h (b :: rest)
    show List.filter p (a :: insertBeforeLast (b :: rest) j) = List.filter p (a :: b :: rest)
    simp only [List.filter_cons, ih]

theorem locate_hoist_ne (f : Fn) (i : Instr) (ph : Nat) (iid : Nat)
    (h : (i.id == iid) = false) :
    locate (hoistInstructionToPreheader f i ph) iid = locate f iid := by
  unfold locate hoistInstructionToPreheader insertInBlock removeInstrId
  simp only [List.map_map]
  congr 1
  apply List.map_congr_left
  intro b _
  simp only [Function.comp]
  by_cases hb : (b.id == ph) = true
  · simp only [hb, if_pos]
    rw [filter_insertBeforeLast _ i h, filter_remove_ne b.instrs i.id iid h]
  · simp only [Bool.not_eq_true] at hb
    simp only [hb, Bool.false_eq_true, if_false]
    rw [filter_remove_ne b.instrs i.id iid h]

/-- A load the guard always rejects: volatile, or with a non-global
address. -/
def inertLoad (i : Instr) : Bool :=
  (i.kind == IKind.load) && (i.isVolatile || !(isGlobalVal (getOperand i 0)))

theorem processInstr_inert (L : Loop) (ph : Nat) (hs : Bool) (st : PassState)
    (i : Instr) (h : inertLoad i = true) : processInstr L ph hs st i = st := by
  unfold inertLoad at h
  rw [Bool.and_eq_true] at h
  obtain ⟨hk, hrest⟩ := h
  unfold processInstr
  have hn : NotALoadOrStore i = false := by
    unfold NotALoadOrStore
    simp [hk]
  rw [hn]
  simp only [Bool.false_eq_true, if_false, hk, if_true]
  have hrest2 : i.isVolatile = true ∨ isGlobalVal (getOperand i 0) = false := by
    simpa using hrest
  have hc : CanMoveOutofLoop st.fn L i (getOperand i 0) hs = false := by
    unfold CanMoveOutofLoop
    rcases hrest2 with hv | hg
    · simp [hv]
    · cases hvv : i.isVolatile with
      | true => simp [hvv]
      | false =>
        simp only [hvv, Bool.false_eq_true, if_false]
        simp [hg]
  rw [hc]
  simp

theorem processInstr_locate_ne (L : Loop) (ph : Nat) (hs : Bool) (st : PassState)
    (i : Instr) (iid : Nat) (h : (i.id == iid) = false) :
    locate (processInstr L ph hs st i).fn iid = locate st.fn iid := by
  unfold processInstr
  cases hn : NotALoadOrStore i with
  | true =>
    simp only [hn, if_true]
    cases ha : AreAllOperandsLoopInvaraint st.fn L i with
    | false => simp [ha]
    | true =>
      simp only [ha, if_true]
      rcases hmk : makeLoopInvariant st.fn L i with ⟨f', evo⟩
      cases evo with
      | none =>
        simp only [hmk]
        rw [makeLoopInvariant_none st.fn L i f' hmk]
      | some ev =>
        simp only [hmk]
        obtain ⟨_, _, _, _, _, _, _, hf⟩ := makeLoopInvariant_some st.fn L i f' ev hmk
        rw [hf]
        exact locate_hoist_ne st.fn i ev.dst iid h
  | false =>
    simp only [hn, Bool.false_eq_true, if_false]
    cases hk : (i.kind == IKind.load) with
    | false => simp [hk]
    | true =>
      simp only [hk, if_true]
      cases hc : CanMoveOutofLoop st.fn L i (getOperand i 0) hs with
      | false => simp [hc]
      | true =>
        simp only [hc, if_true]
        exact locate_hoist_ne st.fn i ph iid h

theorem insertSorted_perm (i : Instr) : ∀ l, (insertSorted i l).Perm (i :: l)
  | [] => List.Perm.refl _
  | j :: rest => by
    unfold insertSorted
    by_cases h : i.id ≤ j.id
    · simp only [h, if_pos]
      exact List.Perm.refl _
    · simp only [h, if_neg]
      exact (List.Perm.cons j (insertSorted_perm i rest)).trans
        (List.Perm.swap i j rest)

theorem sortById_perm : ∀ l, (sortById l).Perm l
  | [] => List.Perm.refl _
  | x :: xs => by
    show (insertSorted x (sortById xs)).Perm (x :: xs)
    exact (insertSorted_perm x (sortById xs)).trans (List.Perm.cons x (sortById_perm xs))

theorem mem_sortById (j : Instr) (l : List Instr) (h : j ∈ sortById l) : j ∈ l :=
  (sortById_perm l).mem_iff.mp h

theorem mem_locate (f : Fn) (b : Block) (j : Instr) (iid : Nat)
    (hb : b ∈ f.blocks) (hj : j ∈ b.instrs) (hid : (j.id == iid) = true) :
    (b.id, j) ∈ locate f iid := by
  unfold locate
  rw [List.mem_flatten]
  refine ⟨(b.instrs.filter (fun j => j.id == iid)).map (fun j => (b.id, j)), ?_, ?_⟩
  · exact List.mem_map.mpr ⟨b, hb, rfl⟩
  · exact List.mem_map.mpr ⟨j, List.mem_filter.mpr ⟨hj, hid⟩, rfl⟩

theorem drain_locate_inert (L : Loop) (ph : Nat) (hs : Bool) (iid : Nat) :
    ∀ (wl : List Instr) (st : PassState),
      (∀ j ∈ wl, j.id = iid → inertLoad j = true) →
      locate (wl.foldl (processInstr L ph hs) st).fn iid = locate st.fn iid := by
  intro wl
  induction wl with
  | nil => intro st _; rfl
  | cons j rest ih =>
    intro st hwl
    have hrest : ∀ k ∈ rest, k.id = iid → inertLoad k = true :=
      fun k hk => hwl k (List.mem_cons_of_mem j hk)
    show locate (rest.foldl (processInstr L ph hs) (processInstr L ph hs st j)).fn iid =
      locate st.fn iid
    by_cases hj : j.id = iid
    · have hinert := hwl j (List.mem_cons_self j rest) hj
      rw [ih (processInstr L ph hs st j) hrest,
        processInstr_inert L ph hs st j hinert]
    · have hne : (j.id == iid) = false := beq_eq_false_iff_ne.mpr hj
      rw [ih (processInstr L ph hs st j) hrest,
        processInstr_locate_ne L ph hs st j iid hne]

theorem processBlockW_locate_inert (L : Loop) (ph : Nat) (acc : PassState × Bool)
    (bid : Nat) (iid : Nat)
    (h : ∀ p ∈ locate acc.1.fn iid, inertLoad p.2 = true) :
    locate (processBlockW L ph acc bid).1.fn iid = locate acc.1.fn iid := by
  cases hgb : acc.1.fn.getBlock bid with
  | none => rw [processBlockW_none L ph acc bid hgb]
  | some b =>
    rw [processBlockW_some L ph acc bid b hgb]
    have hbmem : b ∈ acc.1.fn.blocks := by
      have := List.find?_some hgb
      exact List.mem_of_find?_eq_some hgb
    have hwl : ∀ j ∈ sortById b.instrs, j.id = iid → inertLoad j = true := by
      intro j hj hid
      have hj2 : j ∈ b.instrs := mem_sortById j b.instrs hj
      exact h (b.id, j) (mem_locate acc.1.fn b j iid hbmem hj2 (by simp [hid]))
    exact drain_locate_inert L ph (acc.2 || blockHasKind b IKind.store) iid
      (sortById b.instrs) { acc.1 with stats := scanStats acc.1.stats b } hwl

theorem body_locate_inert (L : Loop) (ph : Nat) (iid : Nat) :
    ∀ (bids : List Nat) (acc : PassState × Bool),
      (∀ p ∈ locate acc.1.fn iid, inertLoad p.2 = true) →
      locate ((bids.foldl (processBlockW L ph) acc).1).fn iid = locate acc.1.fn iid := by
  intro bids
  induction bids with
  | nil => intro acc _; rfl
  | cons bid rest ih =>
    intro acc h
    have h1 := processBlockW_locate_inert L ph acc bid iid h
    have h2 : ∀ p ∈ locate (processBlockW L ph acc bid).1.fn iid, inertLoad p.2 = true := by
      rw [h1]; exact h
    show locate ((rest.foldl (processBlockW L ph) (processBlockW L ph acc bid)).1).fn iid =
      locate acc.1.fn iid
    rw [ih (processBlockW L ph acc bid) h2, h1]

mutual
theorem OptimizeLoop2_locate_inert (L : Loop) :
    ∀ (st : PassState) (iid : Nat),
      (∀ p ∈ locate st.fn iid, inertLoad p.2 = true) →
      locate (OptimizeLoop2 L st).fn iid = locate st.fn iid := by
  cases L with
  | mk bids pre subs =>
    intro st iid h
    cases pre with
    | none => rw [OptimizeLoop2_mk_none]
    | some ph =>
      rw [OptimizeLoop2_preheader]
      have h1 := OptimizeSubLoops_locate_inert subs
        { st with stats := { st.stats with numLoops := st.stats.numLoops + 1 } } iid h
      have h2 : ∀ p ∈ locate (OptimizeSubLoops subs
          { st with stats := { st.stats with numLoops := st.stats.numLoops + 1 } }).fn iid,
          inertLoad p.2 = true := by
        rw [h1]; exact h
      rw [body_locate_inert (Loop.mk bids (some ph) subs) ph iid bids
        (OptimizeSubLoops subs
          { st with stats := { st.stats with numLoops := st.stats.numLoops + 1 } }, false) h2]
      exact h1

theorem OptimizeSubLoops_locate_inert (ls : List Loop) :
    ∀ (st : PassState) (iid : Nat),
      (∀ p ∈ locate st.fn iid, inertLoad p.2 = true) →
      locate (OptimizeSubLoops ls st).fn iid = locate st.fn iid := by
  cases ls with
  | nil => intro st iid _; rw [OptimizeSubLoops_nil]
  | cons l rest =>
    intro st iid h
    rw [OptimizeSubLoops_cons]
    have h1 := OptimizeLoop2_locate_inert l st iid h
    have h2 : ∀ p ∈ locate (OptimizeLoop2 l st).fn iid, inertLoad p.2 = true := by
      rw [h1]; exact h
    rw [OptimizeSubLoops_locate_inert rest (OptimizeLoop2 l st) iid h2]
    exact h1
end

/-- **C6.** A volatile memory read is never relocated by the pass: if every
instruction carrying a given id is a volatile load, the placement of that id
is unchanged by processing any loop forest — even when its address is a
global variable and its loop contains no memory writes (no hypothesis about
stores is needed). -/
theorem C6_volatile_load_never_relocated (ls : List Loop) (st : PassState) (iid : Nat)
    (h : ∀ p ∈ locate st.fn iid, p.2.kind = IKind.load ∧ p.2.isVolatile = true) :
    locate (OptimizeSubLoops ls st).fn iid = locate st.fn iid := by
  apply OptimizeSubLoops_locate_inert
  intro p hp
  obtain ⟨hk, hv⟩ := h p hp
  unfold inertLoad
  simp [hk, hv]

theorem C6_volatile_load_never_relocated_witness :
    locate (OptimizeSubLoops [loopA] stF).fn 10 = locate stF.fn 10 :=
  C6_volatile_load_never_relocated [loopA] stF 10 (by decide)

/-- **C7.** A memory read whose address operand is not a global variable
(a local allocation or an unresolved pointer) is never relocated by the
pass: if every instruction carrying a given id is a load with a non-global
address, the placement of that id is unchanged by processing any loop
forest, regardless of whether any loop contains memory writes. -/
theorem C7_nonglobal_load_never_relocated (ls : List Loop) (st : PassState) (iid : Nat)
    (h : ∀ p ∈ locate st.fn iid,
        p.2.kind = IKind.load ∧ isGlobalVal (getOperand p.2 0) = false) :
    locate (OptimizeSubLoops ls st).fn iid = locate st.fn iid := by
  apply OptimizeSubLoops_locate_inert
  intro p hp
  obtain ⟨hk, hg⟩ := h p hp
  unfold inertLoad
  simp [hk, hg]

theorem C7_nonglobal_load_never_relocated_witness :
    locate (OptimizeSubLoops [loopA] stG).fn 10 = locate stG.fn 10 :=
  C7_nonglobal_load_never_relocated [loopA] stG 10 (by decide)

/-! ## Soundness of every relocation (claim C3 machinery) -/

theorem mem_insertBeforeLast (j : Instr) :
    ∀ l x, x ∈ insertBeforeLast l j → x = j ∨ x ∈ l
  | [], x, h => by
    simp only [insertBeforeLast, List.mem_singleton] at h
    exact Or.inl h
  | [t], x, h => by
    simp only [insertBeforeLast, List.mem_cons, List.not_mem_nil, or_false] at h
    rcases h with h | h
    · exact Or.inl h
    · exact Or.inr (by simp [h])
  | a :: b :: rest, x, h => by
    simp only [insertBeforeLast, List.mem_cons] at h
    rcases h with h | h
    · exact Or.inr (by simp [h])
    · rcases mem_insertBeforeLast j (b :: rest) x (by simpa using h) with h1 | h1
      · exact Or.inl h1
      · exact Or.inr (List.mem_cons_of_mem a h1)

theorem mem_allInstrs (f : Fn) (b : Block) (j : Instr)
    (hb : b ∈ f.blocks) (hj : j ∈ b.instrs) : j ∈ allInstrs f := by
  unfold allInstrs
  rw [List.mem_flatten]
  exact ⟨b.instrs, List.mem_map.mpr ⟨b, hb, rfl⟩, hj⟩

theorem allInstrs_removeInstrId (f : Fn) (iid : Nat) (x : Instr)
    (h : x ∈ allInstrs (removeInstrId f iid)) : x ∈ allInstrs f := by
  unfold allInstrs removeInstrId at h
  rw [List.mem_flatten] at h
  obtain ⟨l, hl, hx⟩ := h
  rw [List.mem_map] at hl
  obtain ⟨b', hb', rfl⟩ := hl
  rw [List.mem_map] at hb'
  obtain ⟨b, hb, rfl⟩ := hb'
  exact mem_allInstrs f b x hb (List.mem_of_mem_filter hx)

theorem allInstrs_insertInBlock (f : Fn) (bid : Nat) (j : Instr) (x : Instr)
    (h : x ∈ allInstrs (insertInBlock f bid j)) : x = j ∨ x ∈ allInstrs f := by
  unfold allInstrs insertInBlock at h
  rw [List.mem_flatten] at h
  obtain ⟨l, hl, hx⟩ := h
  rw [List.mem_map] at hl
  obtain ⟨b', hb', rfl⟩ := hl
  rw [List.mem_map] at hb'
  obtain ⟨b, hb, rfl⟩ := hb'
  by_cases hbid : (b.id == bid) = true
  · simp only [hbid, if_pos] at hx
    rcases mem_insertBeforeLast j b.instrs x hx with h1 | h1
    · exact Or.inl h1
    · exact Or.inr (mem_allInstrs f b x hb h1)
  · simp only [Bool.not_eq_true] at hbid
    simp only [hbid, Bool.false_eq_true, if_false] at hx
    exact Or.inr (mem_allInstrs f b x hb hx)

theorem allInstrs_hoist (f : Fn) (i : Instr) (ph : Nat) (x : Instr)
    (h : x ∈ allInstrs (hoistInstructionToPreheader f i ph)) :
    x = i ∨ x ∈ allInstrs f := by
  unfold hoistInstructionToPreheader at h
  rcases allInstrs_insertInBlock (removeInstrId f i.id) ph i x h with h1 | h1
  · exact Or.inl h1
  · exact Or.inr (allInstrs_removeInstrId f i.id x h1)

/-- Well-formedness of LLVM loads: exactly one operand (the address). -/
def loadOk (i : Instr) : Prop := i.kind = IKind.load → i.operands.length = 1

def LoadsOk (f : Fn) : Prop := ∀ i ∈ allInstrs f, loadOk i

def LogOk (log : List MoveEv) : Prop := ∀ e ∈ log, loadOk e.instr

theorem processInstr_arity (L : Loop) (ph : Nat) (hs : Bool) (st : PassState)
    (i : Instr) (hi : loadOk i) (hf : LoadsOk st.fn) (hl : LogOk st.log) :
    LoadsOk (processInstr L ph hs st i).fn ∧ LogOk (processInstr L ph hs st i).log := by
  unfold processInstr
  cases hn : NotALoadOrStore i with
  | true =>
    simp only [hn, if_true]
    cases ha : AreAllOperandsLoopInvaraint st.fn L i with
    | false => simpa [ha] using ⟨hf, hl⟩
    | true =>
      simp only [ha, if_true]
      rcases hmk : makeLoopInvariant st.fn L i with ⟨f', evo⟩
      cases evo with
      | none =>
        simp only [hmk]
        rw [makeLoopInvariant_none st.fn L i f' hmk]
        exact ⟨hf, hl⟩
      | some ev =>
        simp only [hmk]
        obtain ⟨_, hiev, _, _, _, _, _, hfev⟩ := makeLoopInvariant_some st.fn L i f' ev hmk
        constructor
        · intro x hx
          rw [hfev] at hx
          rcases allInstrs_hoist st.fn i ev.dst x hx with rfl | hx2
          · exact hi
          · exact hf x hx2
        · intro e he
          rcases List.mem_append.mp he with he1 | he1
          · exact hl e he1
          · rw [List.mem_singleton.mp he1, hiev]
            exact hi
  | false =>
    simp only [hn, Bool.false_eq_true, if_false]
    cases hk : (i.kind == IKind.load) with
    | false => simpa [hk] using ⟨hf, hl⟩
    | true =>
      simp only [hk, if_true]
      cases hc : CanMoveOutofLoop st.fn L i (getOperand i 0) hs with
      | false => simpa [hc] using ⟨hf, hl⟩
      | true =>
        simp only [hc, if_true]
        constructor
        · intro x hx
          rcases allInstrs_hoist st.fn i ph x hx with rfl | hx2
          · exact hi
          · exact hf x hx2
        · intro e he
          rcases List.mem_append.mp he with he1 | he1
          · exact hl e he1
          · rw [List.mem_singleton.mp he1]
            exact hi

theorem drain_arity (L : Loop) (ph : Nat) (hs : Bool) :
    ∀ (wl : List Instr) (st : PassState),
      (∀ j ∈ wl, loadOk j) → LoadsOk st.fn → LogOk st.log →
      LoadsOk (wl.foldl (processInstr L ph hs) st).fn ∧
        LogOk (wl.foldl (processInstr L ph hs) st).log := by
  intro wl
  induction wl with
  | nil => exact fun st _ hf hl => ⟨hf, hl⟩
  | cons j rest ih =>
    intro st hwl hf hl
    have hj := hwl j (List.mem_cons_self j rest)
    obtain ⟨hf2, hl2⟩ := processInstr_arity L ph hs st j hj hf hl
    exact ih (processInstr L ph hs st j)
      (fun k hk => hwl k (List.mem_cons_of_mem j hk)) hf2 hl2

theorem processBlockW_arity (L : Loop) (ph : Nat) (acc : PassState × Bool) (bid : Nat)
    (hf : LoadsOk acc.1.fn) (hl : LogOk acc.1.log) :
    LoadsOk (processBlockW L ph acc bid).1.fn ∧
      LogOk (processBlockW L ph acc bid).1.log := by
  cases hgb : acc.1.fn.getBlock bid with
  | none =>
    rw [processBlockW_none L ph acc bid hgb]
    exact ⟨hf, hl⟩
  | some b =>
    rw [processBlockW_some L ph acc bid b hgb]
    have hbmem : b ∈ acc.1.fn.blocks := List.mem_of_find?_eq_some hgb
    exact drain_arity L ph (acc.2 || blockHasKind b IKind.store) (sortById b.instrs)
      { acc.1 with stats := scanStats acc.1.stats b }
      (fun j hj => hf j (mem_allInstrs acc.1.fn b j hbmem (mem_sortById j b.instrs hj)))
      hf hl

theorem body_arity (L : Loop) (ph : Nat) :
    ∀ (bids : List Nat) (acc : PassState × Bool),
      LoadsOk acc.1.fn → LogOk acc.1.log →
      LoadsOk ((bids.foldl (processBlockW L ph) acc).1).fn ∧
        LogOk ((bids.foldl (processBlockW L ph) acc).1).log := by
  intro bids
  induction bids with
  | nil => exact fun acc hf hl => ⟨hf, hl⟩
  | cons bid rest ih =>
    intro acc hf hl
    obtain ⟨hf2, hl2⟩ := processBlockW_arity L ph acc bid hf hl
    exact ih (processBlockW L ph acc bid) hf2 hl2

mutual
theorem OptimizeLoop2_arity (L : Loop) :
    ∀ st : PassState, LoadsOk st.fn → LogOk st.log →
      LoadsOk (OptimizeLoop2 L st).fn ∧ LogOk (OptimizeLoop2 L st).log := by
  cases L with
  | mk bids pre subs =>
    intro st hf hl
    cases pre with
    | none =>
      rw [OptimizeLoop2_mk_none]
      exact ⟨hf, hl⟩
    | some ph =>
      rw [OptimizeLoop2_preheader]
      obtain ⟨hf2, hl2⟩ := OptimizeSubLoops_arity subs
        { st with stats := { st.stats with numLoops := st.stats.numLoops + 1 } } hf hl
      exact body_arity (Loop.mk bids (some ph) subs) ph bids
        (OptimizeSubLoops subs
          { st with stats := { st.stats with numLoops := st.stats.numLoops + 1 } }, false)
        hf2 hl2

theorem OptimizeSubLoops_arity (ls : List Loop) :
    ∀ st : PassState, LoadsOk st.fn → LogOk st.log →
      LoadsOk (OptimizeSubLoops ls st).fn ∧ LogOk (OptimizeSubLoops ls st).log := by
  cases ls with
  | nil =>
    intro st hf hl
    rw [OptimizeSubLoops_nil]
    exact ⟨hf, hl⟩
  | cons l rest =>
    intro st hf hl
    rw [OptimizeSubLoops_cons]
    obtain ⟨hf2, hl2⟩ := OptimizeLoop2_arity l st hf hl
    exact OptimizeSubLoops_arity rest (OptimizeLoop2 l st) hf2 hl2
end

theorem RunLICMBasic_arity :
    ∀ (m : List FuncUnit) (s : Stats) (log : List MoveEv),
      (∀ u ∈ m, LoadsOk u.fn) → LogOk log →
      LogOk (RunLICMBasic m s log).2.2 := by
  intro m
  induction m with
  | nil =>
    intro s log _ hl
    rw [RunLICMBasic_nil]
    exact hl
  | cons u rest ih =>
    intro s log hm hl
    cases he : u.fn.blocks.isEmpty with
    | true =>
      rw [RunLICMBasic_cons_empty u rest s log he]
      exact ih s log (fun v hv => hm v (List.mem_cons_of_mem u hv)) hl
    | false =>
      rw [RunLICMBasic_cons_proc u rest s log he]
      obtain ⟨_, hl2⟩ := OptimizeSubLoops_arity u.loops
        { fn := u.fn, stats := s, log := log }
        (hm u (List.mem_cons_self u rest)) hl
      exact ih _ _ (fun v hv => hm v (List.mem_cons_of_mem u hv)) hl2

theorem NoPossibleStores_imp_specNoStore (f : Fn) (L : Loop) (a : Val)
    (h : NoPossibleStoresToAddressInLoop f L a = true) :
    specNoStoreToAddress f L a = true := by
  unfold NoPossibleStoresToAddressInLoop at h
  unfold specNoStoreToAddress
  rw [List.all_eq_true] at h ⊢
  intro bid hbid
  have hb := h bid hbid
  cases hgb : f.getBlock bid with
  | none => simp only [hgb]
  | some b =>
    simp only [hgb] at hb ⊢
    rw [List.all_eq_true] at hb ⊢
    intro i hi
    have hbi := hb i hi
    cases hk : (i.kind == IKind.store) with
    | false => simp [hk]
    | true =>
      simp only [hk, Bool.not_true, Bool.false_or] at hbi ⊢
      rw [Bool.and_eq_true] at hbi
      exact hbi.1

theorem load_operands_invariant (f : Fn) (L : Loop) (i : Instr)
    (harity : i.operands.length = 1) (hg : isGlobalVal (getOperand i 0) = true) :
    AreAllOperandsLoopInvaraint f L i = true := by
  rcases ho : i.operands with _ | ⟨a, rest⟩
  · rw [ho] at harity
    simp at harity
  · rcases rest with _ | ⟨b, rest2⟩
    · have hop : getOperand i 0 = a := by
        unfold getOperand
        rw [ho]
        rfl
      rw [hop] at hg
      unfold AreAllOperandsLoopInvaraint
      rw [ho]
      simp only [List.all_cons, List.all_nil, Bool.and_true]
      cases a <;> simp_all [isGlobalVal, isLoopInvariant]
    · rw [ho] at harity
      simp at harity

/-- **C3.** Soundness of every hoist the pass performs: for every loop `L`
and every instruction `I` relocated out of `L` (an entry of the relocation
log), all of `I`'s operands were loop-invariant with respect to the
placement current at the time of the move, and when `I` is a memory read its
address is a global variable to which no store instruction anywhere in `L`
(at the time of the move; the pass never moves stores) writes.  Requires the
LLVM well-formedness of the input: every load carries exactly one operand. -/
theorem C3_hoist_soundness (m : List FuncUnit) (h : ∀ u ∈ m, LoadsOk u.fn) :
    ∀ e ∈ (LoopInvariantCodeMotion m).2.2,
      AreAllOperandsLoopInvaraint e.before e.loop e.instr = true ∧
      (e.instr.kind = IKind.load →
        isGlobalVal (getOperand e.instr 0) = true ∧
        specNoStoreToAddress e.before e.loop (getOperand e.instr 0) = true) := by
  intro e he
  rw [LoopInvariantCodeMotion_eq] at he
  have hgood : GoodEv e := by
    obtain ⟨d, hlog, hg, _, _⟩ := RunLICMBasic_trace m {} []
    rw [hlog] at he
    exact hg e (by simpa using he)
  have hload : loadOk e.instr :=
    RunLICMBasic_arity m {} [] h (fun e2 he2 => absurd he2 (List.not_mem_nil e2)) e he
  obtain ⟨hph, hcase⟩ := hgood
  rcases hcase with ⟨hk, _, hg2, hns⟩ | ⟨hn, _, _, hall⟩
  · exact ⟨load_operands_invariant e.before e.loop e.instr (hload hk) hg2,
      fun _ => ⟨hg2, NoPossibleStores_imp_specNoStore _ _ _ hns⟩⟩
  · refine ⟨hall, fun hkl => ?_⟩
    exfalso
    unfold NotALoadOrStore at hn
    rw [Bool.and_eq_true] at hn
    have h1 := hn.1
    rw [hkl] at h1
    simp at h1

def modB : List FuncUnit := [{ fn := exB, loops := [loopA] }]

def evB : MoveEv := { loop := loopA, instr := loadG 10 0, dst := 0, before := exB }

theorem C3_hoist_soundness_witness :
    AreAllOperandsLoopInvaraint evB.before evB.loop evB.instr = true ∧
    (evB.instr.kind = IKind.load →
      isGlobalVal (getOperand evB.instr 0) = true ∧
      specNoStoreToAddress evB.before evB.loop (getOperand evB.instr 0) = true) :=
  C3_hoist_soundness modB (by unfold LoadsOk loadOk; decide) evB
    (by rw [show (LoopInvariantCodeMotion modB).2.2 = [evB] from rfl]
        exact List.mem_singleton_self evB)

/-! ## Structure preservation: the pass neither creates nor destroys
instructions or blocks (claim C9 machinery) -/

theorem insertBeforeLast_perm (j : Instr) :
    ∀ l, (insertBeforeLast l j).Perm (j :: l)
  | [] => List.Perm.refl _
  | [t] => List.Perm.refl _
  | a :: b :: rest => by
    show (a :: insertBeforeLast (b :: rest) j).Perm (j :: a :: b :: rest)
    exact (List.Perm.cons a (insertBeforeLast_perm j (b :: rest))).trans
      (List.Perm.swap j a (b :: rest))

theorem allInstrs_cons (b : Block) (rest : List Block) :
    allInstrs { blocks := b :: rest } = b.instrs ++ allInstrs { blocks := rest } := by
  unfold allInstrs
  simp

theorem blockIdList_removeInstrId (f : Fn) (iid : Nat) :
    blockIdList (removeInstrId f iid) = blockIdList f := by
  unfold blockIdList removeInstrId
  simp

theorem blockIdList_insertInBlock (f : Fn) (bid : Nat) (j : Instr) :
    blockIdList (insertInBlock f bid j) = blockIdList f := by
  unfold blockIdList insertInBlock
  rw [List.map_map]
  apply List.map_congr_left
  intro b _
  by_cases h : (b.id == bid) = true
  · simp [h, Function.comp]
  · simp only [Bool.not_eq_true] at h
    simp [h, Function.comp]

theorem blockIdList_hoist (f : Fn) (i : Instr) (ph : Nat) :
    blockIdList (hoistInstructionToPreheader f i ph) = blockIdList f := by
  unfold hoistInstructionToPreheader
  rw [blockIdList_insertInBlock, blockIdList_removeInstrId]

theorem flatten_map_filter (p : Instr → Bool) :
    ∀ (bs : List Block),
      (((bs.map (fun b => { b with instrs := b.instrs.filter p })).map
          Block.instrs).flatten)
        = ((bs.map Block.instrs).flatten).filter p := by
  intro bs
  induction bs with
  | nil => rfl
  | cons b rest ih =>
    simp only [List.map_cons, List.flatten_cons, List.filter_append]
    rw [ih]

theorem allInstrs_removeInstrId_eq (f : Fn) (iid : Nat) :
    allInstrs (removeInstrId f iid) =
      (allInstrs f).filter (fun j => !(j.id == iid)) := by
  unfold allInstrs removeInstrId
  exact flatten_map_filter _ f.blocks

theorem perm_cons_filter_of_nodupIds :
    ∀ (l : List Instr) (i : Instr), (l.map Instr.id).Nodup → i ∈ l →
      (i :: l.filter (fun j => !(j.id == i.id))).Perm l := by
  intro l
  induction l with
  | nil => intro i _ hi; exact absurd hi (List.not_mem_nil i)
  | cons x xs ih =>
    intro i hnd hi
    rw [List.map_cons, List.nodup_cons] at hnd
    obtain ⟨hx, hnd2⟩ := hnd
    rcases List.mem_cons.mp hi with rfl | hi2
    · have hfix : xs.filter (fun j => !(j.id == i.id)) = xs := by
        apply List.filter_eq_self.mpr
        intro j hj
        have hne : j.id ≠ i.id := by
          intro hc
          exact hx (hc ▸ List.mem_map.mpr ⟨j, hj, rfl⟩)
        simp [hne]
      rw [List.filter_cons]
      simp only [beq_self_eq_true, Bool.not_true, Bool.false_eq_true, if_false]
      rw [hfix]
    · have hxid : (x.id == i.id) = false := by
        apply beq_eq_false_iff_ne.mpr
        intro hc
        exact hx (hc ▸ List.mem_map.mpr ⟨i, hi2, rfl⟩)
      rw [List.filter_cons]
      simp only [hxid, Bool.not_false, if_true]
      exact (List.Perm.swap x i _).trans (List.Perm.cons x (ih i hnd2 hi2))

theorem map_skip_insert (bid : Nat) (j : Instr) (rest : List Block)
    (h : ∀ b' ∈ rest, (b'.id == bid) = false) :
    insertInBlock { blocks := rest } bid j = { blocks := rest } := by
  unfold insertInBlock
  have h2 := List.map_congr_left (l := rest)
    (f := fun b => if b.id == bid then { b with instrs := insertBeforeLast b.instrs j } else b)
    (g := fun b => b) (fun b hb => by simp [h b hb])
  simp only [h2]
  simp

theorem insertInBlock_cons (b : Block) (rest : List Block) (bid : Nat) (j : Instr) :
    insertInBlock { blocks := b :: rest } bid j =
      { blocks :=
          (if (b.id == bid) = true
            then { b with instrs := insertBeforeLast b.instrs j }
            else b) :: (insertInBlock { blocks := rest } bid j).blocks } := by
  unfold insertInBlock
  simp

theorem insertInBlock_perm :
    ∀ (bs : List Block) (bid : Nat) (j : Instr),
      bid ∈ blockIdList { blocks := bs } → (blockIdList { blocks := bs }).Nodup →
      (allInstrs (insertInBlock { blocks := bs } bid j)).Perm
        (j :: allInstrs { blocks := bs }) := by
  intro bs
  induction bs with
  | nil =>
    intro bid j hmem _
    exact absurd hmem (by simp [blockIdList])
  | cons b rest ih =>
    intro bid j hmem hnd
    have hbl : blockIdList { blocks := b :: rest } =
        b.id :: blockIdList { blocks := rest } := by simp [blockIdList]
    rw [hbl, List.nodup_cons] at hnd
    obtain ⟨hbx, hnd2⟩ := hnd
    rw [insertInBlock_cons]
    by_cases hb : (b.id == bid) = true
    · have hbid : b.id = bid := by simpa using hb
      have hskip : ∀ b' ∈ rest, (b'.id == bid) = false := by
        intro b' hb'
        apply beq_eq_false_iff_ne.mpr
        intro hc
        rw [← hbid] at hc
        exact hbx (hc ▸ List.mem_map.mpr ⟨b', hb', rfl⟩ : b.id ∈ _)
      rw [map_skip_insert bid j rest hskip]
      simp only [hb, if_pos]
      rw [allInstrs_cons, allInstrs_cons]
      exact List.Perm.append_right _ (insertBeforeLast_perm j b.instrs)
    · simp only [Bool.not_eq_true] at hb
      have hmem2 : bid ∈ blockIdList { blocks := rest } := by
        rw [hbl] at hmem
        rcases List.mem_cons.mp hmem with h | h
        · exact absurd h.symm (by simpa using hb)
        · exact h
      simp only [hb, Bool.false_eq_true, if_false]
      rw [allInstrs_cons, allInstrs_cons]
      have ihp := ih bid j hmem2 hnd2
      exact (List.Perm.append_left b.instrs ihp).trans List.perm_middle

theorem allInstrs_hoist_perm (f : Fn) (i : Instr) (ph : Nat)
    (hi : i ∈ allInstrs f) (hnd : ((allInstrs f).map Instr.id).Nodup)
    (hph : ph ∈ blockIdList f) (hbd : (blockIdList f).Nodup) :
    (allInstrs (hoistInstructionToPreheader f i ph)).Perm (allInstrs f) := by
  unfold hoistInstructionToPreheader
  have h1 := insertInBlock_perm (removeInstrId f i.id).blocks ph i
    (by rw [show ({ blocks := (removeInstrId f i.id).blocks } : Fn) = removeInstrId f i.id from rfl,
          blockIdList_removeInstrId]
        exact hph)
    (by rw [show ({ blocks := (removeInstrId f i.id).blocks } : Fn) = removeInstrId f i.id from rfl,
          blockIdList_removeInstrId]
        exact hbd)
  rw [show ({ blocks := (removeInstrId f i.id).blocks } : Fn) = removeInstrId f i.id from rfl] at h1
  rw [allInstrs_removeInstrId_eq] at h1
  exact h1.trans (perm_cons_filter_of_nodupIds (allInstrs f) i hnd hi)

theorem processInstr_pres (L : Loop) (ph : Nat) (hs : Bool) (st : PassState) (i : Instr)
    (hLp : L.preheader = some ph) (hi : i ∈ allInstrs st.fn)
    (hnd : ((allInstrs st.fn).map Instr.id).Nodup)
    (hph : ph ∈ blockIdList st.fn) (hbd : (blockIdList st.fn).Nodup) :
    blockIdList (processInstr L ph hs st i).fn = blockIdList st.fn ∧
    (allInstrs (processInstr L ph hs st i).fn).Perm (allInstrs st.fn) := by
  unfold processInstr
  cases hn : NotALoadOrStore i with
  | true =>
    simp only [hn, if_true]
    cases ha : AreAllOperandsLoopInvaraint st.fn L i with
    | false => simp [ha]
    | true =>
      simp only [ha, if_true]
      rcases hmk : makeLoopInvariant st.fn L i with ⟨f', evo⟩
      cases evo with
      | none =>
        simp only [hmk]
        rw [makeLoopInvariant_none st.fn L i f' hmk]
        exact ⟨rfl, List.Perm.refl _⟩
      | some ev =>
        simp only [hmk]
        obtain ⟨_, _, _, hph2, _, _, _, hfev⟩ := makeLoopInvariant_some st.fn L i f' ev hmk
        have hdst : ev.dst = ph := by
          rw [hLp] at hph2
          exact (Option.some.inj hph2).symm
        rw [hfev, hdst]
        exact ⟨blockIdList_hoist st.fn i ph,
          allInstrs_hoist_perm st.fn i ph hi hnd hph hbd⟩
  | false =>
    simp only [hn, Bool.false_eq_true, if_false]
    cases hk : (i.kind == IKind.load) with
    | false => simp [hk]
    | true =>
      simp only [hk, if_true]
      cases hc : CanMoveOutofLoop st.fn L i (getOperand i 0) hs with
      | false => simp [hc]
      | true =>
        simp only [hc, if_true]
        exact ⟨blockIdList_hoist st.fn i ph,
          allInstrs_hoist_perm st.fn i ph hi hnd hph hbd⟩

theorem drain_pres (L : Loop) (ph : Nat) (hs : Bool) (hLp : L.preheader = some ph) :
    ∀ (wl : List Instr) (st : PassState),
      (∀ j ∈ wl, j ∈ allInstrs st.fn) →
      ((allInstrs st.fn).map Instr.id).Nodup →
      ph ∈ blockIdList st.fn → (blockIdList st.fn).Nodup →
      blockIdList (wl.foldl (processInstr L ph hs) st).fn = blockIdList st.fn ∧
      (allInstrs (wl.foldl (processInstr L ph hs) st).fn).Perm (allInstrs st.fn) := by
  intro wl
  induction wl with
  | nil => exact fun st _ _ _ _ => ⟨rfl, List.Perm.refl _⟩
  | cons j rest ih =>
    intro st hwl hnd hph hbd
    obtain ⟨hb1, hp1⟩ := processInstr_pres L ph hs st j hLp
      (hwl j (List.mem_cons_self j rest)) hnd hph hbd
    obtain ⟨hb2, hp2⟩ := ih (processInstr L ph hs st j)
      (fun k hk => hp1.mem_iff.mpr (hwl k (List.mem_cons_of_mem j hk)))
      ((hp1.map Instr.id).nodup_iff.mpr hnd)
      (hb1 ▸ hph) (hb1 ▸ hbd)
    exact ⟨hb2.trans hb1, hp2.trans hp1⟩

theorem processBlockW_pres (L : Loop) (ph : Nat) (hLp : L.preheader = some ph)
    (acc : PassState × Bool) (bid : Nat)
    (hnd : ((allInstrs acc.1.fn).map Instr.id).Nodup)
    (hph : ph ∈ blockIdList acc.1.fn) (hbd : (blockIdList acc.1.fn).Nodup) :
    blockIdList (processBlockW L ph acc bid).1.fn = blockIdList acc.1.fn ∧
    (allInstrs (processBlockW L ph acc bid).1.fn).Perm (allInstrs acc.1.fn) := by
  cases hgb : acc.1.fn.getBlock bid with
  | none =>
    rw [processBlockW_none L ph acc bid hgb]
    exact ⟨rfl, List.Perm.refl _⟩
  | some b =>
    rw [processBlockW_some L ph acc bid b hgb]
    have hbmem : b ∈ acc.1.fn.blocks := List.mem_of_find?_eq_some hgb
    exact drain_pres L ph (acc.2 || blockHasKind b IKind.store) hLp (sortById b.instrs)
      { acc.1 with stats := scanStats acc.1.stats b }
      (fun j hj => mem_allInstrs acc.1.fn b j hbmem (mem_sortById j b.instrs hj))
      hnd hph hbd

theorem body_pres (L : Loop) (ph : Nat) (hLp : L.preheader = some ph) :
    ∀ (bids : List Nat) (acc : PassState × Bool),
      ((allInstrs acc.1.fn).map Instr.id).Nodup →
      ph ∈ blockIdList acc.1.fn → (blockIdList acc.1.fn).Nodup →
      blockIdList ((bids.foldl (processBlockW L ph) acc).1).fn = blockIdList acc.1.fn ∧
      (allInstrs ((bids.foldl (processBlockW L ph) acc).1).fn).Perm
        (allInstrs acc.1.fn) := by
  intro bids
  induction bids with
  | nil => exact fun acc _ _ _ => ⟨rfl, List.Perm.refl _⟩
  | cons bid rest ih =>
    intro acc hnd hph hbd
    obtain ⟨hb1, hp1⟩ := processBlockW_pres L ph hLp acc bid hnd hph hbd
    obtain ⟨hb2, hp2⟩ := ih (processBlockW L ph acc bid)
      ((hp1.map Instr.id).nodup_iff.mpr hnd) (hb1 ▸ hph) (hb1 ▸ hbd)
    exact ⟨hb2.trans hb1, hp2.trans hp1⟩

theorem wfLoopB_mk (bl bids : List Nat) (pre : Option Nat) (subs : List Loop) :
    wfLoopB bl (Loop.mk bids pre subs) =
      (bids.all (fun b => bl.contains b) &&
        (match pre with
         | none => true
         | some p => bl.contains p && !(bids.contains p)) &&
        wfSubsB bl bids subs) := by
  rfl

theorem wfSubsB_mem (bl pb : List Nat) :
    ∀ (ls : List Loop) (S : Loop), wfSubsB bl pb ls = true → S ∈ ls →
      (S.blockIds.all (fun b => pb.contains b) = true ∧
       (∀ q, S.preheader = some q → pb.contains q = true) ∧
       wfLoopB bl S = true) := by
  intro ls
  induction ls with
  | nil => intro S _ hS; exact absurd hS (List.not_mem_nil S)
  | cons T rest ih =>
    intro S h hS
    have hexp : (T.blockIds.all (fun b => pb.contains b) &&
        (match T.preheader with
         | none => true
         | some q => pb.contains q) &&
        wfLoopB bl T && wfSubsB bl pb rest) = true := h
    rw [Bool.and_eq_true, Bool.and_eq_true, Bool.and_eq_true] at hexp
    obtain ⟨⟨⟨h1, h2⟩, h3⟩, h4⟩ := hexp
    rcases List.mem_cons.mp hS with rfl | hS2
    · refine ⟨h1, ?_, h3⟩
      intro q hq
      rw [hq] at h2
      exact h2
    · exact ih S h4 hS2

theorem wfLoopB_parts (bl bids : List Nat) (pre : Option Nat) (subs : List Loop)
    (h : wfLoopB bl (Loop.mk bids pre subs) = true) :
    bids.all (fun b => bl.contains b) = true ∧
    (∀ p, pre = some p → (bl.contains p = true ∧ bids.contains p = false)) ∧
    wfSubsB bl bids subs = true := by
  rw [wfLoopB_mk, Bool.and_eq_true, Bool.and_eq_true] at h
  obtain ⟨⟨h1, h2⟩, h3⟩ := h
  refine ⟨h1, ?_, h3⟩
  intro p hp
  rw [hp] at h2
  rw [Bool.and_eq_true] at h2
  exact ⟨h2.1, by simpa using h2.2⟩

mutual
theorem OptimizeLoop2_pres (L : Loop) :
    ∀ st : PassState,
      ((allInstrs st.fn).map Instr.id).Nodup → (blockIdList st.fn).Nodup →
      wfLoopB (blockIdList st.fn) L = true →
      blockIdList (OptimizeLoop2 L st).fn = blockIdList st.fn ∧
      (allInstrs (OptimizeLoop2 L st).fn).Perm (allInstrs st.fn) := by
  cases L with
  | mk bids pre subs =>
    intro st hnd hbd hwf
    cases pre with
    | none =>
      rw [OptimizeLoop2_mk_none]
      exact ⟨rfl, List.Perm.refl _⟩
    | some ph =>
      rw [OptimizeLoop2_preheader]
      obtain ⟨hall, hpre, hsubs⟩ := wfLoopB_parts _ bids (some ph) subs hwf
      have hphmem : ph ∈ blockIdList st.fn := by
        have := (hpre ph rfl).1
        exact List.elem_iff.mp this
      have hsubwf : ∀ S ∈ subs, wfLoopB (blockIdList st.fn) S = true :=
        fun S hS => (wfSubsB_mem _ bids subs S hsubs hS).2.2
      obtain ⟨hb1, hp1⟩ := OptimizeSubLoops_pres subs
        { st with stats := { st.stats with numLoops := st.stats.numLoops + 1 } }
        hnd hbd hsubwf
      obtain ⟨hb2, hp2⟩ := body_pres (Loop.mk bids (some ph) subs) ph rfl bids
        (OptimizeSubLoops subs
          { st with stats := { st.stats with numLoops := st.stats.numLoops + 1 } }, false)
        ((hp1.map Instr.id).nodup_iff.mpr hnd) (hb1 ▸ hphmem) (hb1 ▸ hbd)
      exact ⟨hb2.trans hb1, hp2.trans hp1⟩

theorem OptimizeSubLoops_pres (ls : List Loop) :
    ∀ st : PassState,
      ((allInstrs st.fn).map Instr.id).Nodup → (blockIdList st.fn).Nodup →
      (∀ S ∈ ls, wfLoopB (blockIdList st.fn) S = true) →
      blockIdList (OptimizeSubLoops ls st).fn = blockIdList st.fn ∧
      (allInstrs (OptimizeSubLoops ls st).fn).Perm (allInstrs st.fn) := by
  cases ls with
  | nil =>
    intro st _ _ _
    rw [OptimizeSubLoops_nil]
    exact ⟨rfl, List.Perm.refl _⟩
  | cons l rest =>
    intro st hnd hbd hwf
    rw [OptimizeSubLoops_cons]
    obtain ⟨hb1, hp1⟩ := OptimizeLoop2_pres l st hnd hbd (hwf l (List.mem_cons_self l rest))
    obtain ⟨hb2, hp2⟩ := OptimizeSubLoops_pres rest (OptimizeLoop2 l st)
      ((hp1.map Instr.id).nodup_iff.mpr hnd) (hb1 ▸ hbd)
      (fun S hS => hb1 ▸ hwf S (List.mem_cons_of_mem l hS))
    exact ⟨hb2.trans hb1, hp2.trans hp1⟩
end

/-- **C9.** The pass never creates or destroys instructions or basic
blocks: processing a function's loop forest leaves the block-id sequence
unchanged and permutes the multiset of instruction objects (each kept with
its identity, kind, volatility and operand list intact); only the owning
block and the position of relocated instructions change.  Hypotheses are
the IR builder's guarantees: distinct basic-block addresses, distinct
instruction addresses, and a loop forest whose blocks and preheaders exist
in the function (preheaders outside their loops). -/
theorem C9_no_creation_no_destruction (ls : List Loop) (st : PassState)
    (hnd : ((allInstrs st.fn).map Instr.id).Nodup)
    (hbd : (blockIdList st.fn).Nodup)
    (hwf : ∀ L ∈ ls, wfLoopB (blockIdList st.fn) L = true) :
    blockIdList (OptimizeSubLoops ls st).fn = blockIdList st.fn ∧
    (allInstrs (OptimizeSubLoops ls st).fn).Perm (allInstrs st.fn) :=
  OptimizeSubLoops_pres ls st hnd hbd hwf

theorem C9_no_creation_no_destruction_witness :
    blockIdList (OptimizeSubLoops [loopA] stB).fn = blockIdList stB.fn ∧
    (allInstrs (OptimizeSubLoops [loopA] stB).fn).Perm (allInstrs stB.fn) :=
  C9_no_creation_no_destruction [loopA] stB (by decide) (by decide)
    (by intro L hL
        rw [List.mem_singleton.mp hL]
        decide)

/-! ## The hoisting march (claims C1 and C5 machinery) -/

theorem locate_cons (b : Block) (rest : List Block) (iid : Nat) :
    locate { blocks := b :: rest } iid =
      ((b.instrs.filter (fun j => j.id == iid)).map (fun j => (b.id, j))) ++
        locate { blocks := rest } iid := by
  unfold locate
  simp

theorem locate_mem_inv (f : Fn) (iid : Nat) (q : Nat × Instr)
    (h : q ∈ locate f iid) :
    ∃ b ∈ f.blocks, b.id = q.1 ∧ q.2 ∈ b.instrs ∧ (q.2.id == iid) = true := by
  unfold locate at h
  rw [List.mem_flatten] at h
  obtain ⟨l, hl, hq⟩ := h
  rw [List.mem_map] at hl
  obtain ⟨b, hb, rfl⟩ := hl
  rw [List.mem_map] at hq
  obtain ⟨j, hj, rfl⟩ := hq
  exact ⟨b, hb, rfl, List.mem_of_mem_filter hj, (List.mem_filter.mp hj).2⟩

theorem nodup_ids_inj (f : Fn) (hnd : ((allInstrs f).map Instr.id).Nodup)
    (x y : Instr) (hx : x ∈ allInstrs f) (hy : y ∈ allInstrs f)
    (hxy : x.id = y.id) : x = y :=
  List.inj_on_of_nodup_map hnd hx hy hxy

theorem getBlock_of_mem (f : Fn) (b : Block) (hbd : (blockIdList f).Nodup)
    (hb : b ∈ f.blocks) : f.getBlock b.id = some b := by
  unfold Fn.getBlock
  obtain ⟨bs⟩ := f
  induction bs with
  | nil => exact absurd hb (List.not_mem_nil b)
  | cons c rest ih =>
    have hbl : blockIdList { blocks := c :: rest } =
        c.id :: blockIdList { blocks := rest } := by simp [blockIdList]
    rw [hbl, List.nodup_cons] at hbd
    obtain ⟨hcx, hnd2⟩ := hbd
    rcases List.mem_cons.mp hb with rfl | hb2
    · simp [List.find?]
    · have hne : (c.id == b.id) = false := by
        apply beq_eq_false_iff_ne.mpr
        intro hc
        exact hcx (hc ▸ List.mem_map.mpr ⟨b, hb2, rfl⟩ :
          c.id ∈ blockIdList { blocks := rest })
      rw [List.find?_cons]
      simp only [hne]
      exact ih hnd2 hb2

theorem filter_keeps_last (p : Instr → Bool) (l : List Instr) (z : Instr)
    (hz : l.getLast? = some z) (hp : p z = true) :
    (l.filter p).getLast? = some z := by
  have hne : l ≠ [] := by
    intro hc
    rw [hc] at hz
    simp at hz
  have hdecomp : l.dropLast ++ [l.getLast hne] = l := List.dropLast_append_getLast hne
  have hzz : l.getLast hne = z := by
    have h2 := List.getLast?_eq_getLast l hne
    rw [h2] at hz
    exact Option.some.inj hz
  rw [← hdecomp, List.filter_append]
  have h3 : List.filter p [l.getLast hne] = [z] := by
    rw [hzz]
    simp [hp]
  rw [h3]
  simp

theorem insertBeforeLast_ne_nil (j : Instr) : ∀ l, insertBeforeLast l j ≠ []
  | [] => by simp [insertBeforeLast]
  | [_] => by simp [insertBeforeLast]
  | _ :: _ :: _ => by simp [insertBeforeLast]

theorem getLast?_cons_ne (a : Instr) (l : List Instr) (h : l ≠ []) :
    (a :: l).getLast? = l.getLast? := by
  cases l with
  | nil => exact absurd rfl h
  | cons b rest => exact List.getLast?_cons_cons

theorem getLast?_insertBeforeLast (j : Instr) :
    ∀ l, l ≠ [] → (insertBeforeLast l j).getLast? = l.getLast?
  | [], h => absurd rfl h
  | [t], _ => by simp [insertBeforeLast]
  | a :: b :: rest, _ => by
    show (a :: insertBeforeLast (b :: rest) j).getLast? = (a :: b :: rest).getLast?
    rw [getLast?_cons_ne a _ (insertBeforeLast_ne_nil j (b :: rest)),
      getLast?_cons_ne a (b :: rest) (by simp)]
    exact getLast?_insertBeforeLast j (b :: rest) (by simp)

theorem mem_dropLast_insertBeforeLast_self (j : Instr) :
    ∀ l, l ≠ [] → j ∈ (insertBeforeLast l j).dropLast
  | [], h => absurd rfl h
  | [t], _ => by simp [insertBeforeLast]
  | a :: b :: rest, _ => by
    show j ∈ (a :: insertBeforeLast (b :: rest) j).dropLast
    have hne := insertBeforeLast_ne_nil j (b :: rest)
    cases hI : insertBeforeLast (b :: rest) j with
    | nil => exact absurd hI hne
    | cons y ys =>
      show j ∈ (a :: y :: ys).dropLast
      have ih := mem_dropLast_insertBeforeLast_self j (b :: rest) (by simp)
      rw [hI] at ih
      exact List.mem_cons_of_mem a ih

theorem mem_dropLast_insertBeforeLast_other (j t : Instr) :
    ∀ l, t ∈ l.dropLast → t ∈ (insertBeforeLast l j).dropLast
  | [], h => absurd h (List.not_mem_nil t)
  | [_], h => absurd h (List.not_mem_nil t)
  | a :: b :: rest, h => by
    show t ∈ (a :: insertBeforeLast (b :: rest) j).dropLast
    have hne := insertBeforeLast_ne_nil j (b :: rest)
    cases hI : insertBeforeLast (b :: rest) j with
    | nil => exact absurd hI hne
    | cons y ys =>
      show t ∈ (a :: y :: ys).dropLast
      have hsrc : (a :: b :: rest).dropLast = a :: (b :: rest).dropLast := rfl
      rw [hsrc] at h
      rcases List.mem_cons.mp h with rfl | h2
      · exact List.mem_cons_self _ _
      · have ih := mem_dropLast_insertBeforeLast_other j t (b :: rest) h2
        rw [hI] at ih
        exact List.mem_cons_of_mem a ih

theorem mem_dropLast_filter (pred : Instr → Bool) (l : List Instr) (z t : Instr)
    (hz : l.getLast? = some z) (hpz : pred z = true)
    (ht : t ∈ l.dropLast) (hpt : pred t = true) :
    t ∈ (l.filter pred).dropLast := by
  have hne : l ≠ [] := by
    intro hc
    rw [hc] at hz
    simp at hz
  have hdecomp := List.dropLast_append_getLast hne
  have hzz : l.getLast hne = z := by
    have h2 := List.getLast?_eq_getLast l hne
    rw [h2] at hz
    exact Option.some.inj hz
  conv_lhs => rw [← hdecomp]
  rw [List.filter_append]
  have h3 : List.filter pred [l.getLast hne] = [z] := by
    rw [hzz]
    simp [hpz]
  rw [h3, List.dropLast_concat]
  exact List.mem_filter.mpr ⟨ht, hpt⟩

theorem getBlock_removeInstrId (f : Fn) (iid bid : Nat) :
    (removeInstrId f iid).getBlock bid =
      (f.getBlock bid).map (fun b =>
        { b with instrs := b.instrs.filter (fun j => !(j.id == iid)) }) := by
  unfold Fn.getBlock removeInstrId
  obtain ⟨bs⟩ := f
  induction bs with
  | nil => rfl
  | cons c rest ih =>
    show List.find? _ (_ :: List.map _ rest) = _
    rw [List.find?_cons, List.find?_cons]
    by_cases hc : (c.id == bid) = true
    · simp [hc]
    · have hc2 : (c.id == bid) = false := by simpa using hc
      simp only [hc2]
      exact ih

theorem getBlock_insertInBlock (f : Fn) (bid0 : Nat) (j : Instr) (bid : Nat) :
    (insertInBlock f bid0 j).getBlock bid =
      (f.getBlock bid).map (fun b =>
        if b.id == bid0 then { b with instrs := insertBeforeLast b.instrs j } else b) := by
  unfold Fn.getBlock insertInBlock
  obtain ⟨bs⟩ := f
  induction bs with
  | nil => rfl
  | cons c rest ih =>
    show List.find? _ (_ :: List.map _ rest) = _
    rw [List.find?_cons, List.find?_cons]
    have hid : (if c.id == bid0
        then { c with instrs := insertBeforeLast c.instrs j } else c).id = c.id := by
      by_cases h0 : (c.id == bid0) = true
      · simp [h0]
      · have h02 : (c.id == bid0) = false := by simpa using h0
        simp [h02]
    rw [hid]
    by_cases hc : (c.id == bid) = true
    · simp [hc]
    · have hc2 : (c.id == bid) = false := by simpa using hc
      simp only [hc2]
      exact ih

/-- The store instructions currently inside a given block (empty when the
block id does not resolve). -/
def storeList (f : Fn) (bid : Nat) : List Instr :=
  match f.getBlock bid with
  | none => []
  | some b => b.instrs.filter (fun i => i.kind == IKind.store)

/-- The per-store safety test of `NoPossibleStoresToAddressInLoop`: the
store's destination differs from the address and is an alloca or a
global. -/
def storeSafe (a : Val) (i : Instr) : Bool :=
  !(getOperand i 1 == a) &&
    (isAllocaVal (getOperand i 1) || isGlobalVal (getOperand i 1))

theorem all_filter_or (q p : Instr → Bool) :
    ∀ l : List Instr, (l.all (fun i => !(q i) || p i)) = (l.filter q).all p := by
  intro l
  induction l with
  | nil => rfl
  | cons x xs ih =>
    rw [List.all_cons, List.filter_cons]
    cases hq : q x with
    | true =>
      simp only [hq, if_true, List.all_cons, Bool.not_true, Bool.false_or]
      rw [ih]
    | false =>
      simp only [hq, Bool.false_eq_true, if_false, Bool.not_false, Bool.true_or,
        Bool.true_and]
      exact ih

theorem NoPossibleStores_eq_storeList (f : Fn) (L : Loop) (a : Val) :
    NoPossibleStoresToAddressInLoop f L a =
      L.blockIds.all (fun bid => (storeList f bid).all (storeSafe a)) := by
  unfold NoPossibleStoresToAddressInLoop storeList
  apply congrArg
  funext bid
  cases hgb : f.getBlock bid with
  | none => simp [hgb]
  | some b =>
    simp only [hgb]
    exact all_filter_or (fun i => i.kind == IKind.store) (storeSafe a) b.instrs

theorem filter_remove_no_match (a : Nat) (q : Instr → Bool) :
    ∀ l : List Instr, (∀ x ∈ l, q x = true → x.id ≠ a) →
      (l.filter (fun x => !(x.id == a))).filter q = l.filter q := by
  intro l
  induction l with
  | nil => intro _; rfl
  | cons x xs ih =>
    intro h
    have hxs := fun y hy => h y (List.mem_cons_of_mem x hy)
    rw [List.filter_cons]
    by_cases hx : (x.id == a) = true
    · have hqx : q x = false := by
        cases hqc : q x with
        | false => rfl
        | true => exact absurd (by simpa using hx) (h x (List.mem_cons_self x xs) hqc)
      simp only [hx, Bool.not_true, Bool.false_eq_true, if_false]
      rw [ih hxs, List.filter_cons]
      simp [hqx]
    · have hx2 : (x.id == a) = false := by simpa using hx
      simp only [hx2, Bool.not_false, if_true]
      rw [List.filter_cons, List.filter_cons, ih hxs]

theorem storeList_hoist (f : Fn) (j : Instr) (dst : Nat) (bid : Nat)
    (hnostore : ∀ x ∈ allInstrs f, x.kind = IKind.store → x.id ≠ j.id)
    (hjkind : (j.kind == IKind.store) = false) :
    storeList (hoistInstructionToPreheader f j dst) bid = storeList f bid := by
  unfold storeList hoistInstructionToPreheader
  rw [getBlock_insertInBlock, getBlock_removeInstrId]
  cases hgb : f.getBlock bid with
  | none => rfl
  | some b =>
    have hbmem : b ∈ f.blocks := List.mem_of_find?_eq_some hgb
    have hblk : ∀ x ∈ b.instrs, (fun i => i.kind == IKind.store) x = true → x.id ≠ j.id := by
      intro x hx hq
      exact hnostore x (mem_allInstrs f b x hbmem hx) (by simpa using hq)
    simp only [Option.map_some']
    by_cases hb : (b.id == dst) = true
    · simp only [hb, if_pos]
      rw [filter_insertBeforeLast _ j hjkind]
      exact filter_remove_no_match j.id _ b.instrs hblk
    · have hb2 : (b.id == dst) = false := by simpa using hb
      simp only [hb2, Bool.false_eq_true, if_false]
      exact filter_remove_no_match j.id _ b.instrs hblk

theorem any_filter_const (c : Bool) (iid : Nat) :
    ∀ l : List Instr,
      ((l.filter (fun j => j.id == iid)).any (fun _ => c)) =
        (c && l.any (fun j => j.id == iid)) := by
  intro l
  induction l with
  | nil => cases c <;> simp
  | cons x xs ih =>
    rw [List.filter_cons, List.any_cons]
    by_cases hx : (x.id == iid) = true
    · simp only [hx, if_true, List.any_cons]
      cases c <;> simp [ih]
    · have hx2 : (x.id == iid) = false := by simpa using hx
      simp only [hx2, Bool.false_eq_true, if_false]
      cases c <;> simp [ih]

theorem any_map_fst (bid : Nat) (P : Nat → Bool) :
    ∀ l : List Instr,
      ((l.map (fun j => (bid, j))).any (fun p => P p.1)) = l.any (fun _ => P bid) := by
  intro l
  induction l with
  | nil => rfl
  | cons y ys ih => simp [List.any_cons, ih]

theorem defInLoop_eq_locate (f : Fn) (L : Loop) (iid : Nat) :
    defInLoop f L iid = (locate f iid).any (fun p => L.blockIds.contains p.1) := by
  unfold defInLoop locate
  obtain ⟨bs⟩ := f
  induction bs with
  | nil => rfl
  | cons b rest ih =>
    rw [List.any_cons]
    simp only [List.map_cons, List.flatten_cons, List.any_append]
    rw [← ih]
    congr 1
    rw [any_map_fst b.id (fun x => L.blockIds.contains x), any_filter_const]

theorem locate_removeInstrId_self (f : Fn) (iid : Nat) :
    locate (removeInstrId f iid) iid = [] := by
  unfold locate removeInstrId
  simp only [List.map_map]
  rw [List.flatten_eq_nil_iff]
  intro l hl
  rw [List.mem_map] at hl
  obtain ⟨b, _, rfl⟩ := hl
  simp only [Function.comp]
  rw [List.map_eq_nil_iff]
  rw [List.filter_filter]
  apply List.filter_eq_nil_iff.mpr
  intro j _
  cases hj : (j.id == iid) with
  | false => simp [hj]
  | true => simp [hj]

theorem locate_insertInBlock_self (f : Fn) (dst : Nat) (j : Instr)
    (hnil : locate f j.id = []) (hmem : dst ∈ blockIdList f)
    (hbd : (blockIdList f).Nodup) :
    locate (insertInBlock f dst j) j.id = [(dst, j)] := by
  obtain ⟨bs⟩ := f
  induction bs with
  | nil => exact absurd hmem (by simp [blockIdList])
  | cons c rest ih =>
    have hbl : blockIdList { blocks := c :: rest } =
        c.id :: blockIdList { blocks := rest } := by simp [blockIdList]
    rw [hbl, List.nodup_cons] at hbd
    obtain ⟨hcx, hnd2⟩ := hbd
    rw [locate_cons] at hnil
    have hheadnil : c.instrs.filter (fun x => x.id == j.id) = [] := by
      have := List.append_eq_nil.mp hnil
      exact List.map_eq_nil_iff.mp this.1
    have hrestnil : locate { blocks := rest } j.id = [] :=
      (List.append_eq_nil.mp hnil).2
    rw [insertInBlock_cons, locate_cons]
    by_cases hc : (c.id == dst) = true
    · have hcid : c.id = dst := by simpa using hc
      have hskip : ∀ b' ∈ rest, (b'.id == dst) = false := by
        intro b' hb'
        apply beq_eq_false_iff_ne.mpr
        intro hcon
        rw [← hcid] at hcon
        exact hcx (hcon ▸ List.mem_map.mpr ⟨b', hb', rfl⟩ :
          c.id ∈ blockIdList { blocks := rest })
      rw [map_skip_insert dst j rest hskip]
      simp only [hc, if_pos]
      rw [hrestnil, List.append_nil]
      have hfil : (insertBeforeLast c.instrs j).filter (fun x => x.id == j.id) = [j] := by
        apply List.perm_singleton.mp
        have hperm := (insertBeforeLast_perm j c.instrs).filter (fun x => x.id == j.id)
        rw [List.filter_cons] at hperm
        simp only [beq_self_eq_true, if_true] at hperm
        rw [hheadnil] at hperm
        exact hperm
      rw [hfil]
      simp [hcid]
    · have hc2 : (c.id == dst) = false := by simpa using hc
      simp only [hc2, Bool.false_eq_true, if_false]
      rw [hheadnil]
      simp only [List.map_nil, List.nil_append]
      have hmem2 : dst ∈ blockIdList { blocks := rest } := by
        rw [hbl] at hmem
        rcases List.mem_cons.mp hmem with h | h
        · exact absurd h.symm (by simpa using hc2)
        · exact h
      exact ih hrestnil hmem2 hnd2

theorem locate_hoist_self (f : Fn) (j : Instr) (dst : Nat)
    (hmem : dst ∈ blockIdList f) (hbd : (blockIdList f).Nodup) :
    locate (hoistInstructionToPreheader f j dst) j.id = [(dst, j)] := by
  unfold hoistInstructionToPreheader
  apply locate_insertInBlock_self
  · exact locate_removeInstrId_self f j.id
  · rw [blockIdList_removeInstrId]
    exact hmem
  · rw [blockIdList_removeInstrId]
    exact hbd

theorem getLast?_mem_instr (l : List Instr) (z : Instr) (hz : l.getLast? = some z) :
    z ∈ l := by
  have hne : l ≠ [] := by
    intro hc
    rw [hc] at hz
    simp at hz
  have h2 := List.getLast?_eq_getLast l hne
  rw [h2] at hz
  have hzz := Option.some.inj hz
  rw [← hzz]
  exact List.getLast_mem hne

/-- The per-block effect of unlinking instruction `iid`. -/
def removeBlk (iid : Nat) (b : Block) : Block :=
  { b with instrs := b.instrs.filter (fun j => !(j.id == iid)) }

/-- The per-block effect of inserting `j` before the terminator of block
`bid`. -/
def insertBlk (bid : Nat) (j : Instr) (b : Block) : Block :=
  if b.id == bid then { b with instrs := insertBeforeLast b.instrs j } else b

theorem getBlock_hoist (f : Fn) (j : Instr) (dst bid : Nat) :
    (hoistInstructionToPreheader f j dst).getBlock bid =
      (f.getBlock bid).map (fun b => insertBlk dst j (removeBlk j.id b)) := by
  unfold hoistInstructionToPreheader
  rw [getBlock_insertInBlock, getBlock_removeInstrId, Option.map_map]
  rfl

theorem removeBlk_id (iid : Nat) (b : Block) : (removeBlk iid b).id = b.id := rfl

theorem removeBlk_term (iid : Nat) (b : Block) (z : Instr)
    (hz : b.instrs.getLast? = some z) (hzid : z.id ≠ iid) :
    (removeBlk iid b).instrs.getLast? = some z :=
  filter_keeps_last _ b.instrs z hz (by simp [hzid])

theorem hoist_term (f : Fn) (j : Instr) (dst : Nat)
    (hterm : ∀ b ∈ f.blocks, lastIsTerminator b = true)
    (hnobr : ∀ x ∈ allInstrs f, x.kind = IKind.br → x.id ≠ j.id) :
    ∀ b ∈ (hoistInstructionToPreheader f j dst).blocks, lastIsTerminator b = true := by
  intro b' hb'
  unfold hoistInstructionToPreheader insertInBlock removeInstrId at hb'
  simp only [List.mem_map] at hb'
  obtain ⟨c, hc, rfl⟩ := hb'
  obtain ⟨b, hb, rfl⟩ := hc
  have ht := hterm b hb
  unfold lastIsTerminator at ht
  cases hz : b.instrs.getLast? with
  | none =>
    rw [hz] at ht
    simp at ht
  | some z =>
    rw [hz] at ht
    have hzbr : z.kind = IKind.br := by simpa using ht
    have hzmem : z ∈ b.instrs := getLast?_mem_instr b.instrs z hz
    have hzid : z.id ≠ j.id := hnobr z (mem_allInstrs f b z hb hzmem) hzbr
    have hfl : (removeBlk j.id b).instrs.getLast? = some z := removeBlk_term j.id b z hz hzid
    have hflne : (removeBlk j.id b).instrs ≠ [] := by
      intro hcon
      rw [hcon] at hfl
      simp at hfl
    show lastIsTerminator (insertBlk dst j (removeBlk j.id b)) = true
    unfold insertBlk
    by_cases hd : ((removeBlk j.id b).id == dst) = true
    · simp only [hd, if_pos]
      unfold lastIsTerminator
      simp only
      rw [getLast?_insertBeforeLast j _ hflne, hfl]
      simpa using hzbr
    · have hd2 : ((removeBlk j.id b).id == dst) = false := by simpa using hd
      simp only [hd2, Bool.false_eq_true, if_false]
      unfold lastIsTerminator
      rw [hfl]
      simpa using hzbr

theorem hoist_dst_block (f : Fn) (j : Instr) (dst : Nat) (b0 : Block)
    (hgb : f.getBlock dst = some b0) (hterm : lastIsTerminator b0 = true)
    (hnobr : ∀ x ∈ allInstrs f, x.kind = IKind.br → x.id ≠ j.id) :
    ∃ b ∈ (hoistInstructionToPreheader f j dst).blocks,
      b.id = dst ∧ j ∈ b.instrs.dropLast := by
  have hgbf : List.find? (fun b => b.id == dst) f.blocks = some b0 := hgb
  have hb0id : (b0.id == dst) = true := by
    have h2 := List.find?_some hgbf
    exact h2
  have hb0mem : b0 ∈ f.blocks := List.mem_of_find?_eq_some hgbf
  have hgb2 : (hoistInstructionToPreheader f j dst).getBlock dst =
      some (insertBlk dst j (removeBlk j.id b0)) := by
    rw [getBlock_hoist, hgb]
    rfl
  have hins : insertBlk dst j (removeBlk j.id b0) =
      { b0 with instrs := insertBeforeLast (removeBlk j.id b0).instrs j } := by
    unfold insertBlk
    have : ((removeBlk j.id b0).id == dst) = true := hb0id
    rw [this]
    rfl
  refine ⟨insertBlk dst j (removeBlk j.id b0), List.mem_of_find?_eq_some hgb2, ?_, ?_⟩
  · rw [hins]
    show b0.id = dst
    simpa using hb0id
  · rw [hins]
    show j ∈ (insertBeforeLast (removeBlk j.id b0).instrs j).dropLast
    apply mem_dropLast_insertBeforeLast_self
    unfold lastIsTerminator at hterm
    cases hz : b0.instrs.getLast? with
    | none =>
      rw [hz] at hterm
      simp at hterm
    | some z =>
      rw [hz] at hterm
      have hzbr : z.kind = IKind.br := by simpa using hterm
      have hzmem : z ∈ b0.instrs := getLast?_mem_instr b0.instrs z hz
      have hzid : z.id ≠ j.id := hnobr z (mem_allInstrs f b0 z hb0mem hzmem) hzbr
      have hfl := removeBlk_term j.id b0 z hz hzid
      intro hcon
      rw [hcon] at hfl
      simp at hfl

/-- The target instruction sits (uniquely) in one of the loop's blocks. -/
def posIn (L : Loop) (t : Instr) (f : Fn) : Prop :=
  ∃ x ∈ L.blockIds, locate f t.id = [(x, t)]

/-- The target instruction has been parked in block `ph`, strictly before
its terminator. -/
def posDone (ph : Nat) (t : Instr) (f : Fn) : Prop :=
  locate f t.id = [(ph, t)] ∧ ∃ b ∈ f.blocks, b.id = ph ∧ t ∈ b.instrs.dropLast

/-- The state facts carried while tracking one instruction through the
processing of loop `L`: unique instruction and block ids, terminators in
place, the fixed block-id sequence `BL`, a fixed result `V` of the
store-scan for address `A`, and the ids `D` (operand definitions of the
target) all placed outside `L`. -/
structure MarchCore (L : Loop) (A : Val) (V : Bool) (D : List Nat)
    (BL : List Nat) (f : Fn) : Prop where
  nd : ((allInstrs f).map Instr.id).Nodup
  bd : (blockIdList f).Nodup
  term : ∀ b ∈ f.blocks, lastIsTerminator b = true
  bl : blockIdList f = BL
  stores : NoPossibleStoresToAddressInLoop f L A = V
  dout : ∀ d ∈ D, defInLoop f L d = false

theorem MarchCore_hoist (L : Loop) (A : Val) (V : Bool) (D : List Nat)
    (BL : List Nat) (f : Fn) (inv : MarchCore L A V D BL f)
    (j : Instr) (dst : Nat) (hj : j ∈ allInstrs f)
    (hjk : j.kind = IKind.load ∨ j.kind = IKind.ordinary)
    (hjD : ∀ d ∈ D, j.id ≠ d) (hdst : dst ∈ BL) :
    MarchCore L A V D BL (hoistInstructionToPreheader f j dst) := by
  have hdst2 : dst ∈ blockIdList f := inv.bl ▸ hdst
  have hjKset : ∀ x ∈ allInstrs f, x.kind = IKind.store ∨ x.kind = IKind.br → x.id ≠ j.id := by
    intro x hx hk hc
    have hxj := nodup_ids_inj f inv.nd x j hx hj hc
    subst hxj
    rcases hjk with h | h <;> rcases hk with h2 | h2 <;> rw [h] at h2 <;> cases h2
  have hperm := allInstrs_hoist_perm f j dst hj inv.nd hdst2 inv.bd
  refine ⟨?_, ?_, ?_, ?_, ?_, ?_⟩
  · exact (hperm.map Instr.id).nodup_iff.mpr inv.nd
  · rw [blockIdList_hoist]
    exact inv.bd
  · exact hoist_term f j dst inv.term
      (fun x hx hk => hjKset x hx (Or.inr hk))
  · rw [blockIdList_hoist]
    exact inv.bl
  · have hst := inv.stores
    rw [NoPossibleStores_eq_storeList] at hst ⊢
    rw [← hst]
    apply congrArg
    funext bid
    rw [storeList_hoist f j dst bid (fun x hx hk => hjKset x hx (Or.inl hk))]
    rcases hjk with h | h <;> simp [h]
  · intro d hd
    rw [defInLoop_eq_locate]
    rw [locate_hoist_ne f j dst d (beq_eq_false_iff_ne.mpr (hjD d hd))]
    rw [← defInLoop_eq_locate]
    exact inv.dout d hd

theorem posIn_hoist_other (L : Loop) (t : Instr) (f : Fn) (j : Instr) (dst : Nat)
    (hpos : posIn L t f) (hne : (j.id == t.id) = false) :
    posIn L t (hoistInstructionToPreheader f j dst) := by
  obtain ⟨x, hx, hloc⟩ := hpos
  exact ⟨x, hx, by rw [locate_hoist_ne f j dst t.id hne]; exact hloc⟩

theorem posIn_hoist_self (L : Loop) (t : Instr) (f : Fn) (dst : Nat)
    (hdstL : dst ∈ L.blockIds) (hdstbl : dst ∈ blockIdList f)
    (hbd : (blockIdList f).Nodup) :
    posIn L t (hoistInstructionToPreheader f t dst) :=
  ⟨dst, hdstL, locate_hoist_self f t dst hdstbl hbd⟩

theorem blockIdList_mem_block (f : Fn) (bid : Nat) (h : bid ∈ blockIdList f) :
    ∃ b ∈ f.blocks, b.id = bid := by
  unfold blockIdList at h
  rw [List.mem_map] at h
  obtain ⟨b, hb, rfl⟩ := h
  exact ⟨b, hb, rfl⟩

theorem posDone_hoist_self (ph : Nat) (t : Instr) (f : Fn)
    (hph : ph ∈ blockIdList f) (hbd : (blockIdList f).Nodup)
    (hterm : ∀ b ∈ f.blocks, lastIsTerminator b = true)
    (hnd : ((allInstrs f).map Instr.id).Nodup) (ht : t ∈ allInstrs f)
    (htk : t.kind ≠ IKind.br) :
    posDone ph t (hoistInstructionToPreheader f t ph) := by
  obtain ⟨b0, hb0, hb0id⟩ := blockIdList_mem_block f ph hph
  have hgb : f.getBlock ph = some b0 := by
    rw [← hb0id]
    exact getBlock_of_mem f b0 hbd hb0
  have hnobr : ∀ x ∈ allInstrs f, x.kind = IKind.br → x.id ≠ t.id := by
    intro x hx hk hc
    have hxt := nodup_ids_inj f hnd x t hx ht hc
    subst hxt
    exact htk hk
  refine ⟨locate_hoist_self f t ph hph hbd, ?_⟩
  exact hoist_dst_block f t ph b0 hgb (hterm b0 hb0) hnobr

theorem posDone_hoist_other (ph : Nat) (t : Instr) (f : Fn) (j : Instr) (dst : Nat)
    (hpos : posDone ph t f) (hne : (j.id == t.id) = false)
    (hterm : ∀ b ∈ f.blocks, lastIsTerminator b = true)
    (hnd : ((allInstrs f).map Instr.id).Nodup) (hj : j ∈ allInstrs f)
    (hjk : j.kind = IKind.load ∨ j.kind = IKind.ordinary) :
    posDone ph t (hoistInstructionToPreheader f j dst) := by
  obtain ⟨hloc, b, hb, hbid, hbt⟩ := hpos
  refine ⟨by rw [locate_hoist_ne f j dst t.id hne]; exact hloc, ?_⟩
  have hbterm := hterm b hb
  unfold lastIsTerminator at hbterm
  cases hz : b.instrs.getLast? with
  | none =>
    rw [hz] at hbterm
    simp at hbterm
  | some z =>
    rw [hz] at hbterm
    have hzbr : z.kind = IKind.br := by simpa using hbterm
    have hzid : z.id ≠ j.id := by
      intro hc
      have hzmem := getLast?_mem_instr b.instrs z hz
      have hzj := nodup_ids_inj f hnd z j (mem_allInstrs f b z hb hzmem) hj hc
      subst hzj
      rcases hjk with h | h <;> rw [h] at hzbr <;> cases hzbr
    have htfil : t ∈ (removeBlk j.id b).instrs.dropLast := by
      unfold removeBlk
      exact mem_dropLast_filter _ b.instrs z t hz (by simp [hzid]) hbt
        (by simp [show t.id ≠ j.id from fun hc => by simp [hc] at hne])
    refine ⟨insertBlk dst j (removeBlk j.id b), ?_, ?_, ?_⟩
    · unfold hoistInstructionToPreheader insertInBlock removeInstrId
      simp only [List.mem_map]
      exact ⟨removeBlk j.id b, ⟨b, hb, rfl⟩, rfl⟩
    · unfold insertBlk
      by_cases hd : ((removeBlk j.id b).id == dst) = true
      · rw [if_pos hd]
        exact hbid
      · rw [if_neg (by simpa using hd)]
        exact hbid
    · unfold insertBlk
      by_cases hd : ((removeBlk j.id b).id == dst) = true
      · rw [if_pos hd]
        exact mem_dropLast_insertBeforeLast_other j t _ htfil
      · rw [if_neg (by simpa using hd)]
        exact htfil

theorem posIn_target_mem (L : Loop) (t : Instr) (f : Fn) (hpos : posIn L t f) :
    t ∈ allInstrs f := by
  obtain ⟨x, _, hloc⟩ := hpos
  have hm : (x, t) ∈ locate f t.id := by
    rw [hloc]
    exact List.mem_singleton_self _
  obtain ⟨b, hb, _, hmem, _⟩ := locate_mem_inv f t.id (x, t) hm
  exact mem_allInstrs f b t hb hmem

theorem posDone_target_mem (ph : Nat) (t : Instr) (f : Fn) (hpos : posDone ph t f) :
    t ∈ allInstrs f := by
  obtain ⟨hloc, _⟩ := hpos
  have hm : (ph, t) ∈ locate f t.id := by
    rw [hloc]
    exact List.mem_singleton_self _
  obtain ⟨b, hb, _, hmem, _⟩ := locate_mem_inv f t.id (ph, t) hm
  exact mem_allInstrs f b t hb hmem

theorem spec_ordinary (k : IKind) (h : isSafeToSpeculativelyExecute k = true) :
    k = IKind.ordinary := by
  cases k <;> simp_all [isSafeToSpeculativelyExecute]

theorem dout_block_ne (f : Fn) (L : Loop) (d : Nat)
    (hd : defInLoop f L d = false) (b : Block) (hb : b ∈ f.blocks)
    (hbid : b.id ∈ L.blockIds) (j : Instr) (hj : j ∈ b.instrs) : j.id ≠ d := by
  intro hc
  have htrue : defInLoop f L d = true := by
    unfold defInLoop
    rw [List.any_eq_true]
    refine ⟨b, hb, ?_⟩
    rw [Bool.and_eq_true]
    constructor
    · exact List.elem_iff.mpr hbid
    · rw [List.any_eq_true]
      exact ⟨j, hj, by simp [hc]⟩
  rw [htrue] at hd
  cases hd

theorem processInstr_march_sub (W : Loop) (wph : Nat) (hs : Bool)
    (L : Loop) (t : Instr) (A : Val) (V : Bool) (D : List Nat) (BL : List Nat)
    (st : PassState) (j : Instr)
    (hWp : W.preheader = some wph)
    (hwphL : wph ∈ L.blockIds) (hLBL : ∀ x ∈ L.blockIds, x ∈ BL)
    (hj : j ∈ allInstrs st.fn) (hjD : ∀ d ∈ D, j.id ≠ d)
    (inv : MarchCore L A V D BL st.fn) (hpos : posIn L t st.fn) :
    MarchCore L A V D BL (processInstr W wph hs st j).fn ∧
      posIn L t (processInstr W wph hs st j).fn ∧
      (∀ x, x ∈ allInstrs st.fn → x ∈ allInstrs (processInstr W wph hs st j).fn) := by
  have hwphBL : wph ∈ BL := hLBL wph hwphL
  have hwphbl : wph ∈ blockIdList st.fn := inv.bl ▸ hwphBL
  have hmove : ∀ hk : j.kind = IKind.load ∨ j.kind = IKind.ordinary,
      MarchCore L A V D BL (hoistInstructionToPreheader st.fn j wph) ∧
      posIn L t (hoistInstructionToPreheader st.fn j wph) ∧
      (∀ x, x ∈ allInstrs st.fn →
        x ∈ allInstrs (hoistInstructionToPreheader st.fn j wph)) := by
    intro hk
    refine ⟨MarchCore_hoist L A V D BL st.fn inv j wph hj hk hjD hwphBL, ?_, ?_⟩
    · by_cases hjt : (j.id == t.id) = true
      · have hjt2 : j = t := nodup_ids_inj st.fn inv.nd j t hj
          (posIn_target_mem L t st.fn hpos) (by simpa using hjt)
        subst hjt2
        exact posIn_hoist_self L j st.fn wph hwphL hwphbl inv.bd
      · exact posIn_hoist_other L t st.fn j wph hpos (by simpa using hjt)
    · intro x hx
      exact (allInstrs_hoist_perm st.fn j wph hj inv.nd hwphbl inv.bd).mem_iff.mpr hx
  unfold processInstr
  cases hn : NotALoadOrStore j with
  | true =>
    simp only [hn, if_true]
    cases ha : AreAllOperandsLoopInvaraint st.fn W j with
    | false =>
      simp only [ha, Bool.false_eq_true, if_false]
      exact ⟨inv, hpos, fun x hx => hx⟩
    | true =>
      simp only [ha, if_true]
      rcases hmk : makeLoopInvariant st.fn W j with ⟨f', evo⟩
      cases evo with
      | none =>
        simp only [hmk]
        rw [makeLoopInvariant_none st.fn W j f' hmk]
        exact ⟨inv, hpos, fun x hx => hx⟩
      | some ev =>
        simp only [hmk]
        obtain ⟨_, _, _, hph2, _, hsp, _, hfev⟩ := makeLoopInvariant_some st.fn W j f' ev hmk
        have hdst : ev.dst = wph := by
          rw [hWp] at hph2
          exact (Option.some.inj hph2).symm
        rw [hfev, hdst]
        exact hmove (Or.inr (spec_ordinary j.kind hsp))
  | false =>
    simp only [hn, Bool.false_eq_true, if_false]
    cases hk : (j.kind == IKind.load) with
    | false =>
      simp only [hk, Bool.false_eq_true, if_false]
      exact ⟨inv, hpos, fun x hx => hx⟩
    | true =>
      simp only [hk, if_true]
      cases hc : CanMoveOutofLoop st.fn W j (getOperand j 0) hs with
      | false =>
        simp only [hc, Bool.false_eq_true, if_false]
        exact ⟨inv, hpos, fun x hx => hx⟩
      | true =>
        simp only [hc, if_true]
        exact hmove (Or.inl (by simpa using hk))

theorem drain_march_sub (W : Loop) (wph : Nat) (hs : Bool) (L : Loop) (t : Instr)
    (A : Val) (V : Bool) (D : List Nat) (BL : List Nat)
    (hWp : W.preheader = some wph) (hwphL : wph ∈ L.blockIds)
    (hLBL : ∀ x ∈ L.blockIds, x ∈ BL) :
    ∀ (wl : List Instr) (st : PassState),
      (∀ j ∈ wl, j ∈ allInstrs st.fn ∧ ∀ d ∈ D, j.id ≠ d) →
      MarchCore L A V D BL st.fn → posIn L t st.fn →
      MarchCore L A V D BL (wl.foldl (processInstr W wph hs) st).fn ∧
        posIn L t (wl.foldl (processInstr W wph hs) st).fn ∧
        (∀ x, x ∈ allInstrs st.fn →
          x ∈ allInstrs (wl.foldl (processInstr W wph hs) st).fn) := by
  intro wl
  induction wl with
  | nil => exact fun st _ inv hpos => ⟨inv, hpos, fun x hx => hx⟩
  | cons j rest ih =>
    intro st hwl inv hpos
    obtain ⟨hja, hjd⟩ := hwl j (List.mem_cons_self j rest)
    obtain ⟨hc, hp, hm⟩ := processInstr_march_sub W wph hs L t A V D BL st j
      hWp hwphL hLBL hja hjd inv hpos
    obtain ⟨hc2, hp2, hm2⟩ := ih (processInstr W wph hs st j)
      (fun k hk => ⟨hm k (hwl k (List.mem_cons_of_mem j hk)).1,
        (hwl k (List.mem_cons_of_mem j hk)).2⟩) hc hp
    exact ⟨hc2, hp2, fun x hx => hm2 x (hm x hx)⟩

theorem processBlockW_march_sub (W : Loop) (wph : Nat) (L : Loop) (t : Instr)
    (A : Val) (V : Bool) (D : List Nat) (BL : List Nat)
    (acc : PassState × Bool) (bid : Nat)
    (hWp : W.preheader = some wph) (hwphL : wph ∈ L.blockIds)
    (hLBL : ∀ x ∈ L.blockIds, x ∈ BL) (hbidL : bid ∈ L.blockIds)
    (inv : MarchCore L A V D BL acc.1.fn) (hpos : posIn L t acc.1.fn) :
    MarchCore L A V D BL (processBlockW W wph acc bid).1.fn ∧
      posIn L t (processBlockW W wph acc bid).1.fn ∧
      (∀ x, x ∈ allInstrs acc.1.fn →
        x ∈ allInstrs (processBlockW W wph acc bid).1.fn) := by
  cases hgb : acc.1.fn.getBlock bid with
  | none =>
    rw [processBlockW_none W wph acc bid hgb]
    exact ⟨inv, hpos, fun x hx => hx⟩
  | some b =>
    rw [processBlockW_some W wph acc bid b hgb]
    have hgbf : List.find? (fun b => b.id == bid) acc.1.fn.blocks = some b := hgb
    have hbid : b.id = bid := by
      have h2 := List.find?_some hgbf
      simpa using h2
    have hbmem : b ∈ acc.1.fn.blocks := List.mem_of_find?_eq_some hgbf
    apply drain_march_sub W wph (acc.2 || blockHasKind b IKind.store) L t A V D BL
      hWp hwphL hLBL (sortById b.instrs)
    · intro j hj
      have hj2 : j ∈ b.instrs := mem_sortById j b.instrs hj
      refine ⟨mem_allInstrs acc.1.fn b j hbmem hj2, ?_⟩
      intro d hd
      exact dout_block_ne acc.1.fn L d (inv.dout d hd) b hbmem (hbid ▸ hbidL) j hj2
    · exact inv
    · exact hpos

theorem body_march_sub (W : Loop) (wph : Nat) (L : Loop) (t : Instr)
    (A : Val) (V : Bool) (D : List Nat) (BL : List Nat)
    (hWp : W.preheader = some wph) (hwphL : wph ∈ L.blockIds)
    (hLBL : ∀ x ∈ L.blockIds, x ∈ BL) :
    ∀ (bids : List Nat) (acc : PassState × Bool),
      (∀ x ∈ bids, x ∈ L.blockIds) →
      MarchCore L A V D BL acc.1.fn → posIn L t acc.1.fn →
      MarchCore L A V D BL ((bids.foldl (processBlockW W wph) acc).1).fn ∧
        posIn L t ((bids.foldl (processBlockW W wph) acc).1).fn ∧
        (∀ x, x ∈ allInstrs acc.1.fn →
          x ∈ allInstrs ((bids.foldl (processBlockW W wph) acc).1).fn) := by
  intro bids
  induction bids with
  | nil => exact fun acc _ inv hpos => ⟨inv, hpos, fun x hx => hx⟩
  | cons bid rest ih =>
    intro acc hbids inv hpos
    obtain ⟨hc, hp, hm⟩ := processBlockW_march_sub W wph L t A V D BL acc bid
      hWp hwphL hLBL (hbids bid (List.mem_cons_self bid rest)) inv hpos
    obtain ⟨hc2, hp2, hm2⟩ := ih (processBlockW W wph acc bid)
      (fun x hx => hbids x (List.mem_cons_of_mem bid hx)) hc hp
    exact ⟨hc2, hp2, fun x hx => hm2 x (hm x hx)⟩

mutual
theorem OptimizeLoop2_march_sub (W : Loop) :
    ∀ (L : Loop) (t : Instr) (A : Val) (V : Bool) (D : List Nat) (BL : List Nat)
      (st : PassState),
      wfLoopB BL W = true →
      (∀ x ∈ W.blockIds, x ∈ L.blockIds) →
      (∀ p, W.preheader = some p → p ∈ L.blockIds) →
      (∀ x ∈ L.blockIds, x ∈ BL) →
      MarchCore L A V D BL st.fn → posIn L t st.fn →
      MarchCore L A V D BL (OptimizeLoop2 W st).fn ∧
        posIn L t (OptimizeLoop2 W st).fn ∧
        (∀ x, x ∈ allInstrs st.fn → x ∈ allInstrs (OptimizeLoop2 W st).fn) := by
  cases W with
  | mk bids pre subs =>
    intro L t A V D BL st hwf hWsub hWpre hLBL inv hpos
    cases pre with
    | none =>
      rw [OptimizeLoop2_mk_none]
      exact ⟨inv, hpos, fun x hx => hx⟩
    | some wph =>
      rw [OptimizeLoop2_preheader]
      have hwphL : wph ∈ L.blockIds := hWpre wph rfl
      obtain ⟨_, _, hsubs⟩ := wfLoopB_parts BL bids (some wph) subs hwf
      have hsubfacts : ∀ S ∈ subs,
          wfLoopB BL S = true ∧ (∀ x ∈ S.blockIds, x ∈ L.blockIds) ∧
            (∀ p, S.preheader = some p → p ∈ L.blockIds) := by
        intro S hS
        obtain ⟨hSb, hSp, hSwf⟩ := wfSubsB_mem BL bids subs S hsubs hS
        refine ⟨hSwf, ?_, ?_⟩
        · intro x hx
          have hxb : x ∈ bids := by
            rw [List.all_eq_true] at hSb
            exact List.elem_iff.mp (hSb x hx)
          exact hWsub x hxb
        · intro p hp
          exact hWsub p (List.elem_iff.mp (hSp p hp))
      obtain ⟨hc1, hp1, hm1⟩ := OptimizeSubLoops_march_sub subs L t A V D BL
        { st with stats := { st.stats with numLoops := st.stats.numLoops + 1 } }
        hsubfacts hLBL inv hpos
      obtain ⟨hc2, hp2, hm2⟩ := body_march_sub (Loop.mk bids (some wph) subs) wph
        L t A V D BL rfl hwphL hLBL bids
        (OptimizeSubLoops subs
          { st with stats := { st.stats with numLoops := st.stats.numLoops + 1 } }, false)
        hWsub hc1 hp1
      exact ⟨hc2, hp2, fun x hx => hm2 x (hm1 x hx)⟩

theorem OptimizeSubLoops_march_sub (ls : List Loop) :
    ∀ (L : Loop) (t : Instr) (A : Val) (V : Bool) (D : List Nat) (BL : List Nat)
      (st : PassState),
      (∀ S ∈ ls,
        wfLoopB BL S = true ∧ (∀ x ∈ S.blockIds, x ∈ L.blockIds) ∧
          (∀ p, S.preheader = some p → p ∈ L.blockIds)) →
      (∀ x ∈ L.blockIds, x ∈ BL) →
      MarchCore L A V D BL st.fn → posIn L t st.fn →
      MarchCore L A V D BL (OptimizeSubLoops ls st).fn ∧
        posIn L t (OptimizeSubLoops ls st).fn ∧
        (∀ x, x ∈ allInstrs st.fn → x ∈ allInstrs (OptimizeSubLoops ls st).fn) := by
  cases ls with
  | nil =>
    intro L t A V D BL st _ _ inv hpos
    rw [OptimizeSubLoops_nil]
    exact ⟨inv, hpos, fun x hx => hx⟩
  | cons l rest =>
    intro L t A V D BL st hfacts hLBL inv hpos
    rw [OptimizeSubLoops_cons]
    obtain ⟨hwf, hsub, hpre⟩ := hfacts l (List.mem_cons_self l rest)
    obtain ⟨hc1, hp1, hm1⟩ := OptimizeLoop2_march_sub l L t A V D BL st
      hwf hsub hpre hLBL inv hpos
    obtain ⟨hc2, hp2, hm2⟩ := OptimizeSubLoops_march_sub rest L t A V D BL
      (OptimizeLoop2 l st)
      (fun S hS => hfacts S (List.mem_cons_of_mem l hS)) hLBL hc1 hp1
    exact ⟨hc2, hp2, fun x hx => hm2 x (hm1 x hx)⟩
end

theorem processInstr_march_ne (W : Loop) (wph : Nat) (hs : Bool) (st : PassState)
    (j : Instr) (L : Loop) (A : Val) (V : Bool) (D : List Nat) (BL : List Nat)
    (ph : Nat) (t : Instr)
    (hWp : W.preheader = some wph) (hwphBL : wph ∈ BL)
    (hj : j ∈ allInstrs st.fn) (hjD : ∀ d ∈ D, j.id ≠ d)
    (hne : (j.id == t.id) = false)
    (inv : MarchCore L A V D BL st.fn) :
    MarchCore L A V D BL (processInstr W wph hs st j).fn ∧
      (∀ x, x ∈ allInstrs st.fn → x ∈ allInstrs (processInstr W wph hs st j).fn) ∧
      locate (processInstr W wph hs st j).fn t.id = locate st.fn t.id ∧
      (posDone ph t st.fn → posDone ph t (processInstr W wph hs st j).fn) := by
  have hwphbl : wph ∈ blockIdList st.fn := inv.bl ▸ hwphBL
  have hmove : ∀ hk : j.kind = IKind.load ∨ j.kind = IKind.ordinary,
      MarchCore L A V D BL (hoistInstructionToPreheader st.fn j wph) ∧
      (∀ x, x ∈ allInstrs st.fn →
        x ∈ allInstrs (hoistInstructionToPreheader st.fn j wph)) ∧
      locate (hoistInstructionToPreheader st.fn j wph) t.id = locate st.fn t.id ∧
      (posDone ph t st.fn →
        posDone ph t (hoistInstructionToPreheader st.fn j wph)) := by
    intro hk
    refine ⟨MarchCore_hoist L A V D BL st.fn inv j wph hj hk hjD hwphBL, ?_, ?_, ?_⟩
    · intro x hx
      exact (allInstrs_hoist_perm st.fn j wph hj inv.nd hwphbl inv.bd).mem_iff.mpr hx
    · exact locate_hoist_ne st.fn j wph t.id hne
    · intro hdone
      exact posDone_hoist_other ph t st.fn j wph hdone hne inv.term inv.nd hj hk
  unfold processInstr
  cases hn : NotALoadOrStore j with
  | true =>
    simp only [hn, if_true]
    cases ha : AreAllOperandsLoopInvaraint st.fn W j with
    | false =>
      simp only [ha, Bool.false_eq_true, if_false]
      exact ⟨inv, fun x hx => hx, by simp, fun h => h⟩
    | true =>
      simp only [ha, if_true]
      rcases hmk : makeLoopInvariant st.fn W j with ⟨f', evo⟩
      cases evo with
      | none =>
        simp only [hmk]
        rw [makeLoopInvariant_none st.fn W j f' hmk]
        exact ⟨inv, fun x hx => hx, by simp, fun h => h⟩
      | some ev =>
        simp only [hmk]
        obtain ⟨_, _, _, hph2, _, hsp, _, hfev⟩ := makeLoopInvariant_some st.fn W j f' ev hmk
        have hdst : ev.dst = wph := by
          rw [hWp] at hph2
          exact (Option.some.inj hph2).symm
        rw [hfev, hdst]
        exact hmove (Or.inr (spec_ordinary j.kind hsp))
  | false =>
    simp only [hn, Bool.false_eq_true, if_false]
    cases hk : (j.kind == IKind.load) with
    | false =>
      simp only [hk, Bool.false_eq_true, if_false]
      exact ⟨inv, fun x hx => hx, by simp, fun h => h⟩
    | true =>
      simp only [hk, if_true]
      cases hc : CanMoveOutofLoop st.fn W j (getOperand j 0) hs with
      | false =>
        simp only [hc, Bool.false_eq_true, if_false]
        exact ⟨inv, fun x hx => hx, by simp, fun h => h⟩
      | true =>
        simp only [hc, if_true]
        exact hmove (Or.inl (by simpa using hk))

theorem drain_march_ne (W : Loop) (wph : Nat) (hs : Bool) (L : Loop) (A : Val)
    (V : Bool) (D : List Nat) (BL : List Nat) (ph : Nat) (t : Instr)
    (hWp : W.preheader = some wph) (hwphBL : wph ∈ BL) :
    ∀ (wl : List Instr) (st : PassState),
      (∀ j ∈ wl, j ∈ allInstrs st.fn ∧ (∀ d ∈ D, j.id ≠ d) ∧
        (j.id == t.id) = false) →
      MarchCore L A V D BL st.fn →
      MarchCore L A V D BL (wl.foldl (processInstr W wph hs) st).fn ∧
        (∀ x, x ∈ allInstrs st.fn →
          x ∈ allInstrs (wl.foldl (processInstr W wph hs) st).fn) ∧
        locate (wl.foldl (processInstr W wph hs) st).fn t.id = locate st.fn t.id ∧
        (posDone ph t st.fn →
          posDone ph t (wl.foldl (processInstr W wph hs) st).fn) := by
  intro wl
  induction wl with
  | nil => exact fun st _ inv => ⟨inv, fun x hx => hx, rfl, fun h => h⟩
  | cons j rest ih =>
    intro st hwl inv
    obtain ⟨hja, hjd, hjne⟩ := hwl j (List.mem_cons_self j rest)
    obtain ⟨hc, hm, hl, hd⟩ := processInstr_march_ne W wph hs st j L A V D BL ph t
      hWp hwphBL hja hjd hjne inv
    obtain ⟨hc2, hm2, hl2, hd2⟩ := ih (processInstr W wph hs st j)
      (fun k hk => ⟨hm k (hwl k (List.mem_cons_of_mem j hk)).1,
        (hwl k (List.mem_cons_of_mem j hk)).2.1,
        (hwl k (List.mem_cons_of_mem j hk)).2.2⟩) hc
    exact ⟨hc2, fun x hx => hm2 x (hm x hx), hl2.trans hl, fun h => hd2 (hd h)⟩

theorem processInstr_body_t_c1 (hs : Bool) (st : PassState) (L : Loop) (ph : Nat)
    (t : Instr) (g : Nat) (V : Bool) (D : List Nat) (BL : List Nat)
    (hphBL : ph ∈ BL)
    (htk : t.kind = IKind.load) (htv : t.isVolatile = false)
    (hta : getOperand t 0 = Val.gvar g) (htD : ∀ d ∈ D, t.id ≠ d)
    (inv : MarchCore L (Val.gvar g) V D BL st.fn) (hpos : posIn L t st.fn) :
    MarchCore L (Val.gvar g) V D BL (processInstr L ph hs st t).fn ∧
      (∀ x, x ∈ allInstrs st.fn → x ∈ allInstrs (processInstr L ph hs st t).fn) ∧
      (V = true → posDone ph t (processInstr L ph hs st t).fn) ∧
      (V = false → processInstr L ph hs st t = st) := by
  have htmem := posIn_target_mem L t st.fn hpos
  have hphbl : ph ∈ blockIdList st.fn := inv.bl ▸ hphBL
  have hn : NotALoadOrStore t = false := by
    unfold NotALoadOrStore
    simp [htk]
  have hkload : (t.kind == IKind.load) = true := by simp [htk]
  unfold processInstr
  rw [hn]
  simp only [Bool.false_eq_true, if_false, hkload, if_true]
  rw [hta]
  cases hV : V with
  | true =>
    have hcm : CanMoveOutofLoop st.fn L t (Val.gvar g) hs = true := by
      unfold CanMoveOutofLoop
      rw [htv]
      have hst := inv.stores
      rw [hV] at hst
      simp [hst, isGlobalVal]
    simp only [hcm, if_true]
    refine ⟨?_, ?_, ?_, ?_⟩
    · exact MarchCore_hoist L (Val.gvar g) true D BL st.fn (hV ▸ inv) t ph htmem
        (Or.inl htk) htD hphBL
    · intro x hx
      exact (allInstrs_hoist_perm st.fn t ph htmem inv.nd hphbl inv.bd).mem_iff.mpr hx
    · intro _
      exact posDone_hoist_self ph t st.fn hphbl inv.bd inv.term inv.nd htmem
        (by rw [htk]; intro hcon; cases hcon)
    · intro hcon
      cases hcon
  | false =>
    have hcm : CanMoveOutofLoop st.fn L t (Val.gvar g) hs = false := by
      unfold CanMoveOutofLoop
      rw [htv]
      have hst := inv.stores
      rw [hV] at hst
      simp [hst, isGlobalVal]
    simp only [hcm, Bool.false_eq_true, if_false]
    refine ⟨hV ▸ inv, fun x hx => hx, ?_, fun _ => True.intro⟩
    intro hcon
    cases hcon

theorem processInstr_body_t_c5 (hs : Bool) (st : PassState) (L : Loop) (ph : Nat)
    (t : Instr) (A : Val) (V : Bool) (D : List Nat) (BL : List Nat)
    (hLp : L.preheader = some ph) (hphBL : ph ∈ BL)
    (htn : NotALoadOrStore t = true)
    (hts : isSafeToSpeculativelyExecute t.kind = true)
    (htres : ∀ v ∈ t.operands, ∀ d k, v = Val.res d k → d ∈ D)
    (htD : ∀ d ∈ D, t.id ≠ d)
    (inv : MarchCore L A V D BL st.fn) (hpos : posIn L t st.fn) :
    MarchCore L A V D BL (processInstr L ph hs st t).fn ∧
      (∀ x, x ∈ allInstrs st.fn → x ∈ allInstrs (processInstr L ph hs st t).fn) ∧
      posDone ph t (processInstr L ph hs st t).fn := by
  have htmem := posIn_target_mem L t st.fn hpos
  have hphbl : ph ∈ blockIdList st.fn := inv.bl ▸ hphBL
  have hdef : defInLoop st.fn L t.id = true := by
    obtain ⟨x, hx, hloc⟩ := hpos
    rw [defInLoop_eq_locate, hloc]
    rw [List.any_cons]
    simp only [List.any_nil, Bool.or_false]
    simpa using hx
  have hall : AreAllOperandsLoopInvaraint st.fn L t = true := by
    unfold AreAllOperandsLoopInvaraint
    rw [List.all_eq_true]
    intro v hv
    cases v with
    | res d k =>
      have hd : d ∈ D := htres _ hv d k rfl
      show (!defInLoop st.fn L d) = true
      rw [inv.dout d hd]
      rfl
    | const n => rfl
    | arg n => rfl
    | gvar n => rfl
    | label n => rfl
  have hord : t.kind = IKind.ordinary := spec_ordinary t.kind hts
  have hmk : makeLoopInvariant st.fn L t =
      (hoistInstructionToPreheader st.fn t ph,
       some { loop := L, instr := t, dst := ph, before := st.fn }) := by
    unfold makeLoopInvariant
    rw [hdef, hts]
    have hmr : mayReadFromMemory t.kind = false := by
      rw [hord]
      rfl
    rw [hmr, hLp]
    simp [hall]
  unfold processInstr
  rw [htn]
  simp only [if_true, hall, if_true, hmk]
  refine ⟨?_, ?_, ?_⟩
  · exact MarchCore_hoist L A V D BL st.fn inv t ph htmem (Or.inr hord) htD hphBL
  · intro x hx
    exact (allInstrs_hoist_perm st.fn t ph htmem inv.nd hphbl inv.bd).mem_iff.mpr hx
  · exact posDone_hoist_self ph t st.fn hphbl inv.bd inv.term inv.nd htmem
      (by rw [hord]; intro hcon; cases hcon)

theorem block_ids_nodup (f : Fn) (b : Block)
    (hnd : ((allInstrs f).map Instr.id).Nodup) (hb : b ∈ f.blocks) :
    (b.instrs.map Instr.id).Nodup := by
  have hsub : b.instrs.Sublist (allInstrs f) := by
    unfold allInstrs
    exact List.sublist_flatten_of_mem (List.mem_map.mpr ⟨b, hb, rfl⟩)
  exact List.Nodup.sublist (hsub.map Instr.id) hnd

theorem posIn_of_locate_eq (L : Loop) (t : Instr) (f f' : Fn)
    (heq : locate f' t.id = locate f t.id) (hpos : posIn L t f) : posIn L t f' := by
  obtain ⟨x, hx, hloc⟩ := hpos
  exact ⟨x, hx, heq.trans hloc⟩

theorem drain_hit (hs : Bool) (L : Loop) (ph : Nat) (t : Instr) (A : Val)
    (V : Bool) (D : List Nat) (BL : List Nat)
    (hLp : L.preheader = some ph) (hphBL : ph ∈ BL)
    (hhit : ∀ (hs2 : Bool) (st : PassState), MarchCore L A V D BL st.fn →
      posIn L t st.fn →
      MarchCore L A V D BL (processInstr L ph hs2 st t).fn ∧
        (∀ x, x ∈ allInstrs st.fn → x ∈ allInstrs (processInstr L ph hs2 st t).fn) ∧
        posDone ph t (processInstr L ph hs2 st t).fn) :
    ∀ (u v : List Instr) (st : PassState),
      (∀ j ∈ u ++ v, j ∈ allInstrs st.fn ∧ (∀ d ∈ D, j.id ≠ d) ∧
        (j.id == t.id) = false) →
      MarchCore L A V D BL st.fn → posIn L t st.fn →
      MarchCore L A V D BL ((u ++ t :: v).foldl (processInstr L ph hs) st).fn ∧
        (∀ x, x ∈ allInstrs st.fn →
          x ∈ allInstrs ((u ++ t :: v).foldl (processInstr L ph hs) st).fn) ∧
        posDone ph t ((u ++ t :: v).foldl (processInstr L ph hs) st).fn := by
  intro u
  induction u with
  | nil =>
    intro v st hwl inv hpos
    obtain ⟨hc1, hm1, hd1⟩ := hhit hs st inv hpos
    show MarchCore L A V D BL ((v.foldl (processInstr L ph hs)
      (processInstr L ph hs st t))).fn ∧ _
    obtain ⟨hc2, hm2, _, hd2⟩ := drain_march_ne L ph hs L A V D BL ph t hLp hphBL v
      (processInstr L ph hs st t)
      (fun k hk => ⟨hm1 k (hwl k (by simpa using hk)).1,
        (hwl k (by simpa using hk)).2.1, (hwl k (by simpa using hk)).2.2⟩) hc1
    exact ⟨hc2, fun x hx => hm2 x (hm1 x hx), hd2 hd1⟩
  | cons j u' ih =>
    intro v st hwl inv hpos
    obtain ⟨hja, hjd, hjne⟩ := hwl j (List.mem_cons_self j (u' ++ v))
    obtain ⟨hc, hm, hl, _⟩ := processInstr_march_ne L ph hs st j L A V D BL ph t
      hLp hphBL hja hjd hjne inv
    show MarchCore L A V D BL (((u' ++ t :: v).foldl (processInstr L ph hs)
      (processInstr L ph hs st j))).fn ∧ _
    obtain ⟨hc2, hm2, hd2⟩ := ih v (processInstr L ph hs st j)
      (fun k hk => ⟨hm k (hwl k (List.mem_cons_of_mem j hk)).1,
        (hwl k (List.mem_cons_of_mem j hk)).2.1,
        (hwl k (List.mem_cons_of_mem j hk)).2.2⟩) hc
      (posIn_of_locate_eq L t st.fn _ hl hpos)
    exact ⟨hc2, fun x hx => hm2 x (hm x hx), hd2⟩

theorem drain_stay (hs : Bool) (L : Loop) (ph : Nat) (t : Instr) (A : Val)
    (V : Bool) (D : List Nat) (BL : List Nat)
    (hLp : L.preheader = some ph) (hphBL : ph ∈ BL)
    (hstay : ∀ (hs2 : Bool) (st : PassState), MarchCore L A V D BL st.fn →
      posIn L t st.fn → processInstr L ph hs2 st t = st) :
    ∀ (wl : List Instr) (st : PassState),
      (∀ j ∈ wl, j ∈ allInstrs st.fn ∧ (∀ d ∈ D, j.id ≠ d)) →
      MarchCore L A V D BL st.fn → posIn L t st.fn →
      MarchCore L A V D BL (wl.foldl (processInstr L ph hs) st).fn ∧
        (∀ x, x ∈ allInstrs st.fn →
          x ∈ allInstrs (wl.foldl (processInstr L ph hs) st).fn) ∧
        posIn L t (wl.foldl (processInstr L ph hs) st).fn := by
  intro wl
  induction wl with
  | nil => exact fun st _ inv hpos => ⟨inv, fun x hx => hx, hpos⟩
  | cons j rest ih =>
    intro st hwl inv hpos
    obtain ⟨hja, hjd⟩ := hwl j (List.mem_cons_self j rest)
    rw [List.foldl_cons]
    cases hje : (j.id == t.id) with
    | true =>
      have hjt : j = t := nodup_ids_inj st.fn inv.nd j t hja
        (posIn_target_mem L t st.fn hpos) (eq_of_beq hje)
      subst hjt
      rw [hstay hs st inv hpos]
      exact ih st (fun k hk => hwl k (List.mem_cons_of_mem j hk)) inv hpos
    | false =>
      obtain ⟨hc, hm, hl, _⟩ := processInstr_march_ne L ph hs st j L A V D BL ph t
        hLp hphBL hja hjd hje inv
      obtain ⟨hc2, hm2, hp2⟩ := ih (processInstr L ph hs st j)
        (fun k hk => ⟨hm k (hwl k (List.mem_cons_of_mem j hk)).1,
          (hwl k (List.mem_cons_of_mem j hk)).2⟩) hc
        (posIn_of_locate_eq L t st.fn _ hl hpos)
      exact ⟨hc2, fun x hx => hm2 x (hm x hx), hp2⟩

theorem processBlockW_march_stay (L : Loop) (ph : Nat) (t : Instr) (A : Val)
    (V : Bool) (D : List Nat) (BL : List Nat) (acc : PassState × Bool) (bid : Nat)
    (hLp : L.preheader = some ph) (hphBL : ph ∈ BL)
    (hbidL : bid ∈ L.blockIds)
    (hstay : ∀ (hs2 : Bool) (st : PassState), MarchCore L A V D BL st.fn →
      posIn L t st.fn → processInstr L ph hs2 st t = st)
    (inv : MarchCore L A V D BL acc.1.fn) (hpos : posIn L t acc.1.fn) :
    MarchCore L A V D BL (processBlockW L ph acc bid).1.fn ∧
      (∀ x, x ∈ allInstrs acc.1.fn →
        x ∈ allInstrs (processBlockW L ph acc bid).1.fn) ∧
      posIn L t (processBlockW L ph acc bid).1.fn := by
  cases hgb : acc.1.fn.getBlock bid with
  | none =>
    rw [processBlockW_none L ph acc bid hgb]
    exact ⟨inv, fun x hx => hx, hpos⟩
  | some b =>
    rw [processBlockW_some L ph acc bid b hgb]
    have hgbf : List.find? (fun b => b.id == bid) acc.1.fn.blocks = some b := hgb
    have hbid : b.id = bid := by
      have h2 := List.find?_some hgbf
      exact eq_of_beq h2
    have hbmem : b ∈ acc.1.fn.blocks := List.mem_of_find?_eq_some hgbf
    exact drain_stay (acc.2 || blockHasKind b IKind.store) L ph t A V D BL hLp hphBL
      hstay (sortById b.instrs) { acc.1 with stats := scanStats acc.1.stats b }
      (fun j hj =>
        ⟨mem_allInstrs acc.1.fn b j hbmem (mem_sortById j b.instrs hj),
         fun d hd => dout_block_ne acc.1.fn L d (inv.dout d hd) b hbmem
           (hbid ▸ hbidL) j (mem_sortById j b.instrs hj)⟩)
      inv hpos

theorem body_march_stay (L : Loop) (ph : Nat) (t : Instr) (A : Val)
    (V : Bool) (D : List Nat) (BL : List Nat)
    (hLp : L.preheader = some ph) (hphBL : ph ∈ BL)
    (hstay : ∀ (hs2 : Bool) (st : PassState), MarchCore L A V D BL st.fn →
      posIn L t st.fn → processInstr L ph hs2 st t = st) :
    ∀ (bids : List Nat) (acc : PassState × Bool),
      (∀ y ∈ bids, y ∈ L.blockIds) →
      MarchCore L A V D BL acc.1.fn → posIn L t acc.1.fn →
      MarchCore L A V D BL ((bids.foldl (processBlockW L ph) acc).1).fn ∧
        posIn L t ((bids.foldl (processBlockW L ph) acc).1).fn := by
  intro bids
  induction bids with
  | nil => exact fun acc _ inv hpos => ⟨inv, hpos⟩
  | cons bid rest ih =>
    intro acc hbids inv hpos
    obtain ⟨hc, _, hp⟩ := processBlockW_march_stay L ph t A V D BL acc bid
      hLp hphBL (hbids bid (List.mem_cons_self bid rest)) hstay inv hpos
    exact ih (processBlockW L ph acc bid)
      (fun y hy => hbids y (List.mem_cons_of_mem bid hy)) hc hp

theorem processBlockW_march_done (L : Loop) (ph : Nat) (t : Instr) (A : Val)
    (V : Bool) (D : List Nat) (BL : List Nat) (acc : PassState × Bool) (bid : Nat)
    (hLp : L.preheader = some ph) (hphBL : ph ∈ BL)
    (hbidL : bid ∈ L.blockIds) (hbidph : bid ≠ ph)
    (inv : MarchCore L A V D BL acc.1.fn) (hd : posDone ph t acc.1.fn) :
    MarchCore L A V D BL (processBlockW L ph acc bid).1.fn ∧
      posDone ph t (processBlockW L ph acc bid).1.fn := by
  cases hgb : acc.1.fn.getBlock bid with
  | none =>
    rw [processBlockW_none L ph acc bid hgb]
    exact ⟨inv, hd⟩
  | some b =>
    rw [processBlockW_some L ph acc bid b hgb]
    have hgbf : List.find? (fun b => b.id == bid) acc.1.fn.blocks = some b := hgb
    have hbid : b.id = bid := by
      have h2 := List.find?_some hgbf
      exact eq_of_beq h2
    have hbmem : b ∈ acc.1.fn.blocks := List.mem_of_find?_eq_some hgbf
    have hfacts : ∀ j ∈ sortById b.instrs, j ∈ allInstrs acc.1.fn ∧
        (∀ d ∈ D, j.id ≠ d) ∧ (j.id == t.id) = false := by
      intro j hj
      have hjb : j ∈ b.instrs := mem_sortById j b.instrs hj
      refine ⟨mem_allInstrs acc.1.fn b j hbmem hjb,
        fun d hdm => dout_block_ne acc.1.fn L d (inv.dout d hdm) b hbmem
          (hbid ▸ hbidL) j hjb, ?_⟩
      rw [beq_eq_false_iff_ne]
      intro hc
      have hjt : j = t := nodup_ids_inj acc.1.fn inv.nd j t
        (mem_allInstrs acc.1.fn b j hbmem hjb) (posDone_target_mem ph t acc.1.fn hd) hc
      subst hjt
      have hmem : (b.id, j) ∈ locate acc.1.fn j.id :=
        mem_locate acc.1.fn b j j.id hbmem hjb (by simp)
      rw [hd.1] at hmem
      have : b.id = ph := (Prod.mk.injEq _ _ _ _ ▸ List.mem_singleton.mp hmem).1
      exact hbidph (hbid ▸ this)
    obtain ⟨hc, _, _, hdp⟩ := drain_march_ne L ph
      (acc.2 || blockHasKind b IKind.store) L A V D BL ph t hLp hphBL
      (sortById b.instrs) { acc.1 with stats := scanStats acc.1.stats b } hfacts inv
    exact ⟨hc, hdp hd⟩

theorem processBlockW_march_keep (L : Loop) (ph : Nat) (t : Instr) (A : Val)
    (V : Bool) (D : List Nat) (BL : List Nat) (acc : PassState × Bool)
    (bid x : Nat)
    (hLp : L.preheader = some ph) (hphBL : ph ∈ BL)
    (hbidL : bid ∈ L.blockIds) (hxL : x ∈ L.blockIds) (hxbid : x ≠ bid)
    (inv : MarchCore L A V D BL acc.1.fn)
    (hloc : locate acc.1.fn t.id = [(x, t)]) :
    MarchCore L A V D BL (processBlockW L ph acc bid).1.fn ∧
      locate (processBlockW L ph acc bid).1.fn t.id = [(x, t)] := by
  cases hgb : acc.1.fn.getBlock bid with
  | none =>
    rw [processBlockW_none L ph acc bid hgb]
    exact ⟨inv, hloc⟩
  | some b =>
    rw [processBlockW_some L ph acc bid b hgb]
    have hgbf : List.find? (fun b => b.id == bid) acc.1.fn.blocks = some b := hgb
    have hbid : b.id = bid := by
      have h2 := List.find?_some hgbf
      exact eq_of_beq h2
    have hbmem : b ∈ acc.1.fn.blocks := List.mem_of_find?_eq_some hgbf
    have htall : t ∈ allInstrs acc.1.fn :=
      posIn_target_mem L t acc.1.fn ⟨x, hxL, hloc⟩
    have hfacts : ∀ j ∈ sortById b.instrs, j ∈ allInstrs acc.1.fn ∧
        (∀ d ∈ D, j.id ≠ d) ∧ (j.id == t.id) = false := by
      intro j hj
      have hjb : j ∈ b.instrs := mem_sortById j b.instrs hj
      refine ⟨mem_allInstrs acc.1.fn b j hbmem hjb,
        fun d hdm => dout_block_ne acc.1.fn L d (inv.dout d hdm) b hbmem
          (hbid ▸ hbidL) j hjb, ?_⟩
      rw [beq_eq_false_iff_ne]
      intro hc
      have hjt : j = t := nodup_ids_inj acc.1.fn inv.nd j t
        (mem_allInstrs acc.1.fn b j hbmem hjb) htall hc
      subst hjt
      have hmem : (b.id, j) ∈ locate acc.1.fn j.id :=
        mem_locate acc.1.fn b j j.id hbmem hjb (by simp)
      rw [hloc] at hmem
      have : b.id = x := (Prod.mk.injEq _ _ _ _ ▸ List.mem_singleton.mp hmem).1
      exact hxbid (this ▸ hbid)
    obtain ⟨hc, _, hl, _⟩ := drain_march_ne L ph
      (acc.2 || blockHasKind b IKind.store) L A V D BL ph t hLp hphBL
      (sortById b.instrs) { acc.1 with stats := scanStats acc.1.stats b } hfacts inv
    exact ⟨hc, hl.trans hloc⟩

theorem processBlockW_march_hit (L : Loop) (ph : Nat) (t : Instr) (A : Val)
    (V : Bool) (D : List Nat) (BL : List Nat) (acc : PassState × Bool) (bid : Nat)
    (hLp : L.preheader = some ph) (hphBL : ph ∈ BL)
    (hbidL : bid ∈ L.blockIds)
    (hhit : ∀ (hs2 : Bool) (st : PassState), MarchCore L A V D BL st.fn →
      posIn L t st.fn →
      MarchCore L A V D BL (processInstr L ph hs2 st t).fn ∧
        (∀ x, x ∈ allInstrs st.fn → x ∈ allInstrs (processInstr L ph hs2 st t).fn) ∧
        posDone ph t (processInstr L ph hs2 st t).fn)
    (inv : MarchCore L A V D BL acc.1.fn)
    (hloc : locate acc.1.fn t.id = [(bid, t)]) :
    MarchCore L A V D BL (processBlockW L ph acc bid).1.fn ∧
      posDone ph t (processBlockW L ph acc bid).1.fn := by
  have hmemt : (bid, t) ∈ locate acc.1.fn t.id := by
    rw [hloc]
    exact List.mem_singleton_self _
  obtain ⟨b2, hb2mem, hb2id, htb2, _⟩ := locate_mem_inv acc.1.fn t.id (bid, t) hmemt
  have hb2id2 : b2.id = bid := hb2id
  have htb22 : t ∈ b2.instrs := htb2
  cases hgb : acc.1.fn.getBlock bid with
  | none =>
    have h1 : acc.1.fn.getBlock b2.id = some b2 :=
      getBlock_of_mem acc.1.fn b2 inv.bd hb2mem
    rw [hb2id2, hgb] at h1
    exact absurd h1 (by simp)
  | some b =>
    rw [processBlockW_some L ph acc bid b hgb]
    have hgbf : List.find? (fun b => b.id == bid) acc.1.fn.blocks = some b := hgb
    have hbid : b.id = bid := by
      have h2 := List.find?_some hgbf
      exact eq_of_beq h2
    have hbmem : b ∈ acc.1.fn.blocks := List.mem_of_find?_eq_some hgbf
    have hbb2 : b2 = b := by
      have h1 : acc.1.fn.getBlock b2.id = some b2 :=
        getBlock_of_mem acc.1.fn b2 inv.bd hb2mem
      rw [hb2id2, hgb] at h1
      exact (Option.some.inj h1).symm
    subst hbb2
    have htw : t ∈ sortById b2.instrs := (sortById_perm b2.instrs).mem_iff.mpr htb22
    obtain ⟨u, v, huv⟩ := List.append_of_mem htw
    have hndw : ((sortById b2.instrs).map Instr.id).Nodup :=
      (((sortById_perm b2.instrs).map Instr.id).nodup_iff).mpr
        (block_ids_nodup acc.1.fn b2 inv.nd hbmem)
    rw [huv, List.map_append, List.map_cons] at hndw
    have hnotin : t.id ∉ u.map Instr.id ++ v.map Instr.id :=
      (List.nodup_cons.mp (List.nodup_middle.mp hndw)).1
    have hfacts : ∀ j ∈ u ++ v, j ∈ allInstrs acc.1.fn ∧
        (∀ d ∈ D, j.id ≠ d) ∧ (j.id == t.id) = false := by
      intro j hj
      have hjw : j ∈ sortById b2.instrs := by
        rw [huv]
        rcases List.mem_append.mp hj with h | h
        · exact List.mem_append_left _ h
        · exact List.mem_append_right _ (List.mem_cons_of_mem t h)
      have hjb : j ∈ b2.instrs := mem_sortById j b2.instrs hjw
      refine ⟨mem_allInstrs acc.1.fn b2 j hbmem hjb,
        fun d hdm => dout_block_ne acc.1.fn L d (inv.dout d hdm) b2 hbmem
          (hbid ▸ hbidL) j hjb, ?_⟩
      rw [beq_eq_false_iff_ne]
      intro hc
      apply hnotin
      rw [← hc]
      rcases List.mem_append.mp hj with h | h
      · exact List.mem_append_left _ (List.mem_map.mpr ⟨j, h, rfl⟩)
      · exact List.mem_append_right _ (List.mem_map.mpr ⟨j, h, rfl⟩)
    rw [huv]
    obtain ⟨hc, _, hd⟩ := drain_hit (acc.2 || blockHasKind b2 IKind.store)
      L ph t A V D BL hLp hphBL hhit u v
      { acc.1 with stats := scanStats acc.1.stats b2 } hfacts inv
      ⟨bid, hbidL, hloc⟩
    exact ⟨hc, hd⟩

theorem body_march_hoist (L : Loop) (ph : Nat) (t : Instr) (A : Val)
    (V : Bool) (D : List Nat) (BL : List Nat)
    (hLp : L.preheader = some ph) (hphBL : ph ∈ BL) (hphL : ph ∉ L.blockIds)
    (hhit : ∀ (hs2 : Bool) (st : PassState), MarchCore L A V D BL st.fn →
      posIn L t st.fn →
      MarchCore L A V D BL (processInstr L ph hs2 st t).fn ∧
        (∀ x, x ∈ allInstrs st.fn → x ∈ allInstrs (processInstr L ph hs2 st t).fn) ∧
        posDone ph t (processInstr L ph hs2 st t).fn) :
    ∀ (bids : List Nat) (acc : PassState × Bool),
      (∀ y ∈ bids, y ∈ L.blockIds) →
      MarchCore L A V D BL acc.1.fn →
      (posDone ph t acc.1.fn ∨
        ∃ x, x ∈ bids ∧ x ∈ L.blockIds ∧ locate acc.1.fn t.id = [(x, t)]) →
      MarchCore L A V D BL ((bids.foldl (processBlockW L ph) acc).1).fn ∧
        posDone ph t ((bids.foldl (processBlockW L ph) acc).1).fn := by
  intro bids
  induction bids with
  | nil =>
    intro acc _ inv hsit
    rcases hsit with hd | ⟨x, hx, _, _⟩
    · exact ⟨inv, hd⟩
    · exact absurd hx (List.not_mem_nil x)
  | cons bid rest ih =>
    intro acc hbids inv hsit
    have hbidL : bid ∈ L.blockIds := hbids bid (List.mem_cons_self bid rest)
    have hrest : ∀ y ∈ rest, y ∈ L.blockIds :=
      fun y hy => hbids y (List.mem_cons_of_mem bid hy)
    rw [List.foldl_cons]
    rcases hsit with hd | ⟨x, hx, hxL, hloc⟩
    · obtain ⟨hc, hd2⟩ := processBlockW_march_done L ph t A V D BL acc bid
        hLp hphBL hbidL (fun he => hphL (he ▸ hbidL)) inv hd
      exact ih (processBlockW L ph acc bid) hrest hc (Or.inl hd2)
    · by_cases hxb : x = bid
      · subst hxb
        obtain ⟨hc, hd2⟩ := processBlockW_march_hit L ph t A V D BL acc x
          hLp hphBL hxL hhit inv hloc
        exact ih (processBlockW L ph acc x) hrest hc (Or.inl hd2)
      · obtain ⟨hc, hl2⟩ := processBlockW_march_keep L ph t A V D BL acc bid x
          hLp hphBL hbidL hxL hxb inv hloc
        have hxrest : x ∈ rest := by
          rcases List.mem_cons.mp hx with h | h
          · exact absurd h hxb
          · exact h
        exact ih (processBlockW L ph acc bid) hrest hc
          (Or.inr ⟨x, hxrest, hxL, hl2⟩)

theorem filter_id_nil (iid : Nat) :
    ∀ (l : List Instr), (∀ j ∈ l, (j.id == iid) = false) →
      l.filter (fun j => j.id == iid) = [] := by
  intro l
  induction l with
  | nil => intro _; rfl
  | cons a rest ih =>
    intro h
    rw [List.filter_cons, h a (List.mem_cons_self a rest)]
    exact ih (fun j hj => h j (List.mem_cons_of_mem a hj))

theorem filter_id_singleton (t : Instr) :
    ∀ (l : List Instr), (l.map Instr.id).Nodup → t ∈ l →
      l.filter (fun j => j.id == t.id) = [t] := by
  intro l
  induction l with
  | nil => intro _ h; exact absurd h (List.not_mem_nil t)
  | cons a rest ih =>
    intro hnd ht
    rw [List.map_cons, List.nodup_cons] at hnd
    obtain ⟨ha, hnd2⟩ := hnd
    by_cases hat : a = t
    · subst hat
      rw [List.filter_cons]
      simp only [beq_self_eq_true, if_true]
      rw [filter_id_nil a.id rest ?_]
      intro j hj
      rw [beq_eq_false_iff_ne]
      intro hc
      exact ha (hc ▸ List.mem_map.mpr ⟨j, hj, rfl⟩)
    · have htr : t ∈ rest := by
        rcases List.mem_cons.mp ht with h | h
        · exact absurd h.symm hat
        · exact h
      rw [List.filter_cons]
      have hane : (a.id == t.id) = false := by
        rw [beq_eq_false_iff_ne]
        intro hc
        exact ha (hc ▸ List.mem_map.mpr ⟨t, htr, rfl⟩)
      rw [hane]
      exact ih hnd2 htr

theorem locate_nil_of_no_match (iid : Nat) :
    ∀ (bs : List Block),
      (∀ b ∈ bs, ∀ j ∈ b.instrs, (j.id == iid) = false) →
      locate { blocks := bs } iid = [] := by
  intro bs
  induction bs with
  | nil => intro _; rfl
  | cons c rest ih =>
    intro h
    rw [locate_cons, filter_id_nil iid c.instrs (h c (List.mem_cons_self c rest))]
    rw [List.map_nil, List.nil_append]
    exact ih (fun b hb => h b (List.mem_cons_of_mem c hb))

theorem locate_singleton_of_nodup (f : Fn) (b : Block) (t : Instr)
    (hnd : ((allInstrs f).map Instr.id).Nodup)
    (hb : b ∈ f.blocks) (ht : t ∈ b.instrs) :
    locate f t.id = [(b.id, t)] := by
  obtain ⟨bs⟩ := f
  induction bs with
  | nil => exact absurd hb (List.not_mem_nil b)
  | cons c rest ih =>
    rw [allInstrs_cons, List.map_append, List.nodup_append] at hnd
    obtain ⟨hndc, hndr, hdisj⟩ := hnd
    rw [locate_cons]
    rcases List.mem_cons.mp hb with hbc | hbr
    · subst hbc
      have hnm : ∀ b2 ∈ rest, ∀ j ∈ b2.instrs, (j.id == t.id) = false := by
        intro b2 hb2 j hj
        rw [beq_eq_false_iff_ne]
        intro hc
        exact hdisj (List.mem_map.mpr ⟨t, ht, rfl⟩)
          (hc ▸ List.mem_map.mpr ⟨j, mem_allInstrs { blocks := rest } b2 j hb2 hj, rfl⟩)
      rw [filter_id_singleton t b.instrs hndc ht,
        locate_nil_of_no_match t.id rest hnm]
      simp
    · have hnm : ∀ j ∈ c.instrs, (j.id == t.id) = false := by
        intro j hj
        rw [beq_eq_false_iff_ne]
        intro hc
        exact hdisj (hc ▸ List.mem_map.mpr ⟨j, hj, rfl⟩)
          (List.mem_map.mpr ⟨t, mem_allInstrs { blocks := rest } b t hbr ht, rfl⟩)
      rw [filter_id_nil t.id c.instrs hnm, List.map_nil, List.nil_append]
      exact ih hndr hbr

/-- **C1 (counterexample).** The loop of `exA` stores through an unresolved
pointer (a function argument) and never through the global `@0`; by the
claim the load of `@0` should be hoisted, but `CanMoveOutofLoop` rejects it
because `NoPossibleStoresToAddressInLoop` also fails on stores whose
destination is neither an alloca nor a global: the function is returned
unchanged and the load stays in the loop body. -/
theorem C1_counterexample :
    specNoStoreToAddress exA loopA (Val.gvar 0) = true ∧
    NoPossibleStoresToAddressInLoop exA loopA (Val.gvar 0) = false ∧
    (OptimizeLoop2 loopA stA).fn = exA ∧
    occBeforeTermB (OptimizeLoop2 loopA stA).fn 0 (loadG 10 0) = false := by
  decide

/-- **C1 (amended).** For a loop with a preheader and a non-volatile load
in the loop whose address is a global variable, under IR well-formedness
(unique instruction and block ids, terminator-ended blocks, a well-formed
loop nest over the function's blocks): the pass leaves the load placed
alone in the preheader, before its terminator, if and only if
`NoPossibleStoresToAddressInLoop` accepts the address — i.e. no store of
the loop targets that global syntactically AND every store's destination
is an alloca or a global; a store through an unresolved pointer blocks the
hoist, contrary to the claim's final clause. -/
theorem C1_global_load_hoist_iff_safe_scan
    (st : PassState) (bids : List Nat) (ph : Nat) (subs : List Loop)
    (g : Nat) (t : Instr) (b : Block)
    (hnd : ((allInstrs st.fn).map Instr.id).Nodup)
    (hbd : (blockIdList st.fn).Nodup)
    (hterm : ∀ c ∈ st.fn.blocks, lastIsTerminator c = true)
    (hwf : wfLoopB (blockIdList st.fn) (Loop.mk bids (some ph) subs) = true)
    (htk : t.kind = IKind.load) (htv : t.isVolatile = false)
    (hta : getOperand t 0 = Val.gvar g)
    (hb : b ∈ st.fn.blocks) (htb : t ∈ b.instrs) (hbL : b.id ∈ bids) :
    posDone ph t (OptimizeLoop2 (Loop.mk bids (some ph) subs) st).fn ↔
      NoPossibleStoresToAddressInLoop st.fn (Loop.mk bids (some ph) subs)
        (Val.gvar g) = true := by
  obtain ⟨hall, hpre, hsubs⟩ := wfLoopB_parts (blockIdList st.fn) bids (some ph)
    subs hwf
  have hphBL : ph ∈ blockIdList st.fn := List.elem_iff.mp (hpre ph rfl).1
  have hphL : ph ∉ bids := by
    intro hc
    have h2 := (hpre ph rfl).2
    have h3 : bids.contains ph = true := List.elem_iff.mpr hc
    exact Bool.noConfusion (h3.symm.trans h2)
  have hLBL : ∀ x ∈ bids, x ∈ blockIdList st.fn := by
    intro x hx
    exact List.elem_iff.mp (List.all_eq_true.mp hall x hx)
  have hfacts : ∀ S ∈ subs,
      wfLoopB (blockIdList st.fn) S = true ∧
        (∀ x ∈ S.blockIds, x ∈ (Loop.mk bids (some ph) subs).blockIds) ∧
        (∀ p, S.preheader = some p → p ∈ (Loop.mk bids (some ph) subs).blockIds) := by
    intro S hS
    obtain ⟨h1, h2, h3⟩ := wfSubsB_mem (blockIdList st.fn) bids subs S hsubs hS
    refine ⟨h3, ?_, ?_⟩
    · intro x hx
      exact List.elem_iff.mp (List.all_eq_true.mp h1 x hx)
    · intro p hp
      exact List.elem_iff.mp (h2 p hp)
  have hpos0 : posIn (Loop.mk bids (some ph) subs) t st.fn :=
    ⟨b.id, hbL, locate_singleton_of_nodup st.fn b t hnd hb htb⟩
  rw [OptimizeLoop2_preheader]
  constructor
  · intro hdone
    cases hV : NoPossibleStoresToAddressInLoop st.fn (Loop.mk bids (some ph) subs)
        (Val.gvar g) with
    | true => rfl
    | false =>
      exfalso
      have inv0 : MarchCore (Loop.mk bids (some ph) subs) (Val.gvar g) false []
          (blockIdList st.fn) st.fn :=
        ⟨hnd, hbd, hterm, rfl, hV, fun d hd => absurd hd (List.not_mem_nil d)⟩
      obtain ⟨invS, posS, _⟩ := OptimizeSubLoops_march_sub subs
        (Loop.mk bids (some ph) subs) t (Val.gvar g) false [] (blockIdList st.fn)
        { st with stats := { st.stats with numLoops := st.stats.numLoops + 1 } }
        hfacts hLBL inv0 hpos0
      have hstay : ∀ (hs2 : Bool) (st2 : PassState),
          MarchCore (Loop.mk bids (some ph) subs) (Val.gvar g) false []
            (blockIdList st.fn) st2.fn →
          posIn (Loop.mk bids (some ph) subs) t st2.fn →
          processInstr (Loop.mk bids (some ph) subs) ph hs2 st2 t = st2 := by
        intro hs2 st2 inv2 pos2
        obtain ⟨_, _, _, h4⟩ := processInstr_body_t_c1 hs2 st2
          (Loop.mk bids (some ph) subs) ph t g false [] (blockIdList st.fn)
          hphBL htk htv hta (fun d hd => absurd hd (List.not_mem_nil d)) inv2 pos2
        exact h4 rfl
      obtain ⟨_, posF⟩ := body_march_stay (Loop.mk bids (some ph) subs) ph t
        (Val.gvar g) false [] (blockIdList st.fn) rfl hphBL hstay bids
        (OptimizeSubLoops subs
          { st with stats := { st.stats with numLoops := st.stats.numLoops + 1 } },
         false)
        (fun y hy => hy) invS posS
      obtain ⟨x, hxL, hloc⟩ := posF
      have h2 : (x, t) = (ph, t) := by
        have := hloc.symm.trans hdone.1
        simpa using this
      have h3 : x = ph := (Prod.mk.injEq _ _ _ _ ▸ h2).1
      exact hphL (h3 ▸ hxL)
  · intro hV
    have inv0 : MarchCore (Loop.mk bids (some ph) subs) (Val.gvar g) true []
        (blockIdList st.fn) st.fn :=
      ⟨hnd, hbd, hterm, rfl, hV, fun d hd => absurd hd (List.not_mem_nil d)⟩
    obtain ⟨invS, posS, _⟩ := OptimizeSubLoops_march_sub subs
      (Loop.mk bids (some ph) subs) t (Val.gvar g) true [] (blockIdList st.fn)
      { st with stats := { st.stats with numLoops := st.stats.numLoops + 1 } }
      hfacts hLBL inv0 hpos0
    have hhit : ∀ (hs2 : Bool) (st2 : PassState),
        MarchCore (Loop.mk bids (some ph) subs) (Val.gvar g) true []
          (blockIdList st.fn) st2.fn →
        posIn (Loop.mk bids (some ph) subs) t st2.fn →
        MarchCore (Loop.mk bids (some ph) subs) (Val.gvar g) true []
          (blockIdList st.fn)
          (processInstr (Loop.mk bids (some ph) subs) ph hs2 st2 t).fn ∧
        (∀ x, x ∈ allInstrs st2.fn →
          x ∈ allInstrs (processInstr (Loop.mk bids (some ph) subs) ph hs2 st2 t).fn) ∧
        posDone ph t (processInstr (Loop.mk bids (some ph) subs) ph hs2 st2 t).fn := by
      intro hs2 st2 inv2 pos2
      obtain ⟨h1, h2, h3, _⟩ := processInstr_body_t_c1 hs2 st2
        (Loop.mk bids (some ph) subs) ph t g true [] (blockIdList st.fn)
        hphBL htk htv hta (fun d hd => absurd hd (List.not_mem_nil d)) inv2 pos2
      exact ⟨h1, h2, h3 rfl⟩
    have hsit : posDone ph t (OptimizeSubLoops subs
        { st with stats := { st.stats with numLoops := st.stats.numLoops + 1 } }).fn ∨
        ∃ x, x ∈ bids ∧ x ∈ (Loop.mk bids (some ph) subs).blockIds ∧
          locate (OptimizeSubLoops subs
            { st with stats :=
              { st.stats with numLoops := st.stats.numLoops + 1 } }).fn t.id =
            [(x, t)] := by
      obtain ⟨x, hxL, hloc⟩ := posS
      exact Or.inr ⟨x, hxL, hxL, hloc⟩
    obtain ⟨_, hdF⟩ := body_march_hoist (Loop.mk bids (some ph) subs) ph t
      (Val.gvar g) true [] (blockIdList st.fn) rfl hphBL hphL hhit bids
      (OptimizeSubLoops subs
        { st with stats := { st.stats with numLoops := st.stats.numLoops + 1 } },
       false)
      (fun y hy => hy) invS hsit
    exact hdF

theorem C1_global_load_hoist_iff_safe_scan_witness :
    posDone 0 (loadG 10 0)
      (OptimizeLoop2 (Loop.mk [1] (some 0) []) stB).fn :=
  (C1_global_load_hoist_iff_safe_scan stB [1] 0 [] 0 (loadG 10 0)
      { id := 1, instrs := [loadG 10 0, brI 91 1] }
      (by decide) (by decide) (by decide) (by decide) rfl rfl rfl
      (by decide) (by decide) (by decide)).mpr (by decide)

theorem basicEvCount_append (a b : List MoveEv) :
    basicEvCount (a ++ b) = basicEvCount a + basicEvCount b := by
  unfold basicEvCount
  rw [List.filter_append, List.length_append]

/-- **C5 (counterexample).** The call `callI` is neither a load nor a store
and all its operands are loop-invariant, yet the pass does not relocate it
and the ordinary-hoist counter stays at zero: `makeLoopInvariant` also
requires `isSafeToSpeculativelyExecute`, which rejects calls, so "not a
memory read or write with invariant operands" does not suffice for the
relocation the claim asserts. -/
theorem C5_counterexample :
    NotALoadOrStore callI = true ∧
    AreAllOperandsLoopInvaraint exD loopA callI = true ∧
    (OptimizeLoop2 loopA stD).fn = exD ∧
    (OptimizeLoop2 loopA stD).stats.licmBasic = 0 ∧
    occBeforeTermB (OptimizeLoop2 loopA stD).fn 0 callI = false := by
  decide

/-- **C5 (amended).** For a loop with a preheader, an instruction of the
loop that is neither a load nor a store, is moreover safe to speculatively
execute (the extra requirement of `makeLoopInvariant` that the claim
omits), and whose operands are all loop-invariant at entry, ends up placed
alone in the preheader before its terminator; and across the loop walk the
ordinary-hoist counter `LICMBasic` advances exactly by the number of
non-load relocations recorded in the move log. -/
theorem C5_ordinary_speculatable_hoisted
    (st : PassState) (bids : List Nat) (ph : Nat) (subs : List Loop)
    (t : Instr) (b : Block)
    (hnd : ((allInstrs st.fn).map Instr.id).Nodup)
    (hbd : (blockIdList st.fn).Nodup)
    (hterm : ∀ c ∈ st.fn.blocks, lastIsTerminator c = true)
    (hwf : wfLoopB (blockIdList st.fn) (Loop.mk bids (some ph) subs) = true)
    (htn : NotALoadOrStore t = true)
    (hts : isSafeToSpeculativelyExecute t.kind = true)
    (hinv : AreAllOperandsLoopInvaraint st.fn (Loop.mk bids (some ph) subs) t = true)
    (hb : b ∈ st.fn.blocks) (htb : t ∈ b.instrs) (hbL : b.id ∈ bids) :
    posDone ph t (OptimizeLoop2 (Loop.mk bids (some ph) subs) st).fn ∧
    (OptimizeLoop2 (Loop.mk bids (some ph) subs) st).stats.licmBasic +
        basicEvCount st.log =
      st.stats.licmBasic +
        basicEvCount (OptimizeLoop2 (Loop.mk bids (some ph) subs) st).log := by
  obtain ⟨hall, hpre, hsubs⟩ := wfLoopB_parts (blockIdList st.fn) bids (some ph)
    subs hwf
  have hphBL : ph ∈ blockIdList st.fn := List.elem_iff.mp (hpre ph rfl).1
  have hphL : ph ∉ bids := by
    intro hc
    have h2 := (hpre ph rfl).2
    have h3 : bids.contains ph = true := List.elem_iff.mpr hc
    exact Bool.noConfusion (h3.symm.trans h2)
  have hLBL : ∀ x ∈ bids, x ∈ blockIdList st.fn := by
    intro x hx
    exact List.elem_iff.mp (List.all_eq_true.mp hall x hx)
  have hfacts : ∀ S ∈ subs,
      wfLoopB (blockIdList st.fn) S = true ∧
        (∀ x ∈ S.blockIds, x ∈ (Loop.mk bids (some ph) subs).blockIds) ∧
        (∀ p, S.preheader = some p → p ∈ (Loop.mk bids (some ph) subs).blockIds) := by
    intro S hS
    obtain ⟨h1, h2, h3⟩ := wfSubsB_mem (blockIdList st.fn) bids subs S hsubs hS
    refine ⟨h3, ?_, ?_⟩
    · intro x hx
      exact List.elem_iff.mp (List.all_eq_true.mp h1 x hx)
    · intro p hp
      exact List.elem_iff.mp (h2 p hp)
  have hloc0 : locate st.fn t.id = [(b.id, t)] :=
    locate_singleton_of_nodup st.fn b t hnd hb htb
  have hpos0 : posIn (Loop.mk bids (some ph) subs) t st.fn := ⟨b.id, hbL, hloc0⟩
  have hdout : ∀ d ∈ resIds t.operands,
      defInLoop st.fn (Loop.mk bids (some ph) subs) d = false := by
    intro d hd
    obtain ⟨v, hv, hvd⟩ := List.mem_filterMap.mp hd
    cases v with
    | res d2 k =>
      have hd2 : d2 = d := Option.some.inj hvd
      subst hd2
      have h1 := List.all_eq_true.mp hinv (Val.res d2 k) hv
      have h2 : (!defInLoop st.fn (Loop.mk bids (some ph) subs) d2) = true := h1
      simpa using h2
    | const n => exact Option.noConfusion hvd
    | arg n => exact Option.noConfusion hvd
    | gvar n => exact Option.noConfusion hvd
    | label n => exact Option.noConfusion hvd
  have htD : ∀ d ∈ resIds t.operands, t.id ≠ d := by
    intro d hd heq
    have hfalse := hdout d hd
    have htrue : defInLoop st.fn (Loop.mk bids (some ph) subs) t.id = true := by
      rw [defInLoop_eq_locate, hloc0]
      rw [List.any_cons]
      simp only [List.any_nil, Bool.or_false]
      simpa using hbL
    rw [heq] at htrue
    exact Bool.noConfusion (htrue.symm.trans hfalse)
  have htres : ∀ v ∈ t.operands, ∀ d k, v = Val.res d k →
      d ∈ resIds t.operands := by
    intro v hv d k hveq
    subst hveq
    exact List.mem_filterMap.mpr ⟨Val.res d k, hv, rfl⟩
  constructor
  · rw [OptimizeLoop2_preheader]
    have inv0 : MarchCore (Loop.mk bids (some ph) subs) (Val.const 0)
        (NoPossibleStoresToAddressInLoop st.fn (Loop.mk bids (some ph) subs)
          (Val.const 0))
        (resIds t.operands) (blockIdList st.fn) st.fn :=
      ⟨hnd, hbd, hterm, rfl, rfl, hdout⟩
    obtain ⟨invS, posS, _⟩ := OptimizeSubLoops_march_sub subs
      (Loop.mk bids (some ph) subs) t (Val.const 0)
      (NoPossibleStoresToAddressInLoop st.fn (Loop.mk bids (some ph) subs)
        (Val.const 0))
      (resIds t.operands) (blockIdList st.fn)
      { st with stats := { st.stats with numLoops := st.stats.numLoops + 1 } }
      hfacts hLBL inv0 hpos0
    have hhit : ∀ (hs2 : Bool) (st2 : PassState),
        MarchCore (Loop.mk bids (some ph) subs) (Val.const 0)
          (NoPossibleStoresToAddressInLoop st.fn (Loop.mk bids (some ph) subs)
            (Val.const 0))
          (resIds t.operands) (blockIdList st.fn) st2.fn →
        posIn (Loop.mk bids (some ph) subs) t st2.fn →
        MarchCore (Loop.mk bids (some ph) subs) (Val.const 0)
          (NoPossibleStoresToAddressInLoop st.fn (Loop.mk bids (some ph) subs)
            (Val.const 0))
          (resIds t.operands) (blockIdList st.fn)
          (processInstr (Loop.mk bids (some ph) subs) ph hs2 st2 t).fn ∧
        (∀ x, x ∈ allInstrs st2.fn →
          x ∈ allInstrs (processInstr (Loop.mk bids (some ph) subs) ph hs2 st2 t).fn) ∧
        posDone ph t (processInstr (Loop.mk bids (some ph) subs) ph hs2 st2 t).fn := by
      intro hs2 st2 inv2 pos2
      exact processInstr_body_t_c5 hs2 st2 (Loop.mk bids (some ph) subs) ph t
        (Val.const 0)
        (NoPossibleStoresToAddressInLoop st.fn (Loop.mk bids (some ph) subs)
          (Val.const 0))
        (resIds t.operands) (blockIdList st.fn) rfl hphBL htn hts htres htD
        inv2 pos2
    have hsit : posDone ph t (OptimizeSubLoops subs
        { st with stats := { st.stats with numLoops := st.stats.numLoops + 1 } }).fn ∨
        ∃ x, x ∈ bids ∧ x ∈ (Loop.mk bids (some ph) subs).blockIds ∧
          locate (OptimizeSubLoops subs
            { st with stats :=
              { st.stats with numLoops := st.stats.numLoops + 1 } }).fn t.id =
            [(x, t)] := by
      obtain ⟨x, hxL, hloc⟩ := posS
      exact Or.inr ⟨x, hxL, hxL, hloc⟩
    obtain ⟨_, hdF⟩ := body_march_hoist (Loop.mk bids (some ph) subs) ph t
      (Val.const 0)
      (NoPossibleStoresToAddressInLoop st.fn (Loop.mk bids (some ph) subs)
        (Val.const 0))
      (resIds t.operands) (blockIdList st.fn) rfl hphBL hphL hhit bids
      (OptimizeSubLoops subs
        { st with stats := { st.stats with numLoops := st.stats.numLoops + 1 } },
       false)
      (fun y hy => hy) invS hsit
    exact hdF
  · obtain ⟨d, hlog, _, _, hbasic⟩ :=
      OptimizeLoop2_trace (Loop.mk bids (some ph) subs) st
    rw [hlog, hbasic, basicEvCount_append]
    omega

theorem C5_ordinary_speculatable_hoisted_witness :
    posDone 0 exE1
      (OptimizeLoop2 (Loop.mk [1] (some 0) [])
        { fn := exE, stats := {}, log := [] }).fn ∧
    (OptimizeLoop2 (Loop.mk [1] (some 0) [])
        { fn := exE, stats := {}, log := [] }).stats.licmBasic +
        basicEvCount ({ fn := exE, stats := {}, log := [] } : PassState).log =
      ({ fn := exE, stats := {}, log := [] } : PassState).stats.licmBasic +
        basicEvCount (OptimizeLoop2 (Loop.mk [1] (some 0) [])
          { fn := exE, stats := {}, log := [] }).log :=
  C5_ordinary_speculatable_hoisted { fn := exE, stats := {}, log := [] }
    [1] 0 [] exE1 { id := 1, instrs := [exE2, exE1, brI 91 1] }
    (by decide) (by decide) (by decide) (by decide) rfl rfl (by decide)
    (by decide) (by decide) (by decide)
